import Mathlib

/-!
Verification of the graph search engine of the Algorithm_Tutorial repository.

The development shallowly embeds the Python sources:
  * `src/data_structures/graph.py`   (class `Graph`)
  * `src/data_structures/heap.py`    (class `MinHeap`)
  * `src/searching/graph_search.py`  (classes `DepthFirstSearch`, `BreadthFirstSearch`)
  * `src/searching/heuristic_search.py` (class `AStarSearch`)

Python `dict`s (which preserve insertion order) are embedded as association
lists `List (K × β)`; Python `float` edge weights are embedded as `ℚ` (every
weight handled by the specification is an exact small number); Python `int`
counters are embedded as `ℤ`.  A method that returns a success flag and
mutates `self` is embedded as a function returning the flag together with
the new state.  A `try`/`except` block that catches an exception and
returns `False` is embedded by returning `false` together with the state as
mutated up to the point where the exception is raised.

The bodies of the search algorithms themselves (`DepthFirstSearch.search`,
`DepthFirstSearch.find_path`, `BreadthFirstSearch.search`,
`BreadthFirstSearch.find_shortest_path`, `AStarSearch.search`,
`AStarSearch._reconstruct_path`) are `pass` stubs in the repository (it is a
tutorial skeleton); those functions are modelled from the specification, as
their doc comments state.  Loops whose termination is not structural are
embedded with an explicit fuel parameter; exhausted fuel yields `none` and
models non-termination.
-/

namespace AlgTut

/-- Lookup in an insertion-ordered association list (Python `d[k]` /
`d.get(k)`): the value of the first pair whose key is `k`. -/
def alGet {K β : Type} [DecidableEq K] : List (K × β) → K → Option β
  | [], _ => none
  | (k', v') :: rest, k => if k' = k then some v' else alGet rest k

/-- Insertion-ordered association-list assignment (Python `d[k] = v`):
updates the first pair with key `k` in place, or appends a new pair. -/
def alSet {K β : Type} [DecidableEq K] : List (K × β) → K → β → List (K × β)
  | [], k, v => [(k, v)]
  | (k', v') :: rest, k, v =>
      if k' = k then (k, v) :: rest else (k', v') :: alSet rest k v

/-- Association-list removal (Python `d.pop(k)` when `k` is present):
removes the first pair with key `k`. -/
def alErase {K β : Type} [DecidableEq K] : List (K × β) → K → List (K × β)
  | [], _ => []
  | (k', v') :: rest, k =>
      if k' = k then rest else (k', v') :: alErase rest k

/-- The keys of an association list, in insertion order. -/
def alKeys {K β : Type} (l : List (K × β)) : List K := l.map Prod.fst

/-- Embedding of `src/data_structures/graph.py`, class `Graph`.
`vertices` holds the vertex keys in insertion order (the per-vertex payload
`data` is never observed by any search operation and is not modelled);
`edges` is the adjacency dictionary `{vertex_id: {neighbor_id: weight}}`;
`size` and `edge_count` are the counters maintained by the class. -/
structure Graph (V : Type) where
  directed : Bool
  vertices : List V
  edges : List (V × List (V × ℚ))
  size : ℤ
  edge_count : ℤ
deriving Repr, DecidableEq

namespace Graph

variable {V : Type} [DecidableEq V]

/-- `Graph.__init__`. -/
def empty (directed : Bool) : Graph V :=
  { directed := directed, vertices := [], edges := [], size := 0, edge_count := 0 }

/-- `Graph.add_vertex`: fails (returns `False`) if the vertex exists,
otherwise records the vertex with an empty adjacency row. -/
def add_vertex (g : Graph V) (v : V) : Bool × Graph V :=
  if v ∈ g.vertices then (false, g)
  else (true, { g with
    vertices := g.vertices ++ [v],
    edges := g.edges ++ [(v, [])],
    size := g.size + 1 })

/-- `Graph.add_edge`: fails if an endpoint is missing or the edge exists;
otherwise stores the edge, and for an undirected graph with distinct
endpoints also the reverse edge, incrementing `edge_count` once per stored
direction.  The arms returning `(false, _)` after a partial mutation embed
`KeyError`s raised on states whose `edges` keys do not cover the accessed
vertex (caught by the surrounding `except`, which returns `False`). -/
def add_edge (g : Graph V) (u v : V) (w : ℚ) : Bool × Graph V :=
  if u ∉ g.vertices ∨ v ∉ g.vertices then (false, g)
  else
    match alGet g.edges u with
    | none => (false, g)
    | some row =>
      if v ∈ alKeys row then (false, g)
      else
        let g1 : Graph V := { g with
          edges := alSet g.edges u (alSet row v w),
          edge_count := g.edge_count + 1 }
        if ¬g.directed ∧ u ≠ v then
          match alGet g1.edges v with
          | none => (false, g1)
          | some row2 => (true, { g1 with
              edges := alSet g1.edges v (alSet row2 u w),
              edge_count := g1.edge_count + 1 })
        else (true, g1)

/-- `Graph.remove_edge`: fails if an endpoint or the edge is missing;
otherwise removes the stored direction (and, for an undirected graph with
distinct endpoints, the reverse direction), decrementing `edge_count` once
per removed direction.  As in `add_edge`, `(false, _)` arms after a partial
mutation embed caught `KeyError`s on non-well-formed states. -/
def remove_edge (g : Graph V) (u v : V) : Bool × Graph V :=
  if u ∉ g.vertices ∨ v ∉ g.vertices then (false, g)
  else
    match alGet g.edges u with
    | none => (false, g)
    | some row =>
      if v ∉ alKeys row then (false, g)
      else
        let g1 : Graph V := { g with
          edges := alSet g.edges u (alErase row v),
          edge_count := g.edge_count - 1 }
        if ¬g.directed ∧ u ≠ v then
          match alGet g1.edges v with
          | none => (false, g1)
          | some row2 =>
            if u ∈ alKeys row2 then
              (true, { g1 with
                edges := alSet g1.edges v (alErase row2 u),
                edge_count := g1.edge_count - 1 })
            else (false, g1)
        else (true, g1)

/-- One step of the undirected loop of `Graph.remove_vertex`
(`for neighbor in self.edges[vertex_id]: self.edges[neighbor].pop(vertex_id);
self.edge_count -= 1`).  Processes the (snapshot of the) key list of the
removed vertex's row.  Returns `(completed?, new edges, number of
decrements)`.  When the neighbor equals the removed vertex itself (a
self-loop), the `pop` mutates the dictionary being iterated, so CPython
raises `RuntimeError` at the next call of the iterator: the pop and the
decrement still happen, but the loop — and the whole method — aborts
(`completed? = false`).  A missing reverse entry raises `KeyError` with the
same abort behaviour but without the decrement. -/
def rvLoopU : List (V × List (V × ℚ)) → V → List V → Bool × List (V × List (V × ℚ)) × ℤ
  | edges, _, [] => (true, edges, 0)
  | edges, v, n :: rest =>
    match alGet edges n with
    | none => (false, edges, 0)
    | some rn =>
      if v ∈ alKeys rn then
        let edges' := alSet edges n (alErase rn v)
        if n = v then (false, edges', 1)
        else
          let r := rvLoopU edges' v rest
          (r.1, r.2.1, r.2.2 + 1)
      else (false, edges, 0)

/-- `Graph.remove_vertex`.  Directed case: decrements `edge_count` once per
out-neighbor, then pops the removed vertex from every row (including its
own row, so a self-loop is decremented twice), then deletes the vertex and
its row.  Undirected case: iterates the removed vertex's row via
`rvLoopU`; if the loop completes, deletes the vertex and its row; if it
aborts (self-loop or asymmetric state), the caught exception makes the
method return `False` with the partially mutated state. -/
def remove_vertex (g : Graph V) (v : V) : Bool × Graph V :=
  if v ∉ g.vertices then (false, g)
  else
    match alGet g.edges v with
    | none => (false, g)
    | some row =>
      if g.directed then
        let ec1 := g.edge_count - row.length
        let hit := (g.edges.filter (fun p => v ∈ alKeys p.2)).length
        let edges1 := g.edges.map (fun p =>
          if v ∈ alKeys p.2 then (p.1, alErase p.2 v) else p)
        (true, { g with
          vertices := g.vertices.erase v,
          edges := alErase edges1 v,
          size := g.size - 1,
          edge_count := ec1 - hit })
      else
        let r := rvLoopU g.edges v (alKeys row)
        if r.1 then
          (true, { g with
            vertices := g.vertices.erase v,
            edges := alErase r.2.1 v,
            size := g.size - 1,
            edge_count := g.edge_count - r.2.2 })
        else
          (false, { g with edges := r.2.1, edge_count := g.edge_count - r.2.2 })

/-- `Graph.get_neighbors`: empty list for an unknown vertex, otherwise the
adjacency row in insertion order. -/
def get_neighbors (g : Graph V) (v : V) : List (V × ℚ) :=
  if v ∈ g.vertices then (alGet g.edges v).getD [] else []

/-- `Graph.has_edge`. -/
def has_edge (g : Graph V) (u v : V) : Bool :=
  if u ∉ g.vertices ∨ v ∉ g.vertices then false
  else v ∈ alKeys ((alGet g.edges u).getD [])

/-- `Graph.get_edge_weight`: the stored weight, or `None` if the edge is
absent. -/
def get_edge_weight (g : Graph V) (u v : V) : Option ℚ :=
  if g.has_edge u v then alGet ((alGet g.edges u).getD []) v else none

/-- `Graph.get_edges`: every stored directed entry `(from, to, weight)`. -/
def get_edges (g : Graph V) : List (V × V × ℚ) :=
  g.edges.flatMap (fun p => p.2.map (fun e => (p.1, e.1, e.2)))

/-- Well-formedness maintained by the `Graph` API: distinct vertices, the
`edges` dictionary has exactly the vertices as keys (in the same order),
every adjacency row has distinct keys, and every stored neighbor key is a
vertex. -/
def WF (g : Graph V) : Prop :=
  g.vertices.Nodup ∧
  alKeys g.edges = g.vertices ∧
  (∀ p ∈ g.edges, (alKeys p.2).Nodup ∧ ∀ e ∈ p.2, e.1 ∈ g.vertices)

instance (g : Graph V) : Decidable (WF g) := by
  unfold WF; infer_instance

end Graph

/-- A stored directed edge: `(v, w)` is an entry of the adjacency row that
`get_neighbors u` yields. -/
def EdgeIn {V : Type} [DecidableEq V] (g : Graph V) (u v : V) (w : ℚ) : Prop :=
  (v, w) ∈ g.get_neighbors u

instance {V : Type} [DecidableEq V] [DecidableEq ℚ] (g : Graph V) (u v : V) (w : ℚ) :
    Decidable (EdgeIn g u v w) := by
  unfold EdgeIn; infer_instance

/-- The stored weight of the first adjacency entry `u → v` (used to give a
path a well-defined cost; under `Graph.WF` rows have distinct keys, so it
is the unique entry). -/
def weightOf {V : Type} [DecidableEq V] (g : Graph V) (u v : V) : Option ℚ :=
  alGet (g.get_neighbors u) v

/-- `IsPath g a b p`: `p` is a nonempty vertex list realizing consecutive
stored edges from `a` to `b`. -/
inductive IsPath {V : Type} [DecidableEq V] (g : Graph V) : V → V → List V → Prop
  | single (v : V) : IsPath g v v [v]
  | cons {a b c : V} {p : List V} {w : ℚ} :
      EdgeIn g a b w → IsPath g b c p → IsPath g a c (a :: p)

/-- The cost of a vertex list: the sum of the stored weights of its
consecutive steps. -/
def costOf {V : Type} [DecidableEq V] (g : Graph V) : List V → ℚ
  | [] => 0
  | [_] => 0
  | a :: b :: rest => (weightOf g a b).getD 0 + costOf g (b :: rest)

/-- Embedding of `src/data_structures/heap.py`, class `MinHeap`: the
`data` array and the `size` counter (kept equal to the array length by
every operation the claims quantify over).  Elements are embedded as `ℤ`. -/
structure MinHeap where
  data : List ℤ
  size : ℕ
deriving Repr, DecidableEq

namespace MinHeap

/-- The heap state the body of `MinHeap.__init__` establishes
(`data = []`, `size = 0`).  In the program the call `MinHeap()` never
actually completes — Python's ABC protocol rejects it first; see
`MinHeap.instantiate` below. -/
def empty : MinHeap := { data := [], size := 0 }

/-- `data[i]` (all accesses made by the heap methods are in range when
`size = data.length`; the default only totalizes the function). -/
def idx (d : List ℤ) (i : ℕ) : ℤ := d.getD i 0

/-- The simultaneous assignment
`data[i], data[j] = data[j], data[i]`. -/
def swap (d : List ℤ) (i j : ℕ) : List ℤ :=
  (d.set i (idx d j)).set j (idx d i)

/-- The loop of `MinHeap._heapify_up`, structurally recursive on a fuel
bound.  The loop index strictly decreases, so any `fuel ≥ index`
reproduces the `while` loop exactly (at `fuel = 0` the guard `index > 0`
is forced false as well). -/
def heapify_up_go (d : List ℤ) (index : ℕ) : ℕ → List ℤ
  | 0 => d
  | fuel + 1 =>
    if 0 < index ∧ idx d index < idx d ((index - 1) / 2) then
      heapify_up_go (swap d index ((index - 1) / 2)) ((index - 1) / 2) fuel
    else d

/-- `MinHeap._heapify_up`: sift the element at `index` toward the root
while it is smaller than its parent. -/
def heapify_up (d : List ℤ) (index : ℕ) : List ℤ :=
  heapify_up_go d index index

/-- The `smallest` index computed by one iteration of
`MinHeap._heapify_down`: the smaller in-range child of `index`, or `index`
itself. -/
def downTarget (d : List ℤ) (size index : ℕ) : ℕ :=
  let l := 2 * index + 1
  let r := 2 * index + 2
  let s1 := if l < size ∧ idx d l < idx d index then l else index
  if r < size ∧ idx d r < idx d s1 then r else s1

/-- The loop of `MinHeap._heapify_down`, structurally recursive on a fuel
bound.  The loop index strictly increases while staying below `size`, so
any `fuel ≥ size - index` reproduces the `while` loop exactly (at
`fuel = 0` the index is already out of child range and the loop would stop
anyway). -/
def heapify_down_go (size : ℕ) (d : List ℤ) (index : ℕ) : ℕ → List ℤ
  | 0 => d
  | fuel + 1 =>
    let s2 := downTarget d size index
    if s2 = index then d
    else heapify_down_go size (swap d index s2) s2 fuel

/-- `MinHeap._heapify_down`: sift the element at `index` toward the leaves
while it is larger than its smallest in-range child. -/
def heapify_down (d : List ℤ) (size index : ℕ) : List ℤ :=
  heapify_down_go size d index size

/-- `MinHeap.insert`: append, then sift up. -/
def insert (st : MinHeap) (item : ℤ) : MinHeap :=
  let d := st.data ++ [item]
  let n := st.size + 1
  { data := heapify_up d (n - 1), size := n }

/-- `MinHeap.delete`: locate the first occurrence of `item` by linear scan;
move the last element into its slot, pop the last slot, and sift down if
elements remain.  Returns the success flag and the new state. -/
def delete (st : MinHeap) (item : ℤ) : Bool × MinHeap :=
  match st.data.findIdx? (fun val => val = item) with
  | none => (false, st)
  | some index =>
    let d1 := (st.data.set index (idx st.data (st.data.length - 1))).dropLast
    let n := st.size - 1
    if 0 < n then (true, { data := heapify_down d1 n index, size := n })
    else (true, { data := d1, size := n })

/-- `MinHeap.extract_min`: `None` on an empty heap, otherwise the root,
removed via `delete` (whose scan finds index `0`). -/
def extract_min (st : MinHeap) : Option ℤ × MinHeap :=
  if st.size = 0 then (none, st)
  else
    let m := idx st.data 0
    (some m, (st.delete m).2)

/-- `MinHeap.peek_min`: `None` on an empty heap, otherwise the root. -/
def peek_min (st : MinHeap) : Option ℤ :=
  if st.size = 0 then none else some (idx st.data 0)

/-- `MinHeap.update`: replace the first occurrence of `old_item` with
`new_item`, then sift up if the value decreased, else sift down. -/
def update (st : MinHeap) (old_item new_item : ℤ) : Bool × MinHeap :=
  match st.data.findIdx? (fun val => val = old_item) with
  | none => (false, st)
  | some index =>
    let d1 := st.data.set index new_item
    if new_item < old_item then
      (true, { st with data := heapify_up d1 index })
    else
      (true, { st with data := heapify_down d1 st.size index })

/-- The loop `for i in range(size // 2 - 1, -1, -1): self._heapify_down(i)`
of `MinHeap.build_heap`: `buildLoop size d k` runs `heapify_down` at
indices `k-1, k-2, …, 0`. -/
def buildLoop (size : ℕ) : List ℤ → ℕ → List ℤ
  | d, 0 => d
  | d, k + 1 => buildLoop size (heapify_down d size k) k

/-- `MinHeap.build_heap`: replace the contents and heapify bottom-up from
the last non-leaf index. -/
def build_heap (_st : MinHeap) (items : List ℤ) : MinHeap :=
  { data := buildLoop items.length items (items.length / 2), size := items.length }

/-- The heap-order invariant of the specification: every index whose child
`2i+1` or `2i+2` lies inside the current size is no larger than that
child. -/
def heapInv (d : List ℤ) (size : ℕ) : Prop :=
  ∀ i c : ℕ, c < size → (c = 2 * i + 1 ∨ c = 2 * i + 2) → idx d i ≤ idx d c

instance (d : List ℤ) (size : ℕ) : Decidable (heapInv d size) :=
  decidable_of_iff
    (∀ i < size, (2 * i + 1 < size → idx d i ≤ idx d (2 * i + 1)) ∧
      (2 * i + 2 < size → idx d i ≤ idx d (2 * i + 2)))
    (by
      constructor
      · intro h i c hc hci
        rcases hci with h1 | h2
        · subst h1; exact (h i (by omega)).1 hc
        · subst h2; exact (h i (by omega)).2 hc
      · intro h i _
        exact ⟨fun hl => h i _ hl (Or.inl rfl), fun hr => h i _ hr (Or.inr rfl)⟩)

end MinHeap

/-- The `@abstractmethod` interface of `DataStructureBase`
(`src/core/data_structures.py`): `insert`, `delete`, `search`, `update`,
`__iter__`, `__len__`, `__contains__`. -/
def DataStructureBase.abstractMethods : List String :=
  ["insert", "delete", "search", "update", "__iter__", "__len__",
    "__contains__"]

/-- The methods `MinHeap` (`src/data_structures/heap.py`) defines that
override abstract methods of the base: `__contains__` is not among them. -/
def MinHeap.abstractOverrides : List String :=
  ["insert", "delete", "search", "update", "__len__", "__iter__"]

/-- The names `MinHeap` declares as a getter-only `@property` (no setter):
`is_empty` (`src/data_structures/heap.py`, lines 237-240). -/
def MinHeap.readOnlyProperties : List String :=
  ["is_empty"]

/-- `MinHeap.__abstractmethods__` as collected by Python's `ABCMeta`: the
abstract methods of the base that neither `MinHeap` nor any class of its
MRO overrides. -/
def MinHeap.unimplementedAbstract : List String :=
  DataStructureBase.abstractMethods.filter
    (fun m => decide (m ∉ MinHeap.abstractOverrides))

/-- The exceptions arising on the `MinHeap()` constructor path. -/
inductive PyInitError
  | typeError
  | attributeError
deriving DecidableEq, Repr

/-- Embedding of the Python call `MinHeap()`: `type.__call__` refuses to
instantiate a class whose `__abstractmethods__` set is nonempty
(`TypeError`); past that, `MinHeap.__init__` runs
`DataStructureBase.__init__`, whose assignment `self.is_empty = True`
(`src/core/data_structures.py`, line 47) falls on `MinHeap`'s getter-only
`is_empty` property (`AttributeError`); only past both checks would the
state `data = [], size = 0` of `MinHeap.empty` be produced. -/
def MinHeap.instantiate : Except PyInitError MinHeap :=
  if MinHeap.unimplementedAbstract.isEmpty then
    if "is_empty" ∈ MinHeap.readOnlyProperties then
      Except.error PyInitError.attributeError
    else Except.ok MinHeap.empty
  else Except.error PyInitError.typeError

/-- Descendant relation of the implicit binary-tree layout of the heap
array: `desc i j` holds when slot `j` lies in the subtree rooted at slot
`i` (children of `p` are `2p+1` and `2p+2`). -/
inductive desc : ℕ → ℕ → Prop
  | refl (i : ℕ) : desc i i
  | left {i j : ℕ} : desc i j → desc i (2 * j + 1)
  | right {i j : ℕ} : desc i j → desc i (2 * j + 2)

/-- The heap-order property restricted to the subtree rooted at `i`. -/
def SubHeap (d : List ℤ) (n i : ℕ) : Prop :=
  ∀ p c, desc i p → c < n → (c = 2 * p + 1 ∨ c = 2 * p + 2) →
    MinHeap.idx d p ≤ MinHeap.idx d c

/-- The operations the heap-invariant claim quantifies over. -/
inductive HeapOp
  | insert (x : ℤ)
  | extract
  | update (old_item new_item : ℤ)
  | build (items : List ℤ)

/-- Apply one operation to a heap state. -/
def applyOp (st : MinHeap) : HeapOp → MinHeap
  | .insert x => st.insert x
  | .extract => (st.extract_min).2
  | .update o n => (st.update o n).2
  | .build items => st.build_heap items

/-- Apply a sequence of operations to the empty heap. -/
def applyOps (ops : List HeapOp) : MinHeap :=
  ops.foldl applyOp MinHeap.empty

/-- The state soundness property of a heap: the tracked `size` equals the
stored array length and the array is heap-ordered up to `size`. -/
def HeapWF (st : MinHeap) : Prop :=
  st.size = st.data.length ∧ MinHeap.heapInv st.data st.size

section Searches

variable {V : Type} [DecidableEq V]

/-- Modelled from the spec: path reconstruction
(`AStarSearch._reconstruct_path`, and the reconstruction of
`BreadthFirstSearch.find_shortest_path`), whose body is a `pass` stub in
the source.  Walks `came_from` backward from `current` and appends; a
cyclic table would loop forever, which exhausts the fuel and yields
`none`. -/
def reconstructPath (cf : List (V × V)) (v : V) : ℕ → Option (List V)
  | 0 => none
  | fuel + 1 =>
    match alGet cf v with
    | none => some [v]
    | some u => (reconstructPath cf u fuel).map (fun p => p ++ [v])

mutual

/-- Modelled from the spec: the recursive visit of `DepthFirstSearch.search`
(a `pass` stub in the source): if unvisited, mark and record the vertex,
stop early on the target, else recurse into the neighbors in row order.
Returns `((visited, order), stopped?)`. -/
def dfsTravVisit (g : Graph V) (t? : Option V) (fuel : ℕ) (cur : V)
    (vis ord : List V) : (List V × List V) × Bool :=
  match fuel with
  | 0 => ((vis, ord), false)
  | fuel' + 1 =>
    if cur ∈ vis then ((vis, ord), false)
    else
      let vis' := vis ++ [cur]
      let ord' := ord ++ [cur]
      if t? = some cur then ((vis', ord'), true)
      else dfsTravLoop g t? fuel' (g.get_neighbors cur) vis' ord'
termination_by (fuel, 0)

/-- Modelled from the spec: the neighbor loop of `DepthFirstSearch.search`,
recursing into each unvisited neighbor in order and propagating the
early-stop flag. -/
def dfsTravLoop (g : Graph V) (t? : Option V) (fuel : ℕ) (nbrs : List (V × ℚ))
    (vis ord : List V) : (List V × List V) × Bool :=
  match nbrs with
  | [] => ((vis, ord), false)
  | (nb, _) :: rest =>
    if nb ∈ vis then dfsTravLoop g t? fuel rest vis ord
    else
      let r := dfsTravVisit g t? fuel nb vis ord
      if r.2 then r
      else dfsTravLoop g t? fuel rest r.1.1 r.1.2
termination_by (fuel, nbrs.length + 1)

end

mutual

/-- Modelled from the spec: the recursive visit of
`DepthFirstSearch.find_path` (a `pass` stub in the source): identical
traversal retaining the path stack; reaching the target returns the stack
contents, an exhausted branch backtracks.  Returns the found path (if any)
and the visited set. -/
def dfsPathVisit (g : Graph V) (t : V) (fuel : ℕ) (cur : V)
    (vis path : List V) : Option (List V) × List V :=
  match fuel with
  | 0 => (none, vis)
  | fuel' + 1 =>
    if cur = t then (some (path ++ [cur]), vis)
    else if cur ∈ vis then (none, vis)
    else dfsPathLoop g t fuel' (g.get_neighbors cur) (vis ++ [cur]) (path ++ [cur])
termination_by (fuel, 0)

/-- Modelled from the spec: the neighbor loop of
`DepthFirstSearch.find_path`, trying each unvisited neighbor in order. -/
def dfsPathLoop (g : Graph V) (t : V) (fuel : ℕ) (nbrs : List (V × ℚ))
    (vis path : List V) : Option (List V) × List V :=
  match nbrs with
  | [] => (none, vis)
  | (nb, _) :: rest =>
    if nb ∈ vis then dfsPathLoop g t fuel rest vis path
    else
      match dfsPathVisit g t fuel nb vis path with
      | (some p, vis') => (some p, vis')
      | (none, vis') => dfsPathLoop g t fuel rest vis' path
termination_by (fuel, nbrs.length + 1)

end

namespace DepthFirstSearch

/-- Modelled from the spec: `DepthFirstSearch.search` (a `pass` stub in the
source).  Unknown start vertex yields the empty visitation list. -/
def search (g : Graph V) (s : V) (t? : Option V) : List V :=
  if s ∈ g.vertices then (dfsTravVisit g t? (g.vertices.length + 1) s [] []).1.2
  else []

/-- Modelled from the spec: `DepthFirstSearch.find_path` (a `pass` stub in
the source).  Unknown start vertex or no path yields `None`. -/
def find_path (g : Graph V) (s t : V) : Option (List V) :=
  if s ∈ g.vertices then (dfsPathVisit g t (g.vertices.length + 1) s [] []).1
  else none

end DepthFirstSearch

/-- Modelled from the spec: the enqueue step of
`BreadthFirstSearch.search`, adding each unvisited neighbor to the FIFO
frontier and marking it visited at enqueue time. -/
def bfsTravEnq : List (V × ℚ) → List V → List V → List V × List V
  | [], q, vis => (q, vis)
  | (nb, _) :: rest, q, vis =>
    if nb ∈ vis then bfsTravEnq rest q vis
    else bfsTravEnq rest (q ++ [nb]) (vis ++ [nb])

/-- Modelled from the spec: the dequeue loop of
`BreadthFirstSearch.search`: dequeue, record, stop if the target was
reached, else enqueue the unvisited neighbors. -/
def bfsTravLoop (g : Graph V) (t? : Option V) : ℕ → List V → List V → List V → List V
  | 0, _, _, ord => ord
  | _ + 1, [], _, ord => ord
  | fuel + 1, v :: qrest, vis, ord =>
    let ord' := ord ++ [v]
    if t? = some v then ord'
    else
      let qv := bfsTravEnq (g.get_neighbors v) qrest vis
      bfsTravLoop g t? fuel qv.1 qv.2 ord'

/-- State of `BreadthFirstSearch.find_shortest_path`: the FIFO frontier of
`(vertex, cumulative_distance)` pairs, the visited set (marked at enqueue
time), and the `came_from` table (recorded at enqueue time). -/
structure BfsState (V : Type) where
  queue : List (V × ℚ)
  visited : List V
  cameFrom : List (V × V)

/-- Modelled from the spec: the enqueue step of
`BreadthFirstSearch.find_shortest_path` for the neighbors of the dequeued
vertex `v` at cumulative distance `d`. -/
def bfsEnqNbrs (v : V) (d : ℚ) : List (V × ℚ) → BfsState V → BfsState V
  | [], st => st
  | (nb, w) :: rest, st =>
    if nb ∈ st.visited then bfsEnqNbrs v d rest st
    else bfsEnqNbrs v d rest
      { queue := st.queue ++ [(nb, d + w)],
        visited := st.visited ++ [nb],
        cameFrom := alSet st.cameFrom nb v }

/-- Modelled from the spec: the dequeue loop of
`BreadthFirstSearch.find_shortest_path`: on dequeuing the target,
reconstruct the path through `came_from`; otherwise enqueue the unvisited
neighbors and continue. -/
def bfsLoop (g : Graph V) (t : V) : ℕ → BfsState V → Option (List V)
  | 0, _ => none
  | fuel + 1, st =>
    match hq : st.queue with
    | [] => none
    | (v, d) :: rest =>
      if v = t then reconstructPath st.cameFrom v (st.cameFrom.length + 1)
      else bfsLoop g t fuel (bfsEnqNbrs v d (g.get_neighbors v) { st with queue := rest })

namespace BreadthFirstSearch

/-- Modelled from the spec: `BreadthFirstSearch.search` (a `pass` stub in
the source).  Unknown start vertex yields the empty visitation list. -/
def search (g : Graph V) (s : V) (t? : Option V) : List V :=
  if s ∈ g.vertices then bfsTravLoop g t? (g.vertices.length + 1) [s] [s] []
  else []

/-- Modelled from the spec: `BreadthFirstSearch.find_shortest_path` (a
`pass` stub in the source).  Unknown start vertex or no path yields
`None`. -/
def find_shortest_path (g : Graph V) (s t : V) : Option (List V) :=
  if s ∈ g.vertices then
    bfsLoop g t (g.vertices.length + 1)
      { queue := [(s, 0)], visited := [s], cameFrom := [] }
  else none

end BreadthFirstSearch

/-- State of `AStarSearch.search`: the open list of `(f_score, vertex)`
entries (duplicates tolerated), the closed set, and the `came_from`,
`g_score` and `f_score` tables. -/
structure AStarState (V : Type) where
  openL : List (ℚ × V)
  closed : List V
  cameFrom : List (V × V)
  gScore : List (V × ℚ)
  fScore : List (V × ℚ)

/-- The minimum-`f` entry of the open list (the first one among equal `f`
values), as popped by the priority queue of `AStarSearch.search`. -/
def findMin : List (ℚ × V) → Option (ℚ × V)
  | [] => none
  | x :: rest =>
    match findMin rest with
    | none => some x
    | some m => if m.1 < x.1 then some m else some x

/-- Modelled from the spec: the neighbor relaxation of `AStarSearch.search`:
skip closed neighbors; on a strictly better tentative g-score update
`came_from`, `g_score`, `f_score` and push a fresh open entry. -/
def relaxNbrs (g : Graph V) (t : V) (heur : V → V → ℚ) (cur : V) :
    List (V × ℚ) → AStarState V → AStarState V
  | [], st => st
  | (nb, w) :: rest, st =>
    if nb ∈ st.closed then relaxNbrs g t heur cur rest st
    else
      let tent := (alGet st.gScore cur).getD 0 + w
      let doUpd : Bool :=
        match alGet st.gScore nb with
        | none => true
        | some gn => decide (tent < gn)
      if doUpd then
        let fn := tent + heur nb t
        relaxNbrs g t heur cur rest
          { st with
            cameFrom := alSet st.cameFrom nb cur,
            gScore := alSet st.gScore nb tent,
            fScore := alSet st.fScore nb fn,
            openL := st.openL ++ [(fn, nb)] }
      else relaxNbrs g t heur cur rest st

/-- Modelled from the spec: the main loop of `AStarSearch.search`: pop the
minimum-`f` vertex; if it is the target reconstruct and return, else close
it and relax its neighbors.  An empty open set yields `none`. -/
def astarLoop (g : Graph V) (t : V) (heur : V → V → ℚ) :
    ℕ → AStarState V → Option (List V)
  | 0, _ => none
  | fuel + 1, st =>
    match findMin st.openL with
    | none => none
    | some fc =>
      let st1 : AStarState V := { st with openL := st.openL.erase fc }
      if fc.2 = t then reconstructPath st1.cameFrom fc.2 (st1.cameFrom.length + 1)
      else
        let st2 : AStarState V :=
          { st1 with closed := if fc.2 ∈ st1.closed then st1.closed else st1.closed ++ [fc.2] }
        astarLoop g t heur fuel (relaxNbrs g t heur fc.2 (g.get_neighbors fc.2) st2)

namespace AStarSearch

/-- Modelled from the spec: `AStarSearch.search` (a `pass` stub in the
source): seed the open set with the start vertex at
`f = g + h = heuristic(start, target)` and run the loop. -/
def search (g : Graph V) (s t : V) (heur : V → V → ℚ) : Option (List V) :=
  astarLoop g t heur ((g.vertices.length + 1) * (g.vertices.length + 1) + 1)
    { openL := [(0 + heur s t, s)], closed := [], cameFrom := [],
      gScore := [(s, 0)], fScore := [(s, 0 + heur s t)] }

end AStarSearch

end Searches

/-- A Python vertex key as the claims use them: an integer, a string, or a
tuple of numbers. -/
inductive PyKey
  | int : ℤ → PyKey
  | str : String → PyKey
  | tup : List ℤ → PyKey
deriving DecidableEq, Repr

/-- Python truthiness of a key: `0`, `""` and `()` are falsy. -/
def pyTruthy : PyKey → Bool
  | .int n => n ≠ 0
  | .str s => s ≠ ""
  | .tup l => l ≠ []

/-- Truthiness of `kwargs.get(...)`: a missing argument is `None`, which is
falsy. -/
def pyTruthyOpt : Option PyKey → Bool
  | none => false
  | some v => pyTruthy v

/-- The exception raised by the `execute` guards. -/
inductive PyError
  | valueError
deriving DecidableEq, Repr

/-- The result of a traversal-or-path `execute` call (Python returns either
a list or an optional list depending on `search_type`). -/
inductive SearchResult (V : Type)
  | trav (order : List V)
  | path (p : Option (List V))

namespace DepthFirstSearch

/-- `DepthFirstSearch.execute`: guards `start_vertex` by truthiness
(`if not start_vertex: raise ValueError`), then dispatches on
`search_type` (the path branch additionally requires a truthy
`target_vertex`). -/
def execute (g : Graph PyKey) (start? target? : Option PyKey)
    (search_type : String) : Except PyError (SearchResult PyKey) :=
  if ¬pyTruthyOpt start? then .error .valueError
  else
    let s := start?.getD (PyKey.int 0)
    if search_type = "path" ∧ pyTruthyOpt target? then
      .ok (.path (find_path g s (target?.getD (PyKey.int 0))))
    else .ok (.trav (search g s target?))

end DepthFirstSearch

namespace BreadthFirstSearch

/-- `BreadthFirstSearch.execute`: same truthiness guard on `start_vertex`,
dispatching on `search_type` (`shortest_path` additionally requires a
truthy `target_vertex`). -/
def execute (g : Graph PyKey) (start? target? : Option PyKey)
    (search_type : String) : Except PyError (SearchResult PyKey) :=
  if ¬pyTruthyOpt start? then .error .valueError
  else
    let s := start?.getD (PyKey.int 0)
    if search_type = "shortest_path" ∧ pyTruthyOpt target? then
      .ok (.path (find_shortest_path g s (target?.getD (PyKey.int 0))))
    else .ok (.trav (search g s target?))

end BreadthFirstSearch

namespace AStarSearch

/-- `AStarSearch.execute`: raises `ValueError` when `start_vertex` or
`target_vertex` is falsy (`if not start_vertex or not target_vertex`), or
when no heuristic was supplied (`if not heuristic`; a supplied function
object is always truthy), then always runs `search`. -/
def execute (g : Graph PyKey) (start? target? : Option PyKey)
    (heuristic? : Option (PyKey → PyKey → ℚ)) :
    Except PyError (Option (List PyKey)) :=
  if ¬pyTruthyOpt start? ∨ ¬pyTruthyOpt target? then .error .valueError
  else if heuristic?.isNone then .error .valueError
  else
    .ok (search g (start?.getD (PyKey.int 0)) (target?.getD (PyKey.int 0))
      (heuristic?.getD (fun _ _ => 0)))

end AStarSearch

/-- Graph states reachable from the empty undirected graph through the
mutating API calls the symmetry claim quantifies over (`add_vertex` to
populate, then any `add_edge` / `remove_edge` sequence). -/
inductive Reach {V : Type} [DecidableEq V] : Graph V → Prop
  | empty : Reach (Graph.empty false)
  | addV {g : Graph V} (v : V) : Reach g → Reach (g.add_vertex v).2
  | addE {g : Graph V} (u v : V) (w : ℚ) : Reach g → Reach (g.add_edge u v w).2
  | rmE {g : Graph V} (u v : V) : Reach g → Reach (g.remove_edge u v).2

/-- Build a graph through the public API: `add_vertex` for each listed
vertex, then `add_edge` for each listed edge. -/
def buildGraph {V : Type} [DecidableEq V] (directed : Bool) (vs : List V)
    (es : List (V × V × ℚ)) : Graph V :=
  es.foldl (fun g e => (g.add_edge e.1 e.2.1 e.2.2).2)
    (vs.foldl (fun g v => (g.add_vertex v).2) (Graph.empty directed))

/-- The concrete scenario graph of the specification: vertices
`{A, B, C, D}` with undirected edges `A-B(1)`, `A-C(4)`, `B-D(2)`,
`C-D(1)`. -/
def gABCD : Graph String :=
  buildGraph false ["A", "B", "C", "D"]
    [("A", "B", 1), ("A", "C", 4), ("B", "D", 2), ("C", "D", 1)]

/-- The zero heuristic. -/
def zeroHeur {V : Type} : V → V → ℚ := fun _ _ => 0

/-- A directed graph on which closed-set A* with an admissible but
inconsistent heuristic returns a suboptimal path: edges `S→A(3)`,
`S→X(1)`, `X→A(1)`, `A→G(2)`. -/
def gCex : Graph String :=
  buildGraph true ["S", "X", "A", "G"]
    [("S", "A", 3), ("S", "X", 1), ("X", "A", 1), ("A", "G", 2)]

/-- An admissible (it never exceeds the true remaining cost to `G`) but
inconsistent heuristic on `gCex`. -/
def hCex : String → String → ℚ := fun v _ => if v = "X" then 3 else 0

/-- Non-negativity of every stored edge weight. -/
def NonnegW {V : Type} (g : Graph V) : Prop :=
  ∀ p ∈ g.edges, ∀ e ∈ p.2, (0 : ℚ) ≤ e.2

instance {V : Type} (g : Graph V) : Decidable (NonnegW g) := by
  unfold NonnegW; infer_instance

/-- Consistency of a heuristic toward target `t`: along every stored edge,
`h(u) ≤ w + h(v)`. -/
def ConsistentH {V : Type} (g : Graph V) (heur : V → V → ℚ) (t : V) : Prop :=
  ∀ p ∈ g.edges, ∀ e ∈ p.2, heur p.1 t ≤ e.2 + heur e.1 t

instance {V : Type} (g : Graph V) (heur : V → V → ℚ) (t : V) :
    Decidable (ConsistentH g heur t) := by
  unfold ConsistentH; infer_instance

/-- Admissibility of a heuristic toward target `t`: it never exceeds the
cost of any actual path to `t`. -/
def Admissible {V : Type} [DecidableEq V] (g : Graph V) (heur : V → V → ℚ) (t : V) : Prop :=
  ∀ v p, IsPath g v t p → heur v t ≤ costOf g p

/-- The invariant carried through `Reach`: the graph is undirected,
well-formed, and its adjacency table is symmetric (for every stored entry
`(v, w)` of row `u`, row `v` exists and stores `(u, w)`). -/
def GInv {V : Type} [DecidableEq V] (g : Graph V) : Prop :=
  g.directed = false ∧ g.WF ∧
  ∀ u row, (u, row) ∈ g.edges → ∀ e ∈ row,
    ∃ row2, alGet g.edges e.1 = some row2 ∧ (u, e.2) ∈ row2

/-- The graph exhibiting the `remove_vertex` bookkeeping bug: undirected,
vertices `1, 2`, one edge `(1, 2, 1.0)` (stored in both directions,
`edge_count = 2`). -/
def gC4 : Graph ℤ := buildGraph false [1, 2] [(1, 2, 1)]

/-- A graph whose vertex keys include the falsy key `0`. -/
def gPy : Graph PyKey :=
  buildGraph false [PyKey.int 0, PyKey.int 1] [(PyKey.int 0, PyKey.int 1, 1)]

/-- The invariant of the `AStarSearch.search` loop state: every discovered
vertex carries a reconstructible `came_from` chain of cost at most its
g-score, open entries dominate their g-score plus heuristic, every
discovered unclosed vertex has an open entry at most its g-score plus
heuristic, neighbors of closed vertices are relaxed, `came_from` points
into the closed set, and the g-score of a closed vertex is a lower bound
on the cost of every path reaching it. -/
structure AInv {V : Type} [DecidableEq V] (g : Graph V) (s t : V)
    (heur : V → V → ℚ) (st : AStarState V) : Prop where
  chains : ∀ v gv, alGet st.gScore v = some gv → ∃ p,
    reconstructPath st.cameFrom v p.length = some p ∧ IsPath g s v p ∧
    costOf g p ≤ gv ∧ p.Nodup ∧ (∀ x ∈ p, x = v ∨ x ∈ st.closed) ∧
    (∀ x ∈ p.tail, x ∈ alKeys st.cameFrom)
  gnonneg : ∀ v gv, alGet st.gScore v = some gv → 0 ≤ gv
  gstart : alGet st.gScore s = some 0
  tunclosed : t ∉ st.closed
  openDom : ∀ e ∈ st.openL, ∃ ge, alGet st.gScore e.2 = some ge ∧
    ge + heur e.2 t ≤ e.1
  discOpen : ∀ v gv, alGet st.gScore v = some gv → v ∉ st.closed →
    ∃ f, (f, v) ∈ st.openL ∧ f ≤ gv + heur v t
  closedRelax : ∀ u ∈ st.closed, ∀ nb w, EdgeIn g u nb w →
    ∃ gu gn, alGet st.gScore u = some gu ∧ alGet st.gScore nb = some gn ∧
    gn ≤ gu + w
  keysGs : ∀ v ∈ alKeys st.gScore, v = s ∨ v ∈ alKeys st.cameFrom
  cfClosed : ∀ y u, alGet st.cameFrom y = some u → u ∈ st.closed
  closedGs : ∀ u ∈ st.closed, ∃ gu, alGet st.gScore u = some gu
  closedOpt : ∀ u ∈ st.closed, ∀ q, IsPath g s u q →
    ∃ gu, alGet st.gScore u = some gu ∧ gu ≤ costOf g q

end AlgTut

namespace AlgTut

section AssocLemmas

variable {K β : Type} [DecidableEq K]

theorem alKeys_nil : alKeys ([] : List (K × β)) = [] := rfl

theorem alKeys_cons (p : K × β) (l : List (K × β)) :
    alKeys (p :: l) = p.1 :: alKeys l := rfl

theorem alKeys_append (l l' : List (K × β)) :
    alKeys (l ++ l') = alKeys l ++ alKeys l' := by
  simp [alKeys]

theorem mem_alKeys {l : List (K × β)} {k : K} :
    k ∈ alKeys l ↔ ∃ v, (k, v) ∈ l := by
  constructor
  · intro h
    obtain ⟨p, hp, hk⟩ := List.mem_map.mp h
    exact ⟨p.2, by rwa [show (k, p.2) = p from by rw [← hk]]⟩
  · rintro ⟨v, hv⟩
    exact List.mem_map.mpr ⟨(k, v), hv, rfl⟩

theorem alGet_eq_none {l : List (K × β)} {k : K} :
    alGet l k = none ↔ k ∉ alKeys l := by
  induction l with
  | nil => simp [alGet, alKeys_nil]
  | cons p rest ih =>
    obtain ⟨k', v'⟩ := p
    rw [alKeys_cons]
    by_cases h : k' = k
    · simp [alGet, h]
    · simp only [alGet, if_neg h, List.mem_cons, ih]
      constructor
      · intro hn hc
        rcases hc with hc | hc
        · exact h hc.symm
        · exact hn hc
      · intro hn hc
        exact hn (Or.inr hc)

theorem alGet_some_of_mem_keys {l : List (K × β)} {k : K} (h : k ∈ alKeys l) :
    ∃ v, alGet l k = some v := by
  cases hv : alGet l k with
  | none => exact absurd (alGet_eq_none.mp hv) (by simp [h])
  | some v => exact ⟨v, rfl⟩

theorem alGet_mem {l : List (K × β)} {k : K} {v : β} (h : alGet l k = some v) :
    (k, v) ∈ l := by
  induction l with
  | nil => simp [alGet] at h
  | cons p rest ih =>
    obtain ⟨k', v'⟩ := p
    by_cases hk : k' = k
    · simp [alGet, hk] at h
      simp [hk, h]
    · simp [alGet, hk] at h
      simp [ih h]

theorem mem_keys_of_alGet {l : List (K × β)} {k : K} {v : β}
    (h : alGet l k = some v) : k ∈ alKeys l := by
  by_contra hk
  rw [← alGet_eq_none] at hk
  simp [hk] at h

theorem alGet_of_mem_of_nodup {l : List (K × β)} {k : K} {v : β}
    (hnd : (alKeys l).Nodup) (h : (k, v) ∈ l) : alGet l k = some v := by
  induction l with
  | nil => simp at h
  | cons p rest ih =>
    obtain ⟨k', v'⟩ := p
    rw [alKeys_cons] at hnd
    have hnd1 := List.nodup_cons.mp hnd
    rcases List.mem_cons.mp h with h1 | h2
    · injection h1 with hk hv
      simp [alGet, hk.symm, hv]
    · have hk : k' ≠ k := by
        intro he
        subst he
        exact hnd1.1 (mem_alKeys.mpr ⟨v, h2⟩)
      simp [alGet, hk, ih hnd1.2 h2]

theorem mem_alSet {l : List (K × β)} {k k' : K} {v v' : β}
    (h : (k', v') ∈ alSet l k v) : (k' = k ∧ v' = v) ∨ (k', v') ∈ l := by
  induction l with
  | nil => simpa [alSet] using h
  | cons p rest ih =>
    obtain ⟨k1, v1⟩ := p
    by_cases hk : k1 = k
    · simp [alSet, hk] at h
      rcases h with h | h
      · exact Or.inl ⟨h.1, h.2⟩
      · exact Or.inr (List.mem_cons_of_mem _ h)
    · simp [alSet, hk] at h
      rcases h with h | h
      · exact Or.inr (by simp [h])
      · rcases ih h with h' | h'
        · exact Or.inl h'
        · exact Or.inr (List.mem_cons_of_mem _ h')

theorem mem_alErase {l : List (K × β)} {k : K} {p : K × β}
    (h : p ∈ alErase l k) : p ∈ l := by
  induction l with
  | nil => simpa [alErase] using h
  | cons q rest ih =>
    obtain ⟨k1, v1⟩ := q
    by_cases hk : k1 = k
    · simp [alErase, hk] at h
      exact List.mem_cons_of_mem _ h
    · simp [alErase, hk] at h
      rcases h with h | h
      · simp [h]
      · exact List.mem_cons_of_mem _ (ih h)

theorem alGet_alSet_self (l : List (K × β)) (k : K) (v : β) :
    alGet (alSet l k v) k = some v := by
  induction l with
  | nil => simp [alSet, alGet]
  | cons p rest ih =>
    obtain ⟨k1, v1⟩ := p
    by_cases hk : k1 = k <;> simp [alSet, alGet, hk, ih]

theorem alGet_alSet_ne {k k' : K} (l : List (K × β)) (v : β) (h : k' ≠ k) :
    alGet (alSet l k v) k' = alGet l k' := by
  have h' : ¬k = k' := fun he => h he.symm
  induction l with
  | nil => simp [alSet, alGet, h']
  | cons p rest ih =>
    obtain ⟨k1, v1⟩ := p
    by_cases hk : k1 = k
    · subst hk
      simp [alSet, alGet, h']
    · simp [alSet, alGet, hk, ih]

theorem alKeys_alSet_mem {l : List (K × β)} {k : K} (v : β) (h : k ∈ alKeys l) :
    alKeys (alSet l k v) = alKeys l := by
  induction l with
  | nil => simp [alKeys_nil] at h
  | cons p rest ih =>
    obtain ⟨k1, v1⟩ := p
    by_cases hk : k1 = k
    · subst hk
      simp [alSet, alKeys_cons]
    · rw [alKeys_cons] at h
      rcases List.mem_cons.mp h with h1 | h2
      · exact absurd h1.symm hk
      · simp [alSet, hk, alKeys_cons, ih h2]

theorem alKeys_alSet_not_mem {l : List (K × β)} {k : K} (v : β) (h : k ∉ alKeys l) :
    alKeys (alSet l k v) = alKeys l ++ [k] := by
  induction l with
  | nil => simp [alSet, alKeys]
  | cons p rest ih =>
    obtain ⟨k1, v1⟩ := p
    rw [alKeys_cons] at h
    have hk : k1 ≠ k := by
      intro he
      exact h (by simp [he])
    have h2 : k ∉ alKeys rest := fun hc => h (List.mem_cons_of_mem _ hc)
    simp [alSet, hk, alKeys_cons, ih h2]

theorem alGet_alErase_ne {k k' : K} (l : List (K × β)) (h : k' ≠ k) :
    alGet (alErase l k) k' = alGet l k' := by
  have h' : ¬k = k' := fun he => h he.symm
  induction l with
  | nil => simp [alErase]
  | cons p rest ih =>
    obtain ⟨k1, v1⟩ := p
    by_cases hk : k1 = k
    · subst hk
      simp [alErase, alGet, h']
    · simp [alErase, alGet, hk, ih]

theorem alKeys_alErase (l : List (K × β)) (k : K) :
    alKeys (alErase l k) = (alKeys l).erase k := by
  induction l with
  | nil => simp [alErase, alKeys]
  | cons p rest ih =>
    obtain ⟨k1, v1⟩ := p
    by_cases hk : k1 = k
    · subst hk
      simp [alErase, alKeys_cons, List.erase_cons_head]
    · have he : alErase ((k1, v1) :: rest) k = (k1, v1) :: alErase rest k := by
        simp [alErase, hk]
      rw [he, alKeys_cons, alKeys_cons, List.erase_cons]
      simp [hk, ih]

theorem alGet_alErase_self {l : List (K × β)} {k : K}
    (hnd : (alKeys l).Nodup) : alGet (alErase l k) k = none := by
  rw [alGet_eq_none, alKeys_alErase]
  intro hmem
  exact (List.Nodup.not_mem_erase hnd) hmem

theorem nodup_alKeys_alSet {l : List (K × β)} {k : K} (v : β)
    (hnd : (alKeys l).Nodup) : (alKeys (alSet l k v)).Nodup := by
  by_cases h : k ∈ alKeys l
  · rw [alKeys_alSet_mem v h]; exact hnd
  · rw [alKeys_alSet_not_mem v h]
    simpa [List.nodup_append] using ⟨hnd, h⟩

theorem nodup_alKeys_alErase {l : List (K × β)} (k : K)
    (hnd : (alKeys l).Nodup) : (alKeys (alErase l k)).Nodup := by
  rw [alKeys_alErase]
  exact hnd.erase k

theorem alGet_append_left {l l' : List (K × β)} {k : K}
    (h : k ∈ alKeys l) : alGet (l ++ l') k = alGet l k := by
  induction l with
  | nil => simp [alKeys_nil] at h
  | cons p rest ih =>
    obtain ⟨k1, v1⟩ := p
    by_cases hk : k1 = k
    · simp [alGet, hk]
    · rw [alKeys_cons] at h
      rcases List.mem_cons.mp h with h1 | h2
      · exact absurd h1.symm hk
      · simp [alGet, hk, ih h2]

theorem alGet_append_right {l l' : List (K × β)} {k : K}
    (h : k ∉ alKeys l) : alGet (l ++ l') k = alGet l' k := by
  induction l with
  | nil => simp
  | cons p rest ih =>
    obtain ⟨k1, v1⟩ := p
    rw [alKeys_cons] at h
    have hk : k1 ≠ k := by
      intro he
      exact h (by simp [he])
    have h2 : k ∉ alKeys rest := fun hc => h (List.mem_cons_of_mem _ hc)
    simp [alGet, hk, ih h2]

theorem mem_alSet_of_ne_key {l : List (K × β)} {k k' : K} {x : β} (v : β)
    (hmem : (k, x) ∈ l) (hne : k ≠ k') : (k, x) ∈ alSet l k' v := by
  induction l with
  | nil => simp at hmem
  | cons p rest ih =>
    obtain ⟨k1, v1⟩ := p
    rcases List.mem_cons.mp hmem with h1 | h2
    · rw [h1]
      have hk1 : k1 ≠ k' := by
        intro he
        injection h1 with hk _
        exact hne (hk ▸ he)
      simp [alSet, hk1]
    · by_cases hk1 : k1 = k'
      · simp [alSet, hk1]
        exact Or.inr h2
      · simp [alSet, hk1]
        exact Or.inr (ih h2)

theorem mem_alSet_self (l : List (K × β)) (k : K) (v : β) :
    (k, v) ∈ alSet l k v :=
  alGet_mem (alGet_alSet_self l k v)

theorem mem_alErase_of_ne_key {l : List (K × β)} {k k' : K} {x : β}
    (hmem : (k, x) ∈ l) (hne : k ≠ k') : (k, x) ∈ alErase l k' := by
  induction l with
  | nil => simp at hmem
  | cons p rest ih =>
    obtain ⟨k1, v1⟩ := p
    rcases List.mem_cons.mp hmem with h1 | h2
    · rw [h1]
      have hk1 : k1 ≠ k' := by
        intro he
        injection h1 with hk _
        exact hne (hk ▸ he)
      simp [alErase, hk1]
    · by_cases hk1 : k1 = k'
      · simp [alErase, hk1, h2]
      · simp [alErase, hk1]
        exact Or.inr (ih h2)

theorem mem_alSet_nodup {l : List (K × β)} {k k' : K} {v v' : β}
    (hnd : (alKeys l).Nodup) (h : (k', v') ∈ alSet l k v) :
    (k' = k ∧ v' = v) ∨ ((k', v') ∈ l ∧ k' ≠ k) := by
  by_cases hk : k' = k
  · subst hk
    rcases mem_alSet h with h1 | h2
    · exact Or.inl h1
    · have := alGet_of_mem_of_nodup (nodup_alKeys_alSet v hnd) h
      rw [alGet_alSet_self] at this
      exact Or.inl ⟨rfl, by injection this with hv; exact hv.symm⟩
  · rcases mem_alSet h with h1 | h2
    · exact absurd h1.1 hk
    · exact Or.inr ⟨h2, hk⟩

theorem not_mem_keys_alErase_self {l : List (K × β)} (k : K)
    (hnd : (alKeys l).Nodup) : k ∉ alKeys (alErase l k) := by
  rw [alKeys_alErase]
  exact hnd.not_mem_erase

end AssocLemmas

section GraphLemmas

variable {V : Type} [DecidableEq V]

theorem Graph.row_of_wf {g : Graph V} (hwf : g.WF) {u : V} (hu : u ∈ g.vertices) :
    ∃ row, alGet g.edges u = some row ∧ (u, row) ∈ g.edges := by
  obtain ⟨_, hkeys, _⟩ := hwf
  have hu2 : u ∈ alKeys g.edges := hkeys ▸ hu
  obtain ⟨row, hrow⟩ := alGet_some_of_mem_keys hu2
  exact ⟨row, hrow, alGet_mem hrow⟩

theorem Graph.get_neighbors_eq {g : Graph V} {u : V} {row : List (V × ℚ)}
    (hu : u ∈ g.vertices) (hrow : alGet g.edges u = some row) :
    g.get_neighbors u = row := by
  simp [Graph.get_neighbors, hu, hrow]

theorem edgeIn_weightOf {g : Graph V} (hwf : g.WF) {u v : V} {w : ℚ}
    (h : EdgeIn g u v w) : weightOf g u v = some w := by
  unfold EdgeIn at h
  unfold weightOf
  obtain ⟨hnd, hkeys, hrows⟩ := hwf
  by_cases hu : u ∈ g.vertices
  · obtain ⟨row, hrow, hmem⟩ := Graph.row_of_wf ⟨hnd, hkeys, hrows⟩ hu
    rw [Graph.get_neighbors_eq hu hrow] at h ⊢
    exact alGet_of_mem_of_nodup (hrows _ hmem).1 h
  · simp [Graph.get_neighbors, hu] at h

theorem edgeIn_mem_vertices {g : Graph V} {u v : V} {w : ℚ}
    (h : EdgeIn g u v w) : u ∈ g.vertices := by
  unfold EdgeIn Graph.get_neighbors at h
  by_cases hu : u ∈ g.vertices
  · exact hu
  · simp [hu] at h

theorem edgeIn_elim {g : Graph V} {u v : V} {w : ℚ} (h : EdgeIn g u v w) :
    u ∈ g.vertices ∧ ∃ row, alGet g.edges u = some row ∧ (v, w) ∈ row := by
  have hu := edgeIn_mem_vertices h
  unfold EdgeIn Graph.get_neighbors at h
  rw [if_pos hu] at h
  cases hrow : alGet g.edges u with
  | none => rw [hrow] at h; simp at h
  | some row =>
    rw [hrow] at h
    exact ⟨hu, row, rfl, by simpa using h⟩

theorem edgeIn_intro {g : Graph V} {u v : V} {w : ℚ} {row : List (V × ℚ)}
    (hu : u ∈ g.vertices) (hrow : alGet g.edges u = some row)
    (hm : (v, w) ∈ row) : EdgeIn g u v w := by
  unfold EdgeIn Graph.get_neighbors
  simp [hu, hrow, hm]

theorem ginv_sym {g : Graph V} (hg : GInv g) {u v : V} {w : ℚ}
    (h : EdgeIn g u v w) : EdgeIn g v u w := by
  obtain ⟨hdir, ⟨hnd, hkeys, hrows⟩, hsym⟩ := hg
  obtain ⟨hu, row, hrow, hm⟩ := edgeIn_elim h
  have hmemrow : (u, row) ∈ g.edges := alGet_mem hrow
  obtain ⟨row2, hrow2, hm2⟩ := hsym u row hmemrow (v, w) hm
  have hv : v ∈ g.vertices := (hrows _ hmemrow).2 _ hm
  exact edgeIn_intro hv hrow2 hm2

theorem edgeIn_has_edge {g : Graph V} (hwf : g.WF) {u v : V} {w : ℚ}
    (h : EdgeIn g u v w) :
    g.has_edge u v = true ∧ g.get_edge_weight u v = some w := by
  obtain ⟨hnd, hkeys, hrows⟩ := hwf
  obtain ⟨hu, row, hrow, hm⟩ := edgeIn_elim h
  have hmemrow := alGet_mem hrow
  have hv : v ∈ g.vertices := (hrows _ hmemrow).2 _ hm
  have hvk : v ∈ alKeys row := mem_alKeys.mpr ⟨w, hm⟩
  have hhe : g.has_edge u v = true := by
    simp [Graph.has_edge, hu, hv, hrow, hvk]
  refine ⟨hhe, ?_⟩
  rw [Graph.get_edge_weight, if_pos hhe, hrow]
  simpa using alGet_of_mem_of_nodup (hrows _ hmemrow).1 hm

theorem ginv_empty : GInv (Graph.empty false : Graph V) := by
  refine ⟨rfl, ⟨List.nodup_nil, rfl, ?_⟩, ?_⟩
  · intro p hp
    simp [Graph.empty] at hp
  · intro u row hmem
    simp [Graph.empty] at hmem

theorem ginv_add_vertex {g : Graph V} (hg : GInv g) (v : V) :
    GInv (g.add_vertex v).2 := by
  obtain ⟨hdir, ⟨hnd, hkeys, hrows⟩, hsym⟩ := hg
  by_cases hv : v ∈ g.vertices
  · simpa [Graph.add_vertex, hv] using ⟨hdir, ⟨hnd, hkeys, hrows⟩, hsym⟩
  · have hvk : v ∉ alKeys g.edges := by rw [hkeys]; exact hv
    simp only [Graph.add_vertex, if_neg hv]
    refine ⟨hdir, ⟨?_, ?_, ?_⟩, ?_⟩
    · simp [List.nodup_append, hnd, hv]
    · rw [alKeys_append, hkeys]
      rfl
    · intro p hp
      rcases List.mem_append.mp hp with hp | hp
      · obtain ⟨h1, h2⟩ := hrows p hp
        exact ⟨h1, fun e he => List.mem_append.mpr (Or.inl (h2 e he))⟩
      · simp at hp
        subst hp
        exact ⟨by simp [alKeys], by simp⟩
    · intro u row hmem e he
      rcases List.mem_append.mp hmem with hmem | hmem
      · obtain ⟨row2, hrow2, hm2⟩ := hsym u row hmem e he
        have he1 : e.1 ∈ alKeys g.edges := mem_keys_of_alGet hrow2
        exact ⟨row2, by rw [alGet_append_left he1]; exact hrow2, hm2⟩
      · simp at hmem
        rw [hmem.2] at he
        simp at he

theorem ginv_add_edge {g : Graph V} (hg : GInv g) (u v : V) (w : ℚ) :
    GInv (g.add_edge u v w).2 := by
  obtain ⟨hdir, ⟨hnd, hkeys, hrows⟩, hsym⟩ := hg
  by_cases hguard : u ∉ g.vertices ∨ v ∉ g.vertices
  · have hred : g.add_edge u v w = (false, g) := by simp [Graph.add_edge, hguard]
    rw [hred]
    exact ⟨hdir, ⟨hnd, hkeys, hrows⟩, hsym⟩
  push_neg at hguard
  obtain ⟨hu, hv⟩ := hguard
  obtain ⟨row, hrow, hmemrow⟩ := Graph.row_of_wf ⟨hnd, hkeys, hrows⟩ hu
  have hndE : (alKeys g.edges).Nodup := by rw [hkeys]; exact hnd
  have huk : u ∈ alKeys g.edges := by rw [hkeys]; exact hu
  have hvkE : v ∈ alKeys g.edges := by rw [hkeys]; exact hv
  have hndrow : (alKeys row).Nodup := (hrows _ hmemrow).1
  by_cases hvk : v ∈ alKeys row
  · have hred : g.add_edge u v w = (false, g) := by
      simp [Graph.add_edge, hu, hv, hrow, hvk]
    rw [hred]
    exact ⟨hdir, ⟨hnd, hkeys, hrows⟩, hsym⟩
  by_cases hne : u = v
  · -- self-loop: a single stored entry
    subst hne
    have hred : (g.add_edge u u w).2 =
        { g with
          edges := alSet g.edges u (alSet row u w),
          edge_count := g.edge_count + 1 } := by
      simp [Graph.add_edge, hu, hrow, hvk]
    rw [hred]
    have lookup_u : alGet (alSet g.edges u (alSet row u w)) u = some (alSet row u w) :=
      alGet_alSet_self _ _ _
    have lookup_other : ∀ x, x ≠ u →
        alGet (alSet g.edges u (alSet row u w)) x = alGet g.edges x :=
      fun x hx => alGet_alSet_ne _ _ hx
    refine ⟨hdir, ⟨hnd, ?_, ?_⟩, ?_⟩
    · rw [alKeys_alSet_mem _ huk, hkeys]
    · intro p hp
      obtain ⟨x, rowx⟩ := p
      rcases mem_alSet_nodup hndE hp with ⟨hx, hrx⟩ | ⟨hp1, hp2⟩
      · simp only at hrx ⊢
        rw [hrx]
        refine ⟨nodup_alKeys_alSet _ hndrow, ?_⟩
        intro e hee
        obtain ⟨e1, e2⟩ := e
        rcases mem_alSet hee with hh | hh
        · simp only
          rw [hh.1]
          exact hu
        · exact (hrows _ hmemrow).2 _ hh
      · exact hrows _ hp1
    · intro x rowx hmem e he
      obtain ⟨e1, e2⟩ := e
      rcases mem_alSet_nodup hndE hmem with ⟨hx, hrx⟩ | ⟨hmemold, hxne⟩
      · rw [hrx] at he
        rcases mem_alSet_nodup hndrow he with ⟨he1, he2⟩ | ⟨hin, hne1⟩
        · refine ⟨alSet row u w, by simp only; rw [he1]; exact lookup_u, ?_⟩
          simp only
          rw [hx, he2]
          exact mem_alSet_self _ _ _
        · obtain ⟨row2', hrow2', hm2'⟩ := hsym u row hmemrow (e1, e2) hin
          refine ⟨row2', by simp only; rw [lookup_other e1 hne1]; exact hrow2', ?_⟩
          simp only
          rw [hx]
          exact hm2'
      · obtain ⟨row2', hrow2', hm2'⟩ := hsym x rowx hmemold (e1, e2) he
        simp only at hrow2' hm2'
        by_cases he1u : e1 = u
        · rw [he1u] at hrow2'
          have hcopy := hrow
          rw [hrow2'] at hcopy
          injection hcopy with hh
          rw [hh] at hm2'
          exact ⟨alSet row u w, by simp only; rw [he1u]; exact lookup_u,
            mem_alSet_of_ne_key _ hm2' hxne⟩
        · exact ⟨row2', by simp only; rw [lookup_other e1 he1u]; exact hrow2', hm2'⟩
  · -- distinct endpoints: both directions stored
    obtain ⟨row2, hrow2, hmemrow2⟩ := Graph.row_of_wf ⟨hnd, hkeys, hrows⟩ hv
    have hndrow2 : (alKeys row2).Nodup := (hrows _ hmemrow2).1
    have hvu : v ≠ u := fun hc => hne hc.symm
    have hget1 : alGet (alSet g.edges u (alSet row v w)) v = some row2 := by
      rw [alGet_alSet_ne _ _ hvu, hrow2]
    have hred : (g.add_edge u v w).2 =
        { g with
          edges := alSet (alSet g.edges u (alSet row v w)) v (alSet row2 u w),
          edge_count := g.edge_count + 1 + 1 } := by
      simp [Graph.add_edge, hu, hv, hrow, hvk, hdir, hne, hget1]
    rw [hred]
    have hnd1 : (alKeys (alSet g.edges u (alSet row v w))).Nodup :=
      nodup_alKeys_alSet _ hndE
    have hvk1 : v ∈ alKeys (alSet g.edges u (alSet row v w)) := by
      rw [alKeys_alSet_mem _ huk]; exact hvkE
    have lookup_u : alGet (alSet (alSet g.edges u (alSet row v w)) v (alSet row2 u w)) u
        = some (alSet row v w) := by
      rw [alGet_alSet_ne _ _ hne, alGet_alSet_self]
    have lookup_v : alGet (alSet (alSet g.edges u (alSet row v w)) v (alSet row2 u w)) v
        = some (alSet row2 u w) := alGet_alSet_self _ _ _
    have lookup_other : ∀ x, x ≠ u → x ≠ v →
        alGet (alSet (alSet g.edges u (alSet row v w)) v (alSet row2 u w)) x
          = alGet g.edges x := by
      intro x hxu hxv
      rw [alGet_alSet_ne _ _ hxv, alGet_alSet_ne _ _ hxu]
    have hdecomp : ∀ {x : V} {rowx : List (V × ℚ)},
        (x, rowx) ∈ alSet (alSet g.edges u (alSet row v w)) v (alSet row2 u w) →
        (x = v ∧ rowx = alSet row2 u w) ∨ (x = u ∧ rowx = alSet row v w) ∨
          ((x, rowx) ∈ g.edges ∧ x ≠ u ∧ x ≠ v) := by
      intro x rowx hmem
      rcases mem_alSet_nodup hnd1 hmem with ⟨h1, h2⟩ | ⟨h1, h2⟩
      · exact Or.inl ⟨h1, h2⟩
      · rcases mem_alSet_nodup hndE h1 with ⟨h3, h4⟩ | ⟨h3, h4⟩
        · exact Or.inr (Or.inl ⟨h3, h4⟩)
        · exact Or.inr (Or.inr ⟨h3, h4, h2⟩)
    refine ⟨hdir, ⟨hnd, ?_, ?_⟩, ?_⟩
    · rw [alKeys_alSet_mem _ hvk1, alKeys_alSet_mem _ huk, hkeys]
    · intro p hp
      obtain ⟨x, rowx⟩ := p
      rcases hdecomp hp with ⟨h1, h2⟩ | ⟨h1, h2⟩ | ⟨h1, h2, h3⟩
      · simp only at h2 ⊢
        rw [h2]
        refine ⟨nodup_alKeys_alSet _ hndrow2, ?_⟩
        intro e hee
        obtain ⟨e1, e2⟩ := e
        rcases mem_alSet hee with hh | hh
        · simp only
          rw [hh.1]
          exact hu
        · exact (hrows _ hmemrow2).2 _ hh
      · simp only at h2 ⊢
        rw [h2]
        refine ⟨nodup_alKeys_alSet _ hndrow, ?_⟩
        intro e hee
        obtain ⟨e1, e2⟩ := e
        rcases mem_alSet hee with hh | hh
        · simp only
          rw [hh.1]
          exact hv
        · exact (hrows _ hmemrow).2 _ hh
      · exact hrows _ h1
    · intro x rowx hmem e he
      obtain ⟨e1, e2⟩ := e
      rcases hdecomp hmem with ⟨hx, hrx⟩ | ⟨hx, hrx⟩ | ⟨hmemold, hxu, hxv⟩
      · rw [hrx] at he
        rcases mem_alSet_nodup hndrow2 he with ⟨he1, he2⟩ | ⟨hin, hne1⟩
        · refine ⟨alSet row v w, by simp only; rw [he1]; exact lookup_u, ?_⟩
          simp only
          rw [hx, he2]
          exact mem_alSet_self _ _ _
        · obtain ⟨row2', hrow2', hm2'⟩ := hsym v row2 hmemrow2 (e1, e2) hin
          simp only at hrow2' hm2'
          by_cases he1v : e1 = v
          · rw [he1v] at hrow2'
            have hcopy := hrow2
            rw [hrow2'] at hcopy
            injection hcopy with hh
            rw [hh] at hm2'
            refine ⟨alSet row2 u w, by simp only; rw [he1v]; exact lookup_v, ?_⟩
            simp only
            rw [hx]
            exact mem_alSet_of_ne_key _ hm2' hvu
          · refine ⟨row2', by simp only; rw [lookup_other e1 hne1 he1v]; exact hrow2', ?_⟩
            simp only
            rw [hx]
            exact hm2'
      · rw [hrx] at he
        rcases mem_alSet_nodup hndrow he with ⟨he1, he2⟩ | ⟨hin, hne1⟩
        · refine ⟨alSet row2 u w, by simp only; rw [he1]; exact lookup_v, ?_⟩
          simp only
          rw [hx, he2]
          exact mem_alSet_self _ _ _
        · obtain ⟨row2', hrow2', hm2'⟩ := hsym u row hmemrow (e1, e2) hin
          simp only at hrow2' hm2'
          by_cases he1u : e1 = u
          · rw [he1u] at hrow2'
            have hcopy := hrow
            rw [hrow2'] at hcopy
            injection hcopy with hh
            rw [hh] at hm2'
            refine ⟨alSet row v w, by simp only; rw [he1u]; exact lookup_u, ?_⟩
            simp only
            rw [hx]
            exact mem_alSet_of_ne_key _ hm2' hne
          · refine ⟨row2', by simp only; rw [lookup_other e1 he1u hne1]; exact hrow2', ?_⟩
            simp only
            rw [hx]
            exact hm2'
      · obtain ⟨row2', hrow2', hm2'⟩ := hsym x rowx hmemold (e1, e2) he
        simp only at hrow2' hm2'
        by_cases he1u : e1 = u
        · rw [he1u] at hrow2'
          have hcopy := hrow
          rw [hrow2'] at hcopy
          injection hcopy with hh
          rw [hh] at hm2'
          exact ⟨alSet row v w, by simp only; rw [he1u]; exact lookup_u,
            mem_alSet_of_ne_key _ hm2' hxv⟩
        · by_cases he1v : e1 = v
          · rw [he1v] at hrow2'
            have hcopy := hrow2
            rw [hrow2'] at hcopy
            injection hcopy with hh
            rw [hh] at hm2'
            exact ⟨alSet row2 u w, by simp only; rw [he1v]; exact lookup_v,
              mem_alSet_of_ne_key _ hm2' hxu⟩
          · exact ⟨row2', by simp only; rw [lookup_other e1 he1u he1v]; exact hrow2', hm2'⟩
theorem ginv_remove_edge {g : Graph V} (hg : GInv g) (u v : V) :
    GInv (g.remove_edge u v).2 := by
  obtain ⟨hdir, ⟨hnd, hkeys, hrows⟩, hsym⟩ := hg
  by_cases hguard : u ∉ g.vertices ∨ v ∉ g.vertices
  · have hred : g.remove_edge u v = (false, g) := by simp [Graph.remove_edge, hguard]
    rw [hred]
    exact ⟨hdir, ⟨hnd, hkeys, hrows⟩, hsym⟩
  push_neg at hguard
  obtain ⟨hu, hv⟩ := hguard
  obtain ⟨row, hrow, hmemrow⟩ := Graph.row_of_wf ⟨hnd, hkeys, hrows⟩ hu
  have hndE : (alKeys g.edges).Nodup := by rw [hkeys]; exact hnd
  have huk : u ∈ alKeys g.edges := by rw [hkeys]; exact hu
  have hvkE : v ∈ alKeys g.edges := by rw [hkeys]; exact hv
  have hndrow : (alKeys row).Nodup := (hrows _ hmemrow).1
  by_cases hvk : v ∈ alKeys row
  case neg =>
    have hred : g.remove_edge u v = (false, g) := by
      simp [Graph.remove_edge, hu, hv, hrow, hvk]
    rw [hred]
    exact ⟨hdir, ⟨hnd, hkeys, hrows⟩, hsym⟩
  by_cases hne : u = v
  · -- self-loop removal
    subst hne
    have hred : (g.remove_edge u u).2 =
        { g with
          edges := alSet g.edges u (alErase row u),
          edge_count := g.edge_count - 1 } := by
      simp [Graph.remove_edge, hu, hrow, hvk]
    rw [hred]
    have lookup_u : alGet (alSet g.edges u (alErase row u)) u = some (alErase row u) :=
      alGet_alSet_self _ _ _
    have lookup_other : ∀ x, x ≠ u →
        alGet (alSet g.edges u (alErase row u)) x = alGet g.edges x :=
      fun x hx => alGet_alSet_ne _ _ hx
    refine ⟨hdir, ⟨hnd, ?_, ?_⟩, ?_⟩
    · rw [alKeys_alSet_mem _ huk, hkeys]
    · intro p hp
      obtain ⟨x, rowx⟩ := p
      rcases mem_alSet_nodup hndE hp with ⟨hx, hrx⟩ | ⟨hp1, hp2⟩
      · simp only at hrx ⊢
        rw [hrx]
        exact ⟨nodup_alKeys_alErase _ hndrow,
          fun e hee => (hrows _ hmemrow).2 _ (mem_alErase hee)⟩
      · exact hrows _ hp1
    · intro x rowx hmem e he
      obtain ⟨e1, e2⟩ := e
      rcases mem_alSet_nodup hndE hmem with ⟨hx, hrx⟩ | ⟨hmemold, hxne⟩
      · rw [hrx] at he
        have hne1 : e1 ≠ u := by
          intro hc
          have hmemk : e1 ∈ alKeys (alErase row u) := mem_alKeys.mpr ⟨e2, he⟩
          rw [hc] at hmemk
          exact not_mem_keys_alErase_self u hndrow hmemk
        obtain ⟨row2', hrow2', hm2'⟩ := hsym u row hmemrow (e1, e2) (mem_alErase he)
        refine ⟨row2', by simp only; rw [lookup_other e1 hne1]; exact hrow2', ?_⟩
        simp only
        rw [hx]
        exact hm2'
      · obtain ⟨row2', hrow2', hm2'⟩ := hsym x rowx hmemold (e1, e2) he
        simp only at hrow2' hm2'
        by_cases he1u : e1 = u
        · rw [he1u] at hrow2'
          have hcopy := hrow
          rw [hrow2'] at hcopy
          injection hcopy with hh
          rw [hh] at hm2'
          exact ⟨alErase row u, by simp only; rw [he1u]; exact lookup_u,
            mem_alErase_of_ne_key hm2' hxne⟩
        · exact ⟨row2', by simp only; rw [lookup_other e1 he1u]; exact hrow2', hm2'⟩
  · -- distinct endpoints: both directions removed
    obtain ⟨row2, hrow2, hmemrow2⟩ := Graph.row_of_wf ⟨hnd, hkeys, hrows⟩ hv
    have hndrow2 : (alKeys row2).Nodup := (hrows _ hmemrow2).1
    have hvu : v ≠ u := fun hc => hne hc.symm
    obtain ⟨wv, hwv⟩ := mem_alKeys.mp hvk
    obtain ⟨rowv', hrowv', hmv⟩ := hsym u row hmemrow (v, wv) hwv
    have hrowv'2 : rowv' = row2 := by
      have hrowv'' : alGet g.edges v = some rowv' := hrowv'
      have hcopy := hrow2
      rw [hrowv''] at hcopy
      exact Option.some.inj hcopy
    have hu2k : u ∈ alKeys row2 := by
      rw [← hrowv'2]
      exact mem_alKeys.mpr ⟨wv, hmv⟩
    have hget1 : alGet (alSet g.edges u (alErase row v)) v = some row2 := by
      rw [alGet_alSet_ne _ _ hvu, hrow2]
    have hred : (g.remove_edge u v).2 =
        { g with
          edges := alSet (alSet g.edges u (alErase row v)) v (alErase row2 u),
          edge_count := g.edge_count - 1 - 1 } := by
      simp [Graph.remove_edge, hu, hv, hrow, hvk, hdir, hne, hget1, hu2k]
    rw [hred]
    have hnd1 : (alKeys (alSet g.edges u (alErase row v))).Nodup :=
      nodup_alKeys_alSet _ hndE
    have hvk1 : v ∈ alKeys (alSet g.edges u (alErase row v)) := by
      rw [alKeys_alSet_mem _ huk]; exact hvkE
    have lookup_u : alGet (alSet (alSet g.edges u (alErase row v)) v (alErase row2 u)) u
        = some (alErase row v) := by
      rw [alGet_alSet_ne _ _ hne, alGet_alSet_self]
    have lookup_v : alGet (alSet (alSet g.edges u (alErase row v)) v (alErase row2 u)) v
        = some (alErase row2 u) := alGet_alSet_self _ _ _
    have lookup_other : ∀ x, x ≠ u → x ≠ v →
        alGet (alSet (alSet g.edges u (alErase row v)) v (alErase row2 u)) x
          = alGet g.edges x := by
      intro x hxu hxv
      rw [alGet_alSet_ne _ _ hxv, alGet_alSet_ne _ _ hxu]
    have hdecomp : ∀ {x : V} {rowx : List (V × ℚ)},
        (x, rowx) ∈ alSet (alSet g.edges u (alErase row v)) v (alErase row2 u) →
        (x = v ∧ rowx = alErase row2 u) ∨ (x = u ∧ rowx = alErase row v) ∨
          ((x, rowx) ∈ g.edges ∧ x ≠ u ∧ x ≠ v) := by
      intro x rowx hmem
      rcases mem_alSet_nodup hnd1 hmem with ⟨h1, h2⟩ | ⟨h1, h2⟩
      · exact Or.inl ⟨h1, h2⟩
      · rcases mem_alSet_nodup hndE h1 with ⟨h3, h4⟩ | ⟨h3, h4⟩
        · exact Or.inr (Or.inl ⟨h3, h4⟩)
        · exact Or.inr (Or.inr ⟨h3, h4, h2⟩)
    refine ⟨hdir, ⟨hnd, ?_, ?_⟩, ?_⟩
    · rw [alKeys_alSet_mem _ hvk1, alKeys_alSet_mem _ huk, hkeys]
    · intro p hp
      obtain ⟨x, rowx⟩ := p
      rcases hdecomp hp with ⟨h1, h2⟩ | ⟨h1, h2⟩ | ⟨h1, h2, h3⟩
      · simp only at h2 ⊢
        rw [h2]
        exact ⟨nodup_alKeys_alErase _ hndrow2,
          fun e hee => (hrows _ hmemrow2).2 _ (mem_alErase hee)⟩
      · simp only at h2 ⊢
        rw [h2]
        exact ⟨nodup_alKeys_alErase _ hndrow,
          fun e hee => (hrows _ hmemrow).2 _ (mem_alErase hee)⟩
      · exact hrows _ h1
    · intro x rowx hmem e he
      obtain ⟨e1, e2⟩ := e
      rcases hdecomp hmem with ⟨hx, hrx⟩ | ⟨hx, hrx⟩ | ⟨hmemold, hxu, hxv⟩
      · rw [hrx] at he
        have hne1 : e1 ≠ u := by
          intro hc
          have hmemk : e1 ∈ alKeys (alErase row2 u) := mem_alKeys.mpr ⟨e2, he⟩
          rw [hc] at hmemk
          exact not_mem_keys_alErase_self u hndrow2 hmemk
        obtain ⟨row2', hrow2', hm2'⟩ := hsym v row2 hmemrow2 (e1, e2) (mem_alErase he)
        simp only at hrow2' hm2'
        by_cases he1v : e1 = v
        · rw [he1v] at hrow2'
          have hcopy := hrow2
          rw [hrow2'] at hcopy
          injection hcopy with hh
          rw [hh] at hm2'
          refine ⟨alErase row2 u, by simp only; rw [he1v]; exact lookup_v, ?_⟩
          simp only
          rw [hx]
          exact mem_alErase_of_ne_key hm2' hvu
        · refine ⟨row2', by simp only; rw [lookup_other e1 hne1 he1v]; exact hrow2', ?_⟩
          simp only
          rw [hx]
          exact hm2'
      · rw [hrx] at he
        have hne1 : e1 ≠ v := by
          intro hc
          have hmemk : e1 ∈ alKeys (alErase row v) := mem_alKeys.mpr ⟨e2, he⟩
          rw [hc] at hmemk
          exact not_mem_keys_alErase_self v hndrow hmemk
        obtain ⟨row2', hrow2', hm2'⟩ := hsym u row hmemrow (e1, e2) (mem_alErase he)
        simp only at hrow2' hm2'
        by_cases he1u : e1 = u
        · rw [he1u] at hrow2'
          have hcopy := hrow
          rw [hrow2'] at hcopy
          injection hcopy with hh
          rw [hh] at hm2'
          refine ⟨alErase row v, by simp only; rw [he1u]; exact lookup_u, ?_⟩
          simp only
          rw [hx]
          exact mem_alErase_of_ne_key hm2' hne
        · refine ⟨row2', by simp only; rw [lookup_other e1 he1u hne1]; exact hrow2', ?_⟩
          simp only
          rw [hx]
          exact hm2'
      · obtain ⟨row2', hrow2', hm2'⟩ := hsym x rowx hmemold (e1, e2) he
        simp only at hrow2' hm2'
        by_cases he1u : e1 = u
        · rw [he1u] at hrow2'
          have hcopy := hrow
          rw [hrow2'] at hcopy
          injection hcopy with hh
          rw [hh] at hm2'
          exact ⟨alErase row v, by simp only; rw [he1u]; exact lookup_u,
            mem_alErase_of_ne_key hm2' hxv⟩
        · by_cases he1v : e1 = v
          · rw [he1v] at hrow2'
            have hcopy := hrow2
            rw [hrow2'] at hcopy
            injection hcopy with hh
            rw [hh] at hm2'
            exact ⟨alErase row2 u, by simp only; rw [he1v]; exact lookup_v,
              mem_alErase_of_ne_key hm2' hxu⟩
          · exact ⟨row2', by simp only; rw [lookup_other e1 he1u he1v]; exact hrow2', hm2'⟩

theorem reach_ginv {g : Graph V} (hr : Reach g) : GInv g := by
  induction hr with
  | empty => exact ginv_empty
  | addV v _ ih => exact ginv_add_vertex ih v
  | addE u v w _ ih => exact ginv_add_edge ih u v w
  | rmE u v _ ih => exact ginv_remove_edge ih u v
theorem add_edge_success_edgeIn {g : Graph V} (hwf : g.WF) {u v : V} {w : ℚ}
    (hs : (g.add_edge u v w).1 = true) : EdgeIn (g.add_edge u v w).2 u v w := by
  obtain ⟨hnd, hkeys, hrows⟩ := hwf
  by_cases hu : u ∈ g.vertices
  · by_cases hv : v ∈ g.vertices
    · obtain ⟨row, hrow, hmemrow⟩ := Graph.row_of_wf ⟨hnd, hkeys, hrows⟩ hu
      by_cases hvk : v ∈ alKeys row
      · simp [Graph.add_edge, hu, hv, hrow, hvk] at hs
      · by_cases hcond : ¬g.directed = true ∧ ¬u = v
        · obtain ⟨row2, hrow2, _⟩ := Graph.row_of_wf ⟨hnd, hkeys, hrows⟩ hv
          have hvu : v ≠ u := fun he => hcond.2 he.symm
          have hget1 : alGet (alSet g.edges u (alSet row v w)) v = some row2 := by
            rw [alGet_alSet_ne _ _ hvu, hrow2]
          have hred : (g.add_edge u v w).2 =
              { g with
                edges := alSet (alSet g.edges u (alSet row v w)) v (alSet row2 u w),
                edge_count := g.edge_count + 1 + 1 } := by
            simp [Graph.add_edge, hu, hv, hrow, hvk, hcond.1, hcond.2, hget1]
          rw [hred]
          refine edgeIn_intro hu ?_ (mem_alSet_self row v w)
          rw [alGet_alSet_ne _ _ hcond.2, alGet_alSet_self]
        · have hred : (g.add_edge u v w).2 =
              { g with
                edges := alSet g.edges u (alSet row v w),
                edge_count := g.edge_count + 1 } := by
            have hguard : ¬(u ∉ g.vertices ∨ v ∉ g.vertices) := by simp [hu, hv]
            simp only [Graph.add_edge, hrow, if_neg hguard, if_neg hvk, if_neg hcond]
          rw [hred]
          exact edgeIn_intro hu (alGet_alSet_self _ _ _) (mem_alSet_self row v w)
    · simp [Graph.add_edge, hv] at hs
  · simp [Graph.add_edge, hu] at hs

theorem reach_gABCD : Reach gABCD := by
  unfold gABCD buildGraph
  simp only [List.foldl]
  exact Reach.addE _ _ _ (Reach.addE _ _ _ (Reach.addE _ _ _ (Reach.addE _ _ _
    (Reach.addV _ (Reach.addV _ (Reach.addV _ (Reach.addV _ Reach.empty)))))))
end GraphLemmas

section HeapLemmas

namespace MinHeap

theorem idx_set_self {d : List ℤ} {i : ℕ} (x : ℤ) (h : i < d.length) :
    idx (d.set i x) i = x := by
  simp [idx, List.getD, List.getElem?_set_self, h]

theorem idx_set_ne {d : List ℤ} {i j : ℕ} (x : ℤ) (h : j ≠ i) :
    idx (d.set i x) j = idx d j := by
  simp [idx, List.getD, List.getElem?_set_ne (fun hc => h hc.symm)]

theorem idx_append_lt {l : List ℤ} (x : ℤ) {i : ℕ} (h : i < l.length) :
    idx (l ++ [x]) i = idx l i := by
  simp [idx, List.getD, List.getElem?_append_left h]

theorem idx_append_len (l : List ℤ) (x : ℤ) :
    idx (l ++ [x]) l.length = x := by
  simp [idx, List.getD]

theorem idx_dropLast {d : List ℤ} {k : ℕ} (h : k < d.length - 1) :
    idx d.dropLast k = idx d k := by
  simp [idx, List.getD, List.dropLast_eq_take, List.getElem?_take_of_lt h]

theorem length_swap (d : List ℤ) (i j : ℕ) : (swap d i j).length = d.length := by
  simp [swap]

theorem idx_swap_fst {d : List ℤ} {i j : ℕ} (h1 : i < d.length) (h2 : j < d.length) :
    idx (swap d i j) i = idx d j := by
  unfold swap
  by_cases hij : i = j
  · subst hij
    rw [idx_set_self _ (by simpa using h1)]
  · rw [idx_set_ne _ hij, idx_set_self _ h1]

theorem idx_swap_snd {d : List ℤ} {i j : ℕ} (h2 : j < d.length) :
    idx (swap d i j) j = idx d i := by
  unfold swap
  rw [idx_set_self _ (by simpa using h2)]

theorem idx_swap_other {d : List ℤ} {i j k : ℕ} (hk1 : k ≠ i) (hk2 : k ≠ j) :
    idx (swap d i j) k = idx d k := by
  unfold swap
  rw [idx_set_ne _ hk2, idx_set_ne _ hk1]

theorem findIdx?_bounds {p : ℤ → Bool} {l : List ℤ} {i : ℕ}
    (h : l.findIdx? p = some i) : i < l.length ∧ p (idx l i) = true := by
  rw [List.findIdx?_eq_some_iff_findIdx_eq] at h
  obtain ⟨h1, h2⟩ := h
  refine ⟨h1, ?_⟩
  have hw : List.findIdx p l < l.length := h2 ▸ h1
  have hp := @List.findIdx_getElem _ p l hw
  rw [idx, List.getD, List.get?_eq_getElem?, List.getElem?_eq_getElem h1]
  simpa [h2] using hp

theorem parent_child {i : ℕ} (h : 0 < i) :
    i = 2 * ((i - 1) / 2) + 1 ∨ i = 2 * ((i - 1) / 2) + 2 := by
  omega

end MinHeap

theorem desc_le {i j : ℕ} (h : desc i j) : i ≤ j := by
  induction h with
  | refl => exact le_refl _
  | left _ ih => omega
  | right _ ih => omega

theorem desc_zero : ∀ j, desc 0 j := by
  intro j
  induction j using Nat.strong_induction_on with
  | _ j ih =>
    rcases Nat.eq_zero_or_pos j with h0 | hpos
    · rw [h0]; exact desc.refl 0
    · rcases MinHeap.parent_child hpos with h1 | h1
      · rw [h1]; exact desc.left (ih _ (by omega))
      · rw [h1]; exact desc.right (ih _ (by omega))

theorem desc_trans {i j k : ℕ} (hij : desc i j) (hjk : desc j k) : desc i k := by
  induction hjk with
  | refl => exact hij
  | left _ ih => exact desc.left ih
  | right _ ih => exact desc.right ih

theorem desc_child_cases {i p : ℕ} (h : desc i p) :
    p = i ∨ desc (2 * i + 1) p ∨ desc (2 * i + 2) p := by
  induction h with
  | refl => exact Or.inl rfl
  | left _ ih =>
    rcases ih with h1 | h1 | h1
    · rw [h1]; exact Or.inr (Or.inl (desc.refl _))
    · exact Or.inr (Or.inl (desc.left h1))
    · exact Or.inr (Or.inr (desc.left h1))
  | right _ ih =>
    rcases ih with h1 | h1 | h1
    · rw [h1]; exact Or.inr (Or.inr (desc.refl _))
    · exact Or.inr (Or.inl (desc.right h1))
    · exact Or.inr (Or.inr (desc.right h1))

theorem desc_parent {a p : ℕ} (h : desc a p) (hne : p ≠ a) :
    ∃ q, desc a q ∧ (p = 2 * q + 1 ∨ p = 2 * q + 2) := by
  cases h with
  | refl => exact absurd rfl hne
  | left hd => exact ⟨_, hd, Or.inl rfl⟩
  | right hd => exact ⟨_, hd, Or.inr rfl⟩

theorem desc_comparable : ∀ p a b, desc a p → desc b p → desc a b ∨ desc b a := by
  intro p
  induction p using Nat.strong_induction_on with
  | _ p ih =>
    intro a b ha hb
    by_cases hpa : p = a
    · exact Or.inr (hpa ▸ hb)
    by_cases hpb : p = b
    · exact Or.inl (hpb ▸ ha)
    obtain ⟨qa, hqa, hpa2⟩ := desc_parent ha hpa
    obtain ⟨qb, hqb, hpb2⟩ := desc_parent hb hpb
    have hq : qa = qb := by rcases hpa2 with h1 | h1 <;> rcases hpb2 with h2 | h2 <;> omega
    rw [hq] at hqa
    have hlt : qb < p := by rcases hpb2 with h1 | h1 <;> omega
    exact ih qb hlt a b hqa hqb

theorem sibling_subtree_disjoint {i q : ℕ}
    (h1 : desc (2 * i + 1) q) (h2 : desc (2 * i + 2) q) : False := by
  rcases desc_comparable q _ _ h1 h2 with h | h
  · obtain ⟨q', hq', hc⟩ := desc_parent h (by omega)
    have := desc_le hq'
    omega
  · obtain ⟨q', hq', hc⟩ := desc_parent h (by omega)
    have := desc_le hq'
    omega

theorem subheap_mono {d : List ℤ} {n i j : ℕ} (h : SubHeap d n i)
    (hij : desc i j) : SubHeap d n j :=
  fun p c hp hc hcc => h p c (desc_trans hij hp) hc hcc

theorem subheap_root_le {d : List ℤ} {n i : ℕ} (h : SubHeap d n i) :
    ∀ q, desc i q → q < n → MinHeap.idx d i ≤ MinHeap.idx d q := by
  intro q hq
  induction hq with
  | refl => intro _; exact le_refl _
  | @left j hd ih =>
    intro hlt
    exact le_trans (ih (by omega)) (h j (2 * j + 1) hd hlt (Or.inl rfl))
  | @right j hd ih =>
    intro hlt
    exact le_trans (ih (by omega)) (h j (2 * j + 2) hd hlt (Or.inr rfl))

theorem heapInv_iff_subheap_zero {d : List ℤ} {n : ℕ} :
    MinHeap.heapInv d n ↔ SubHeap d n 0 := by
  constructor
  · intro h p c _ hc hcc
    exact h p c hc hcc
  · intro h i c hc hcc
    exact h i c (desc_zero i) hc hcc

theorem MinHeap.downTarget_spec (d : List ℤ) (size index : ℕ) :
    (MinHeap.downTarget d size index = index ∧
      (2 * index + 1 < size → MinHeap.idx d index ≤ MinHeap.idx d (2 * index + 1)) ∧
      (2 * index + 2 < size → MinHeap.idx d index ≤ MinHeap.idx d (2 * index + 2))) ∨
    ((MinHeap.downTarget d size index = 2 * index + 1 ∨ MinHeap.downTarget d size index = 2 * index + 2) ∧
      MinHeap.downTarget d size index < size ∧
      MinHeap.idx d (MinHeap.downTarget d size index) < MinHeap.idx d index ∧
      (2 * index + 1 < size →
        MinHeap.idx d (MinHeap.downTarget d size index) ≤ MinHeap.idx d (2 * index + 1)) ∧
      (2 * index + 2 < size →
        MinHeap.idx d (MinHeap.downTarget d size index) ≤ MinHeap.idx d (2 * index + 2))) := by
  unfold MinHeap.downTarget
  dsimp only
  split_ifs with h1 h2 h3
  · -- left child smaller than root, right child smaller still
    refine Or.inr ⟨Or.inr rfl, h2.1, lt_trans h2.2 h1.2, fun _ => le_of_lt h2.2, fun _ => le_refl _⟩
  · -- left child is the smallest
    refine Or.inr ⟨Or.inl rfl, h1.1, h1.2, fun _ => le_refl _, fun hr => ?_⟩
    have := not_and.mp h2 hr
    omega
  · -- root at most left child (or none), right child smaller
    refine Or.inr ⟨Or.inr rfl, h3.1, h3.2, fun hl => ?_, fun _ => le_refl _⟩
    have := not_and.mp h1 hl
    omega
  · -- no smaller child: stop
    refine Or.inl ⟨rfl, fun hl => ?_, fun hr => ?_⟩
    · have := not_and.mp h1 hl
      omega
    · have := not_and.mp h3 hr
      omega

theorem MinHeap.heapify_down_go_length (size : ℕ) :
    ∀ (fuel : ℕ) (d : List ℤ) (index : ℕ),
      (MinHeap.heapify_down_go size d index fuel).length = d.length := by
  intro fuel
  induction fuel with
  | zero => intro d index; rfl
  | succ fuel ih =>
    intro d index
    simp only [MinHeap.heapify_down_go]
    split_ifs with h
    · rfl
    · rw [ih, MinHeap.length_swap]

theorem MinHeap.heapify_down_go_frame (size : ℕ) :
    ∀ (fuel : ℕ) (d : List ℤ) (index k : ℕ), ¬desc index k →
      MinHeap.idx (MinHeap.heapify_down_go size d index fuel) k = MinHeap.idx d k := by
  intro fuel
  induction fuel with
  | zero => intro d index k _; rfl
  | succ fuel ih =>
    intro d index k hk
    simp only [MinHeap.heapify_down_go]
    split_ifs with h
    · rfl
    · have hds2 : desc index (MinHeap.downTarget d size index) := by
        rcases MinHeap.downTarget_spec d size index with ⟨hs, _⟩ | ⟨hc, _⟩
        · exact absurd hs h
        · rcases hc with hc | hc
          · rw [hc]; exact desc.left (desc.refl index)
          · rw [hc]; exact desc.right (desc.refl index)
      have hk1 : k ≠ index := fun he => hk (he ▸ desc.refl index)
      have hk2 : k ≠ MinHeap.downTarget d size index := fun he => hk (he ▸ hds2)
      have hks2 : ¬desc (MinHeap.downTarget d size index) k :=
        fun hd => hk (desc_trans hds2 hd)
      rw [ih _ _ _ hks2, MinHeap.idx_swap_other hk1 hk2]

theorem MinHeap.heapify_down_go_lower (size : ℕ) :
    ∀ (fuel : ℕ) (d : List ℤ) (index : ℕ) (b : ℤ),
      size ≤ d.length →
      (∀ q, desc index q → q < size → b ≤ MinHeap.idx d q) →
      ∀ q, desc index q → q < size →
        b ≤ MinHeap.idx (MinHeap.heapify_down_go size d index fuel) q := by
  intro fuel
  induction fuel with
  | zero => intro d index b _ hb q hq hqs; exact hb q hq hqs
  | succ fuel ih =>
    intro d index b hlen hb q hq hqs
    simp only [MinHeap.heapify_down_go]
    split_ifs with h
    · exact hb q hq hqs
    · rcases MinHeap.downTarget_spec d size index with ⟨hs, _⟩ | ⟨hc, hlt, hmin, _⟩
      · exact absurd hs h
      · have hds2 : desc index (MinHeap.downTarget d size index) := by
          rcases hc with hc1 | hc1
          · rw [hc1]; exact desc.left (desc.refl index)
          · rw [hc1]; exact desc.right (desc.refl index)
        have hx2 : index < MinHeap.downTarget d size index := by rcases hc with hc1 | hc1 <;> omega
        have hxs : index < size := lt_trans hx2 hlt
        have hixlen : index < d.length := lt_of_lt_of_le hxs hlen
        have hs2len : MinHeap.downTarget d size index < d.length := lt_of_lt_of_le hlt hlen
        have hswapb : ∀ r, desc index r → r < size →
            b ≤ MinHeap.idx (MinHeap.swap d index (MinHeap.downTarget d size index)) r := by
          intro r hr hrs
          by_cases hr1 : r = index
          · rw [hr1, MinHeap.idx_swap_fst hixlen hs2len]
            exact hb _ hds2 hlt
          · by_cases hr2 : r = MinHeap.downTarget d size index
            · rw [hr2, MinHeap.idx_swap_snd hs2len]
              exact hb index (desc.refl index) hxs
            · rw [MinHeap.idx_swap_other hr1 hr2]
              exact hb r hr hrs
        by_cases hqd : desc (MinHeap.downTarget d size index) q
        · exact ih _ _ b (by rw [MinHeap.length_swap]; exact hlen)
            (fun r hr hrs => hswapb r (desc_trans hds2 hr) hrs) q hqd hqs
        · rw [MinHeap.heapify_down_go_frame size fuel _ _ _ hqd]
          exact hswapb q hq hqs
theorem heapify_down_step_subheap (size fuel : ℕ)
    (ih : ∀ (d : List ℤ) (j : ℕ), size ≤ d.length → size - j ≤ fuel →
      SubHeap d size (2 * j + 1) → SubHeap d size (2 * j + 2) →
      SubHeap (MinHeap.heapify_down_go size d j fuel) size j)
    (d : List ℤ) (index s2 oc : ℕ)
    (hpair : (s2 = 2 * index + 1 ∧ oc = 2 * index + 2) ∨
             (s2 = 2 * index + 2 ∧ oc = 2 * index + 1))
    (hS2 : SubHeap d size s2) (hOC : SubHeap d size oc)
    (hlen : size ≤ d.length) (hfb : size - index ≤ fuel + 1)
    (hlt : s2 < size)
    (hmin : MinHeap.idx d s2 < MinHeap.idx d index)
    (hboc : oc < size → MinHeap.idx d s2 ≤ MinHeap.idx d oc) :
    SubHeap (MinHeap.heapify_down_go size (MinHeap.swap d index s2) s2 fuel)
      size index := by
  have hx2 : index < s2 := by rcases hpair with ⟨h1, _⟩ | ⟨h1, _⟩ <;> omega
  have hocgt : index < oc := by rcases hpair with ⟨_, h2⟩ | ⟨_, h2⟩ <;> omega
  have hone : s2 ≠ oc := by rcases hpair with ⟨h1, h2⟩ | ⟨h1, h2⟩ <;> omega
  have hxs : index < size := lt_trans hx2 hlt
  have hixlen : index < d.length := lt_of_lt_of_le hxs hlen
  have hs2len : s2 < d.length := lt_of_lt_of_le hlt hlen
  have hlen' : size ≤ (MinHeap.swap d index s2).length := by
    rw [MinHeap.length_swap]; exact hlen
  have hds2 : desc index s2 := by
    rcases hpair with ⟨h1, _⟩ | ⟨h1, _⟩
    · rw [h1]; exact desc.left (desc.refl index)
    · rw [h1]; exact desc.right (desc.refl index)
  have hdisj : ∀ q, desc s2 q → desc oc q → False := by
    intro q ha hb
    rcases hpair with ⟨h1, h2⟩ | ⟨h1, h2⟩
    · exact sibling_subtree_disjoint (by rw [← h1]; exact ha) (by rw [← h2]; exact hb)
    · exact sibling_subtree_disjoint (by rw [← h2]; exact hb) (by rw [← h1]; exact ha)
  have hsubchild : ∀ t, (t = 2 * s2 + 1 ∨ t = 2 * s2 + 2) →
      SubHeap (MinHeap.swap d index s2) size t := by
    intro t ht p c hp hc hcc
    have hts : desc s2 t := by
      rcases ht with h | h
      · rw [h]; exact desc.left (desc.refl s2)
      · rw [h]; exact desc.right (desc.refl s2)
    have hps : desc s2 p := desc_trans hts hp
    have hple : t ≤ p := desc_le hp
    have htbound : s2 < t := by rcases ht with h | h <;> omega
    have hp1 : p ≠ index := by omega
    have hp2 : p ≠ s2 := by omega
    have hc1 : c ≠ index := by rcases hcc with h | h <;> omega
    have hc2 : c ≠ s2 := by rcases hcc with h | h <;> omega
    rw [MinHeap.idx_swap_other hp1 hp2, MinHeap.idx_swap_other hc1 hc2]
    exact hS2 p c hps hc hcc
  have hbound : ∀ q, desc s2 q → q < size →
      MinHeap.idx d s2 ≤ MinHeap.idx (MinHeap.swap d index s2) q := by
    intro q hq hqs
    by_cases hqs2 : q = s2
    · rw [hqs2, MinHeap.idx_swap_snd hs2len]
      exact le_of_lt hmin
    · have hqgt : s2 < q := lt_of_le_of_ne (desc_le hq) (Ne.symm hqs2)
      have hqne : q ≠ index := by omega
      rw [MinHeap.idx_swap_other hqne hqs2]
      exact subheap_root_le hS2 q hq hqs
  have hmain := ih (MinHeap.swap d index s2) s2 hlen' (by omega)
    (hsubchild _ (Or.inl rfl)) (hsubchild _ (Or.inr rfl))
  intro p c hp hc hcc
  rcases desc_child_cases hp with hpi | hpd | hpd
  · -- p is the root index; c is one of its two children, i.e. s2 or oc
    have hnotdesc : ¬desc s2 index := fun h => by have := desc_le h; omega
    have hri : MinHeap.idx
        (MinHeap.heapify_down_go size (MinHeap.swap d index s2) s2 fuel) index =
        MinHeap.idx d s2 := by
      rw [MinHeap.heapify_down_go_frame size fuel _ s2 index hnotdesc,
        MinHeap.idx_swap_fst hixlen hs2len]
    have hcc' : c = 2 * index + 1 ∨ c = 2 * index + 2 := by
      rw [hpi] at hcc; exact hcc
    have hcs2oc : c = s2 ∨ c = oc := by
      rcases hpair with ⟨h1, h2⟩ | ⟨h1, h2⟩ <;> rcases hcc' with h | h <;> omega
    rcases hcs2oc with hcs | hco
    · have hlow := MinHeap.heapify_down_go_lower size fuel
        (MinHeap.swap d index s2) s2 (MinHeap.idx d s2) hlen' hbound s2
        (desc.refl s2) hlt
      rw [hpi, hri, hcs]
      exact hlow
    · have hnoc : ¬desc s2 oc := fun h => hdisj oc h (desc.refl oc)
      have hoclt : oc < size := by rw [← hco]; exact hc
      have hocne1 : oc ≠ index := by omega
      have hocne2 : oc ≠ s2 := Ne.symm hone
      have hrc : MinHeap.idx
          (MinHeap.heapify_down_go size (MinHeap.swap d index s2) s2 fuel) oc =
          MinHeap.idx d oc := by
        rw [MinHeap.heapify_down_go_frame size fuel _ s2 oc hnoc,
          MinHeap.idx_swap_other hocne1 hocne2]
      rw [hpi, hco, hri, hrc]
      exact hboc hoclt
  all_goals {
    -- p lies strictly inside the subtree of one of the two children
    have hchild2 : ∃ t, (t = 2 * index + 1 ∨ t = 2 * index + 2) ∧ desc t p := by
      first
      | exact ⟨2 * index + 1, Or.inl rfl, hpd⟩
      | exact ⟨2 * index + 2, Or.inr rfl, hpd⟩
    obtain ⟨t, htc, htp⟩ := hchild2
    by_cases hts : t = s2
    · exact hmain p c (by rw [← hts]; exact htp) hc hcc
    · have hto : t = oc := by
        rcases hpair with ⟨h1, h2⟩ | ⟨h1, h2⟩ <;> rcases htc with h | h <;> omega
      have hocp : desc oc p := by rw [← hto]; exact htp
      have hdocc : desc oc c := by
        rcases hcc with h | h
        · rw [h]; exact desc.left hocp
        · rw [h]; exact desc.right hocp
      have hnsp : ¬desc s2 p := fun h => hdisj p h hocp
      have hnsc : ¬desc s2 c := fun h => hdisj c h hdocc
      have hplow : oc ≤ p := desc_le hocp
      have hclow : oc ≤ c := desc_le hdocc
      have hp1 : p ≠ index := by omega
      have hp2 : p ≠ s2 := fun he => hnsp (by rw [he]; exact desc.refl s2)
      have hc1 : c ≠ index := by omega
      have hc2 : c ≠ s2 := fun he => hnsc (by rw [he]; exact desc.refl s2)
      rw [MinHeap.heapify_down_go_frame size fuel _ s2 p hnsp,
        MinHeap.heapify_down_go_frame size fuel _ s2 c hnsc,
        MinHeap.idx_swap_other hp1 hp2, MinHeap.idx_swap_other hc1 hc2]
      exact hOC p c hocp hc hcc
  }

theorem MinHeap.heapify_down_go_subheap (size : ℕ) :
    ∀ (fuel : ℕ) (d : List ℤ) (index : ℕ),
      size ≤ d.length → size - index ≤ fuel →
      SubHeap d size (2 * index + 1) → SubHeap d size (2 * index + 2) →
      SubHeap (MinHeap.heapify_down_go size d index fuel) size index := by
  intro fuel
  induction fuel with
  | zero =>
    intro d index _ hfb _ _ p c hp hc hcc
    have h1 := desc_le hp
    rcases hcc with h | h <;> exact absurd hc (by omega)
  | succ fuel ih =>
    intro d index hlen hfb hL hR
    simp only [MinHeap.heapify_down_go]
    rcases MinHeap.downTarget_spec d size index with
      ⟨hstop, hc1, hc2⟩ | ⟨hchild, hlt, hmin, hb1, hb2⟩
    · rw [if_pos hstop]
      intro p c hp hc hcc
      rcases desc_child_cases hp with hpi | hpd | hpd
      · rcases hcc with h | h
        · rw [hpi] at h ⊢
          rw [h] at hc ⊢
          exact hc1 hc
        · rw [hpi] at h ⊢
          rw [h] at hc ⊢
          exact hc2 hc
      · exact hL p c hpd hc hcc
      · exact hR p c hpd hc hcc
    · have hne : MinHeap.downTarget d size index ≠ index := by
        rcases hchild with h | h <;> omega
      rw [if_neg hne]
      rcases hchild with h1 | h1
      · exact heapify_down_step_subheap size fuel ih d index _ (2 * index + 2)
          (Or.inl ⟨h1, rfl⟩) (by rw [h1]; exact hL) hR hlen hfb hlt hmin hb2
      · exact heapify_down_step_subheap size fuel ih d index _ (2 * index + 1)
          (Or.inr ⟨h1, rfl⟩) (by rw [h1]; exact hR) hL hlen hfb hlt hmin hb1
theorem MinHeap.heapify_up_go_length :
    ∀ (fuel : ℕ) (d : List ℤ) (index : ℕ),
      (MinHeap.heapify_up_go d index fuel).length = d.length := by
  intro fuel
  induction fuel with
  | zero => intro d index; rfl
  | succ fuel ih =>
    intro d index
    simp only [MinHeap.heapify_up_go]
    split_ifs with h
    · rw [ih, MinHeap.length_swap]
    · rfl

theorem MinHeap.heapify_up_go_heapInv (n : ℕ) :
    ∀ (fuel : ℕ) (d : List ℤ) (j : ℕ),
      j < n → n ≤ d.length → j ≤ fuel →
      (∀ p c, c < n → (c = 2 * p + 1 ∨ c = 2 * p + 2) → c ≠ j →
        MinHeap.idx d p ≤ MinHeap.idx d c) →
      (0 < j → ∀ c, c < n → (c = 2 * j + 1 ∨ c = 2 * j + 2) →
        MinHeap.idx d ((j - 1) / 2) ≤ MinHeap.idx d c) →
      MinHeap.heapInv (MinHeap.heapify_up_go d j fuel) n := by
  intro fuel
  induction fuel with
  | zero =>
    intro d j hjn hlen hjf h1 _ p c hc hcc
    exact h1 p c hc hcc (by rcases hcc with h | h <;> omega)
  | succ fuel ih =>
    intro d j hjn hlen hjf h1 h2
    simp only [MinHeap.heapify_up_go]
    split_ifs with hg
    · obtain ⟨hj0, hlt⟩ := hg
      have hpar : (j - 1) / 2 < j := by omega
      have hjlen : j < d.length := lt_of_lt_of_le hjn hlen
      have hparlen : (j - 1) / 2 < d.length := lt_trans hpar hjlen
      have hparn : (j - 1) / 2 < n := lt_trans hpar hjn
      apply ih (MinHeap.swap d j ((j - 1) / 2)) ((j - 1) / 2)
      · exact hparn
      · rw [MinHeap.length_swap]; exact hlen
      · omega
      · -- heap order holds for every pair except the one ending at the
        -- new sift position (j's parent)
        intro p c hc hcc hcpar
        by_cases hcj : c = j
        · have hp : p = (j - 1) / 2 := by rcases hcc with h | h <;> omega
          rw [hcj, hp, MinHeap.idx_swap_snd hparlen,
            MinHeap.idx_swap_fst hjlen hparlen]
          exact le_of_lt hlt
        · by_cases hpj : p = j
          · rw [hpj] at hcc
            have hcgt : j < c := by rcases hcc with h | h <;> omega
            rw [hpj, MinHeap.idx_swap_fst hjlen hparlen,
              MinHeap.idx_swap_other (show c ≠ j by omega)
                (show c ≠ (j - 1) / 2 by omega)]
            exact h2 hj0 c hc hcc
          · by_cases hppar : p = (j - 1) / 2
            · have hold := h1 p c hc hcc hcj
              rw [hppar] at hold
              rw [hppar, MinHeap.idx_swap_snd hparlen,
                MinHeap.idx_swap_other hcj hcpar]
              exact le_trans (le_of_lt hlt) hold
            · rw [MinHeap.idx_swap_other hpj hppar,
                MinHeap.idx_swap_other hcj hcpar]
              exact h1 p c hc hcc hcj
      · -- the parent-over-children bound at the new sift position
        intro hparpos c hc hcc
        have hgpj : ((j - 1) / 2 - 1) / 2 ≠ j := by omega
        have hgppar : ((j - 1) / 2 - 1) / 2 ≠ (j - 1) / 2 := by omega
        have hparchild := MinHeap.parent_child hparpos
        rw [MinHeap.idx_swap_other hgpj hgppar]
        by_cases hcj : c = j
        · rw [hcj, MinHeap.idx_swap_fst hjlen hparlen]
          exact h1 _ _ hparn hparchild (by omega)
        · rw [MinHeap.idx_swap_other hcj (show c ≠ (j - 1) / 2 by omega)]
          exact le_trans (h1 _ _ hparn hparchild (by omega)) (h1 _ _ hc hcc hcj)
    · intro p c hc hcc
      by_cases hcj : c = j
      · have hj0 : 0 < j := by rcases hcc with h | h <;> omega
        have hp : p = (j - 1) / 2 := by rcases hcc with h | h <;> omega
        have hnlt : ¬(MinHeap.idx d j < MinHeap.idx d ((j - 1) / 2)) :=
          fun hl => hg ⟨hj0, hl⟩
        rw [hcj, hp]
        omega
      · exact h1 p c hc hcc hcj

theorem heapInv_of_heapify_down (n fuel : ℕ) (d : List ℤ) (index : ℕ)
    (hlen : n ≤ d.length) (hfuel : n - index ≤ fuel)
    (hout : ∀ p c, c < n → (c = 2 * p + 1 ∨ c = 2 * p + 2) →
      ¬desc index p → ¬desc index c → MinHeap.idx d p ≤ MinHeap.idx d c)
    (hsub1 : SubHeap d n (2 * index + 1)) (hsub2 : SubHeap d n (2 * index + 2))
    (hcross : 0 < index → ∀ q, desc index q → q < n →
      MinHeap.idx d ((index - 1) / 2) ≤ MinHeap.idx d q) :
    MinHeap.heapInv (MinHeap.heapify_down_go n d index fuel) n := by
  have hsub := MinHeap.heapify_down_go_subheap n fuel d index hlen hfuel hsub1 hsub2
  intro p c hc hcc
  by_cases hdp : desc index p
  · exact hsub p c hdp hc hcc
  · by_cases hci : c = index
    · have hipos : 0 < index := by rcases hcc with h | h <;> omega
      have hp : p = (index - 1) / 2 := by rcases hcc with h | h <;> omega
      have hlow := MinHeap.heapify_down_go_lower n fuel d index
        (MinHeap.idx d ((index - 1) / 2)) hlen (hcross hipos) c
        (by rw [hci]; exact desc.refl index) hc
      rw [MinHeap.heapify_down_go_frame n fuel d index p hdp, hp]
      exact hlow
    · have hdc : ¬desc index c := by
        intro hdcc
        obtain ⟨q, hq, hcq⟩ := desc_parent hdcc hci
        have hpq : p = q := by
          rcases hcc with h | h <;> rcases hcq with h2 | h2 <;> omega
        exact hdp (by rw [hpq]; exact hq)
      rw [MinHeap.heapify_down_go_frame n fuel d index p hdp,
        MinHeap.heapify_down_go_frame n fuel d index c hdc]
      exact hout p c hc hcc hdp hdc
theorem findIdx_self_zero (l : List ℤ) (hl : 0 < l.length) :
    l.findIdx? (fun val => val = MinHeap.idx l 0) = some 0 := by
  cases l with
  | nil => simp at hl
  | cons a t =>
    have ha : MinHeap.idx (a :: t) 0 = a := rfl
    rw [List.findIdx?_cons, ha]
    simp

theorem heapWF_empty : HeapWF MinHeap.empty := by
  refine ⟨rfl, ?_⟩
  intro p c hc hcc
  have h0 : MinHeap.empty.size = 0 := rfl
  omega

theorem heapWF_insert (st : MinHeap) (x : ℤ) (h : HeapWF st) :
    HeapWF (st.insert x) := by
  obtain ⟨hsz, hinv⟩ := h
  refine ⟨?_, ?_⟩
  · show st.size + 1 = (MinHeap.heapify_up (st.data ++ [x]) (st.size + 1 - 1)).length
    rw [MinHeap.heapify_up, MinHeap.heapify_up_go_length, List.length_append]
    simp only [List.length_singleton]
    omega
  · show MinHeap.heapInv
      (MinHeap.heapify_up (st.data ++ [x]) (st.size + 1 - 1)) (st.size + 1)
    rw [MinHeap.heapify_up]
    apply MinHeap.heapify_up_go_heapInv
    · omega
    · rw [List.length_append]
      simp only [List.length_singleton]
      omega
    · exact le_refl _
    · intro p c hc hcc hcj
      have hc' : c < st.size := by omega
      have hp' : p < st.size := by rcases hcc with h | h <;> omega
      have hple : p < st.data.length := by omega
      have hcle : c < st.data.length := by omega
      rw [MinHeap.idx_append_lt x hple, MinHeap.idx_append_lt x hcle]
      exact hinv p c hc' hcc
    · intro hj0 c hc hcc
      exact absurd hc (by rcases hcc with h | h <;> omega)

theorem heapWF_delete_root (st : MinHeap) (item : ℤ)
    (hsz : st.size = st.data.length)
    (hinv : MinHeap.heapInv st.data st.size)
    (hfind : st.data.findIdx? (fun val => val = item) = some 0) :
    HeapWF (st.delete item).2 := by
  unfold MinHeap.delete
  rw [hfind]
  dsimp only
  have hd1len :
      ((st.data.set 0 (MinHeap.idx st.data (st.data.length - 1))).dropLast).length =
        st.data.length - 1 := by
    rw [List.length_dropLast, List.length_set]
  have hsub : ∀ t : ℕ, 0 < t →
      SubHeap ((st.data.set 0 (MinHeap.idx st.data (st.data.length - 1))).dropLast)
        (st.size - 1) t := by
    intro t ht p c hp hc hcc
    have hple := desc_le hp
    have hpc : p < c := by rcases hcc with h | h <;> omega
    have hplen : p < st.data.length - 1 := by omega
    have hclen : c < st.data.length - 1 := by omega
    rw [MinHeap.idx_dropLast (by rw [List.length_set]; omega),
      MinHeap.idx_dropLast (by rw [List.length_set]; omega),
      MinHeap.idx_set_ne _ (show p ≠ 0 by omega),
      MinHeap.idx_set_ne _ (show c ≠ 0 by omega)]
    exact hinv p c (by omega) hcc
  split_ifs with hn
  · refine ⟨?_, ?_⟩
    · show st.size - 1 =
        (MinHeap.heapify_down
          ((st.data.set 0 (MinHeap.idx st.data (st.data.length - 1))).dropLast)
          (st.size - 1) 0).length
      rw [MinHeap.heapify_down, MinHeap.heapify_down_go_length, hd1len]
      omega
    · show MinHeap.heapInv
        (MinHeap.heapify_down
          ((st.data.set 0 (MinHeap.idx st.data (st.data.length - 1))).dropLast)
          (st.size - 1) 0) (st.size - 1)
      rw [MinHeap.heapify_down]
      apply heapInv_of_heapify_down
      · rw [hd1len]; omega
      · omega
      · intro p c hc hcc hdp _
        exact absurd (desc_zero p) hdp
      · exact hsub _ (by omega)
      · exact hsub _ (by omega)
      · intro h0
        exact absurd h0 (lt_irrefl 0)
  · refine ⟨?_, ?_⟩
    · show st.size - 1 =
        ((st.data.set 0 (MinHeap.idx st.data (st.data.length - 1))).dropLast).length
      rw [hd1len]
      omega
    · intro p c hc hcc
      have hcs : c < st.size - 1 := hc
      exact absurd hcs (by omega)

theorem heapWF_extract_min (st : MinHeap) (h : HeapWF st) :
    HeapWF (st.extract_min).2 := by
  obtain ⟨hsz, hinv⟩ := h
  unfold MinHeap.extract_min
  split_ifs with h0
  · exact ⟨hsz, hinv⟩
  · dsimp only
    have hlen0 : 0 < st.data.length := by omega
    exact heapWF_delete_root st (MinHeap.idx st.data 0) hsz hinv
      (findIdx_self_zero st.data hlen0)
theorem heapWF_update (st : MinHeap) (o x : ℤ) (h : HeapWF st) :
    HeapWF (st.update o x).2 := by
  obtain ⟨hsz, hinv⟩ := h
  unfold MinHeap.update
  cases hfind : st.data.findIdx? (fun val => val = o) with
  | none => exact ⟨hsz, hinv⟩
  | some index =>
    obtain ⟨hilen, hival⟩ := MinHeap.findIdx?_bounds hfind
    have hio : MinHeap.idx st.data index = o := of_decide_eq_true hival
    dsimp only
    split_ifs with hlt
    · refine ⟨?_, ?_⟩
      · show st.size = (MinHeap.heapify_up (st.data.set index x) index).length
        rw [MinHeap.heapify_up, MinHeap.heapify_up_go_length, List.length_set]
        exact hsz
      · show MinHeap.heapInv
          (MinHeap.heapify_up (st.data.set index x) index) st.size
        rw [MinHeap.heapify_up]
        apply MinHeap.heapify_up_go_heapInv
        · omega
        · rw [List.length_set]; omega
        · exact le_refl _
        · intro p c hc hcc hcj
          by_cases hpj : p = index
          · rw [hpj] at hcc
            rw [hpj, MinHeap.idx_set_self x hilen, MinHeap.idx_set_ne x hcj]
            have h2 := hinv index c hc hcc
            omega
          · rw [MinHeap.idx_set_ne x hpj, MinHeap.idx_set_ne x hcj]
            exact hinv p c hc hcc
        · intro hj0 c hc hcc
          have hparb : (index - 1) / 2 ≠ index := by omega
          have hcb : c ≠ index := by rcases hcc with h | h <;> omega
          rw [MinHeap.idx_set_ne x hparb, MinHeap.idx_set_ne x hcb]
          have hch := MinHeap.parent_child hj0
          exact le_trans (hinv _ _ (by omega) hch) (hinv _ _ hc hcc)
    · refine ⟨?_, ?_⟩
      · show st.size =
          (MinHeap.heapify_down (st.data.set index x) st.size index).length
        rw [MinHeap.heapify_down, MinHeap.heapify_down_go_length, List.length_set]
        exact hsz
      · show MinHeap.heapInv
          (MinHeap.heapify_down (st.data.set index x) st.size index) st.size
        rw [MinHeap.heapify_down]
        apply heapInv_of_heapify_down
        · rw [List.length_set]; omega
        · omega
        · intro p c hc hcc hdp hdc
          have hpne : p ≠ index := fun he => hdp (by rw [he]; exact desc.refl index)
          have hcne : c ≠ index := fun he => hdc (by rw [he]; exact desc.refl index)
          rw [MinHeap.idx_set_ne x hpne, MinHeap.idx_set_ne x hcne]
          exact hinv p c hc hcc
        · intro p c hp hc hcc
          have hple := desc_le hp
          have hpne : p ≠ index := by omega
          have hcne : c ≠ index := by rcases hcc with h1 | h1 <;> omega
          rw [MinHeap.idx_set_ne x hpne, MinHeap.idx_set_ne x hcne]
          exact hinv p c hc hcc
        · intro p c hp hc hcc
          have hple := desc_le hp
          have hpne : p ≠ index := by omega
          have hcne : c ≠ index := by rcases hcc with h1 | h1 <;> omega
          rw [MinHeap.idx_set_ne x hpne, MinHeap.idx_set_ne x hcne]
          exact hinv p c hc hcc
        · intro hi0 q hq hqn
          have hparne : (index - 1) / 2 ≠ index := by omega
          rw [MinHeap.idx_set_ne x hparne]
          have hch := MinHeap.parent_child hi0
          have hbase : MinHeap.idx st.data ((index - 1) / 2) ≤
              MinHeap.idx st.data index := hinv _ _ (by omega) hch
          by_cases hqi : q = index
          · rw [hqi, MinHeap.idx_set_self x hilen]
            omega
          · rw [MinHeap.idx_set_ne x hqi]
            have hdi : desc ((index - 1) / 2) index := by
              rcases hch with h1 | h1
              · have hh := desc.left (desc.refl ((index - 1) / 2))
                rw [← h1] at hh
                exact hh
              · have hh := desc.right (desc.refl ((index - 1) / 2))
                rw [← h1] at hh
                exact hh
            have hdq : desc ((index - 1) / 2) q := desc_trans hdi hq
            have hsubpar : SubHeap st.data st.size ((index - 1) / 2) :=
              fun a b _ hb hbb => hinv a b hb hbb
            exact subheap_root_le hsubpar q hdq hqn

theorem MinHeap.buildLoop_length (size : ℕ) :
    ∀ (k : ℕ) (d : List ℤ), (MinHeap.buildLoop size d k).length = d.length := by
  intro k
  induction k with
  | zero => intro d; rfl
  | succ k ih =>
    intro d
    simp only [MinHeap.buildLoop]
    rw [ih, MinHeap.heapify_down, MinHeap.heapify_down_go_length]

theorem MinHeap.buildLoop_subheap (size : ℕ) :
    ∀ (k : ℕ) (d : List ℤ), size ≤ d.length →
      (∀ i, k ≤ i → SubHeap d size i) →
      ∀ i, SubHeap (MinHeap.buildLoop size d k) size i := by
  intro k
  induction k with
  | zero => intro d _ hpre i; exact hpre i (Nat.zero_le i)
  | succ k ih =>
    intro d hlen hpre i
    simp only [MinHeap.buildLoop]
    apply ih
    · rw [MinHeap.heapify_down, MinHeap.heapify_down_go_length]
      exact hlen
    · intro j hj
      have hk : SubHeap (MinHeap.heapify_down d size k) size k := by
        rw [MinHeap.heapify_down]
        exact MinHeap.heapify_down_go_subheap size size d k hlen (by omega)
          (hpre _ (by omega)) (hpre _ (by omega))
      rcases Nat.eq_or_lt_of_le hj with he | hlt
      · rw [← he]
        exact hk
      · by_cases hdkj : desc k j
        · exact subheap_mono hk hdkj
        · intro p c hp hc hcc
          have hnp : ¬desc k p := by
            intro hkp
            rcases desc_comparable p k j hkp hp with h1 | h1
            · exact hdkj h1
            · have := desc_le h1; omega
          have hnc : ¬desc k c := by
            intro hkc
            have hjc : desc j c := by
              rcases hcc with h1 | h1
              · rw [h1]; exact desc.left hp
              · rw [h1]; exact desc.right hp
            rcases desc_comparable c k j hkc hjc with h1 | h1
            · exact hdkj h1
            · have := desc_le h1; omega
          rw [MinHeap.heapify_down,
            MinHeap.heapify_down_go_frame size size d k p hnp,
            MinHeap.heapify_down_go_frame size size d k c hnc]
          exact hpre j (by omega) p c hp hc hcc

theorem heapWF_build (st : MinHeap) (items : List ℤ) :
    HeapWF (st.build_heap items) := by
  refine ⟨?_, ?_⟩
  · show items.length =
      (MinHeap.buildLoop items.length items (items.length / 2)).length
    rw [MinHeap.buildLoop_length]
  · show MinHeap.heapInv
      (MinHeap.buildLoop items.length items (items.length / 2)) items.length
    have hpre : ∀ i, items.length / 2 ≤ i → SubHeap items items.length i := by
      intro i hi p c hp hc hcc
      have := desc_le hp
      exact absurd hc (by rcases hcc with h | h <;> omega)
    have hall := MinHeap.buildLoop_subheap items.length (items.length / 2) items
      (le_refl _) hpre
    rw [heapInv_iff_subheap_zero]
    exact hall 0

theorem heapWF_applyOp (st : MinHeap) (op : HeapOp) (h : HeapWF st) :
    HeapWF (applyOp st op) := by
  cases op with
  | insert x => exact heapWF_insert st x h
  | extract => exact heapWF_extract_min st h
  | update o n => exact heapWF_update st o n h
  | build items => exact heapWF_build st items

theorem heapWF_applyOps (ops : List HeapOp) : HeapWF (applyOps ops) := by
  have h : ∀ (l : List HeapOp) (st : MinHeap), HeapWF st →
      HeapWF (l.foldl applyOp st) := by
    intro l
    induction l with
    | nil => intro st h; exact h
    | cons op t ih => intro st h; exact ih _ (heapWF_applyOp st op h)
  exact h ops MinHeap.empty heapWF_empty
end HeapLemmas

section SearchLemmas

variable {V : Type} [DecidableEq V]

theorem mem_of_alGet {K β : Type} [DecidableEq K] {l : List (K × β)} {k : K}
    {v : β} (h : alGet l k = some v) : (k, v) ∈ l := by
  induction l with
  | nil => simp [alGet] at h
  | cons a rest ih =>
    obtain ⟨k', v'⟩ := a
    by_cases hk : k' = k
    · rw [alGet, if_pos hk] at h
      have hv := Option.some.inj h
      rw [hk, hv]
      exact List.mem_cons_self _ _
    · rw [alGet, if_neg hk] at h
      exact List.mem_cons_of_mem _ (ih h)

theorem edgeIn_target_mem {g : Graph V} (hwf : g.WF) {u v : V} {w : ℚ}
    (h : EdgeIn g u v w) : v ∈ g.vertices := by
  obtain ⟨hu, row, hrow, hm⟩ := edgeIn_elim h
  exact (hwf.2.2 (u, row) (mem_of_alGet hrow)).2 (v, w) hm

theorem get_neighbors_edgeIn {g : Graph V} {u : V} :
    ∀ e ∈ g.get_neighbors u, EdgeIn g u e.1 e.2 := by
  intro e he
  show (e.1, e.2) ∈ g.get_neighbors u
  rw [Prod.mk.eta]
  exact he

theorem isPath_snoc {g : Graph V} {s u v : V} {l : List V} {w : ℚ}
    (h : IsPath g s u l) (he : EdgeIn g u v w) : IsPath g s v (l ++ [v]) := by
  induction h with
  | single a => exact IsPath.cons he (IsPath.single v)
  | cons e hp ih => exact IsPath.cons e (ih he)

theorem isPath_ne_nil {g : Graph V} {a b : V} {p : List V} (h : IsPath g a b p) :
    p ≠ [] := by
  cases h <;> simp

theorem isPath_head {g : Graph V} {a b : V} {p : List V} (h : IsPath g a b p) :
    p.head? = some a := by
  cases h <;> rfl

theorem isPath_getLast {g : Graph V} {a b : V} {p : List V} (h : IsPath g a b p) :
    p.getLast? = some b := by
  induction h with
  | single a => rfl
  | @cons a b c p w e hp ih =>
    cases p with
    | nil => exact absurd rfl (isPath_ne_nil hp)
    | cons x xs =>
      rw [List.getLast?_cons_cons]
      exact ih

theorem dfsPathLoop_sound_of (fuel : ℕ)
    (hv : ∀ (g : Graph V) (s t cur : V) (vis path : List V),
      ((path = [] ∧ cur = s) ∨ (∃ u w, IsPath g s u path ∧ EdgeIn g u cur w)) →
      ∀ p, (dfsPathVisit g t fuel cur vis path).1 = some p → IsPath g s t p) :
    ∀ (nbrs : List (V × ℚ)) (g : Graph V) (s t u : V) (vis path : List V),
      IsPath g s u path →
      (∀ e ∈ nbrs, EdgeIn g u e.1 e.2) →
      ∀ p, (dfsPathLoop g t fuel nbrs vis path).1 = some p → IsPath g s t p := by
  intro nbrs
  induction nbrs with
  | nil =>
    intro g s t u vis path _ _ p hp
    simp [dfsPathLoop] at hp
  | cons e rest ih =>
    obtain ⟨nb, w⟩ := e
    intro g s t u vis path hpath hnbrs p hp
    simp only [dfsPathLoop] at hp
    split_ifs at hp with hmem
    · exact ih g s t u vis path hpath
        (fun e he => hnbrs e (List.mem_cons_of_mem _ he)) p hp
    · rcases hV : dfsPathVisit g t fuel nb vis path with ⟨r1, vis1⟩
      rw [hV] at hp
      cases r1 with
      | some q =>
        have hq : q = p := by
          have : some q = some p := hp
          exact Option.some.inj this
        rw [← hq]
        exact hv g s t nb vis path
          (Or.inr ⟨u, w, hpath, hnbrs (nb, w) (List.mem_cons_self _ _)⟩) q
          (by rw [hV])
      | none =>
        exact ih g s t u vis1 path hpath
          (fun e he => hnbrs e (List.mem_cons_of_mem _ he)) p hp

theorem dfsPathVisit_sound :
    ∀ (fuel : ℕ) (g : Graph V) (s t cur : V) (vis path : List V),
      ((path = [] ∧ cur = s) ∨ (∃ u w, IsPath g s u path ∧ EdgeIn g u cur w)) →
      ∀ p, (dfsPathVisit g t fuel cur vis path).1 = some p → IsPath g s t p := by
  intro fuel
  induction fuel with
  | zero =>
    intro g s t cur vis path _ p hp
    simp [dfsPathVisit] at hp
  | succ fuel ih =>
    intro g s t cur vis path hpre p hp
    simp only [dfsPathVisit] at hp
    split_ifs at hp with hct hcv
    · have hq : path ++ [cur] = p := by
        have : some (path ++ [cur]) = some p := hp
        exact Option.some.inj this
      rw [← hq, hct]
      rcases hpre with ⟨hpe, hcs⟩ | ⟨u, w, hpath, hedge⟩
      · have hst : s = t := by rw [← hcs, hct]
        rw [hpe, ← hst]
        exact IsPath.single s
      · rw [hct] at hedge
        exact isPath_snoc hpath hedge
    · apply dfsPathLoop_sound_of fuel ih (g.get_neighbors cur) g s t cur
        (vis ++ [cur]) (path ++ [cur]) ?_ ?_ p hp
      · rcases hpre with ⟨hpe, hcs⟩ | ⟨u, w, hpath, hedge⟩
        · rw [hpe, hcs]
          exact IsPath.single s
        · exact isPath_snoc hpath hedge
      · intro e he
        exact get_neighbors_edgeIn e he

theorem dfsPathLoop_spec_of (fuel : ℕ)
    (hv : ∀ (g : Graph V) (t cur : V) (vis path : List V)
      (res : Option (List V)) (vis' : List V),
      g.WF → cur ∈ g.vertices → vis ⊆ g.vertices → vis.Nodup →
      g.vertices.length + 1 ≤ fuel + vis.length →
      dfsPathVisit g t fuel cur vis path = (res, vis') →
      vis ⊆ vis' ∧ vis.length ≤ vis'.length ∧ vis' ⊆ g.vertices ∧
        vis'.Nodup ∧
      (res = none →
        cur ∈ vis' ∧ (t ∈ vis' → t ∈ vis) ∧
        (∀ v ∈ vis', v ∉ vis → ∀ nb w, EdgeIn g v nb w → nb ∈ vis'))) :
    ∀ (nbrs : List (V × ℚ)) (g : Graph V) (t : V) (vis path : List V)
      (res : Option (List V)) (vis' : List V),
      g.WF → (∀ e ∈ nbrs, e.1 ∈ g.vertices) → vis ⊆ g.vertices → vis.Nodup →
      g.vertices.length + 1 ≤ fuel + vis.length →
      dfsPathLoop g t fuel nbrs vis path = (res, vis') →
      vis ⊆ vis' ∧ vis.length ≤ vis'.length ∧ vis' ⊆ g.vertices ∧
        vis'.Nodup ∧
      (res = none →
        (∀ e ∈ nbrs, e.1 ∈ vis') ∧ (t ∈ vis' → t ∈ vis) ∧
        (∀ v ∈ vis', v ∉ vis → ∀ nb w, EdgeIn g v nb w → nb ∈ vis')) := by
  intro nbrs
  induction nbrs with
  | nil =>
    intro g t vis path res vis' _ _ hsub hnd _ heq
    simp only [dfsPathLoop] at heq
    injection heq with h1 h2
    subst h2
    refine ⟨fun a ha => ha, le_refl _, hsub, hnd, ?_⟩
    intro _
    refine ⟨fun e he => absurd he (List.not_mem_nil e), fun ht => ht, ?_⟩
    intro v hv' hnv
    exact absurd hv' hnv
  | cons e0 rest ih =>
    obtain ⟨nb, w⟩ := e0
    intro g t vis path res vis' hwf hnbrs hsub hnd hfl heq
    simp only [dfsPathLoop] at heq
    split_ifs at heq with hmem
    · have hrec := ih g t vis path res vis' hwf
        (fun e he => hnbrs e (List.mem_cons_of_mem _ he)) hsub hnd hfl heq
      obtain ⟨ha, hb, hc, hd, he'⟩ := hrec
      refine ⟨ha, hb, hc, hd, ?_⟩
      intro hres
      obtain ⟨hheads, htp, hclose⟩ := he' hres
      refine ⟨?_, htp, hclose⟩
      intro e hein
      rcases List.mem_cons.mp hein with h1 | h1
      · rw [h1]
        exact ha hmem
      · exact hheads e h1
    · rcases hV : dfsPathVisit g t fuel nb vis path with ⟨r1, vis1⟩
      rw [hV] at heq
      have hvres := hv g t nb vis path r1 vis1 hwf
        (hnbrs (nb, w) (List.mem_cons_self _ _)) hsub hnd hfl hV
      obtain ⟨va, vb, vc, vd, ve⟩ := hvres
      cases r1 with
      | some q =>
        injection heq with h1 h2
        subst h1 h2
        exact ⟨va, vb, vc, vd, fun hres => Option.noConfusion hres⟩
      | none =>
        obtain ⟨hnbin, htp1, hclose1⟩ := ve rfl
        have hrec := ih g t vis1 path res vis' hwf
          (fun e he => hnbrs e (List.mem_cons_of_mem _ he)) vc vd (by omega) heq
        obtain ⟨ra, rb, rc, rd, re⟩ := hrec
        refine ⟨fun a ha => ra (va ha), le_trans vb rb, rc, rd, ?_⟩
        intro hres
        obtain ⟨rheads, rtp, rclose⟩ := re hres
        refine ⟨?_, fun ht => htp1 (rtp ht), ?_⟩
        · intro e hein
          rcases List.mem_cons.mp hein with h1 | h1
          · rw [h1]
            exact ra hnbin
          · exact rheads e h1
        · intro v hv' hnv nb' w' he'
          by_cases hv1 : v ∈ vis1
          · exact ra (hclose1 v hv1 hnv nb' w' he')
          · exact rclose v hv' hv1 nb' w' he'

theorem dfsPathVisit_spec :
    ∀ (fuel : ℕ) (g : Graph V) (t cur : V) (vis path : List V)
      (res : Option (List V)) (vis' : List V),
      g.WF → cur ∈ g.vertices → vis ⊆ g.vertices → vis.Nodup →
      g.vertices.length + 1 ≤ fuel + vis.length →
      dfsPathVisit g t fuel cur vis path = (res, vis') →
      vis ⊆ vis' ∧ vis.length ≤ vis'.length ∧ vis' ⊆ g.vertices ∧
        vis'.Nodup ∧
      (res = none →
        cur ∈ vis' ∧ (t ∈ vis' → t ∈ vis) ∧
        (∀ v ∈ vis', v ∉ vis → ∀ nb w, EdgeIn g v nb w → nb ∈ vis')) := by
  intro fuel
  induction fuel with
  | zero =>
    intro g t cur vis path res vis' _ _ hsub hnd hfl _
    have hle : vis.length ≤ g.vertices.length := (hnd.subperm hsub).length_le
    exact absurd hfl (by omega)
  | succ fuel ih =>
    intro g t cur vis path res vis' hwf hcur hsub hnd hfl heq
    simp only [dfsPathVisit] at heq
    split_ifs at heq with hct hcv
    · injection heq with h1 h2
      subst h2
      refine ⟨fun a ha => ha, le_refl _, hsub, hnd, ?_⟩
      intro hres
      rw [← h1] at hres
      exact Option.noConfusion hres
    · injection heq with h1 h2
      subst h2
      refine ⟨fun a ha => ha, le_refl _, hsub, hnd, ?_⟩
      intro _
      refine ⟨hcv, fun ht => ht, ?_⟩
      intro v hv' hnv
      exact absurd hv' hnv
    · have hsub' : vis ++ [cur] ⊆ g.vertices := by
        intro a ha
        rcases List.mem_append.mp ha with h | h
        · exact hsub h
        · rw [List.mem_singleton.mp h]
          exact hcur
      have hnd' : (vis ++ [cur]).Nodup := by
        simp [List.nodup_append, hnd, hcv]
      have hlen' : (vis ++ [cur]).length = vis.length + 1 := by simp
      have hnbrs' : ∀ e ∈ g.get_neighbors cur, e.1 ∈ g.vertices :=
        fun e he => edgeIn_target_mem hwf (get_neighbors_edgeIn e he)
      have hrec := dfsPathLoop_spec_of fuel ih (g.get_neighbors cur) g t
        (vis ++ [cur]) (path ++ [cur]) res vis' hwf hnbrs' hsub' hnd'
        (by omega) heq
      obtain ⟨ra, rb, rc, rd, re⟩ := hrec
      refine ⟨fun a ha => ra (List.mem_append.mpr (Or.inl ha)), by omega, rc, rd,
        ?_⟩
      intro hres
      obtain ⟨rheads, rtp, rclose⟩ := re hres
      refine ⟨ra (List.mem_append.mpr (Or.inr (List.mem_singleton.mpr rfl))),
        ?_, ?_⟩
      · intro ht
        rcases List.mem_append.mp (rtp ht) with h | h
        · exact h
        · exact absurd (List.mem_singleton.mp h).symm hct
      · intro v hv' hnv nb w he
        by_cases hvc : v = cur
        · have hmemn : (nb, w) ∈ g.get_neighbors cur := by
            rw [← hvc]
            exact he
          exact rheads (nb, w) hmemn
        · have hnv' : v ∉ vis ++ [cur] := by
            intro hmm
            rcases List.mem_append.mp hmm with h | h
            · exact hnv h
            · exact hvc (List.mem_singleton.mp h)
          exact rclose v hv' hnv' nb w he
theorem alSet_length_not_mem {K β : Type} [DecidableEq K] {l : List (K × β)}
    {k : K} (v : β) (h : k ∉ alKeys l) :
    (alSet l k v).length = l.length + 1 := by
  have h2 := congrArg List.length (alKeys_alSet_not_mem v h)
  simpa [alKeys] using h2

theorem reconstructPath_mono {cf : List (V × V)} :
    ∀ (f1 f2 : ℕ), f1 ≤ f2 → ∀ (v : V) (p : List V),
      reconstructPath cf v f1 = some p → reconstructPath cf v f2 = some p := by
  intro f1
  induction f1 with
  | zero =>
    intro f2 _ v p h
    simp [reconstructPath] at h
  | succ f1 ih =>
    intro f2 hle v p h
    obtain ⟨f2', rfl⟩ : ∃ f2', f2 = f2' + 1 := ⟨f2 - 1, by omega⟩
    rw [reconstructPath] at h
    rw [reconstructPath]
    cases hget : alGet cf v with
    | none =>
      simp only [hget] at h ⊢
      exact h
    | some u =>
      simp only [hget] at h ⊢
      cases hr : reconstructPath cf u f1 with
      | none => simp [hr] at h
      | some p' =>
        simp only [hr, Option.map_some'] at h
        rw [ih f2' (by omega) u p' hr]
        simp only [Option.map_some']
        exact h

theorem reconstructPath_congr {cf cf' : List (V × V)} :
    ∀ (f : ℕ) (v : V) (p : List V),
      reconstructPath cf v f = some p →
      (∀ x ∈ p, alGet cf' x = alGet cf x) →
      reconstructPath cf' v f = some p := by
  intro f
  induction f with
  | zero =>
    intro v p h
    simp [reconstructPath] at h
  | succ f ih =>
    intro v p h hcong
    rw [reconstructPath] at h
    rw [reconstructPath]
    cases hget : alGet cf v with
    | none =>
      simp only [hget] at h
      have hp : p = [v] := (Option.some.inj h).symm
      rw [hcong v (by rw [hp]; exact List.mem_singleton.mpr rfl)]
      simp only [hget]
      exact h
    | some u =>
      simp only [hget] at h
      cases hr : reconstructPath cf u f with
      | none => simp [hr] at h
      | some p' =>
        simp only [hr, Option.map_some'] at h
        have hp : p = p' ++ [v] := (Option.some.inj h).symm
        have hvmem : v ∈ p := by
          rw [hp]
          simp
        have hcong' : ∀ x ∈ p', alGet cf' x = alGet cf x := fun x hx =>
          hcong x (by rw [hp]; exact List.mem_append.mpr (Or.inl hx))
        rw [hcong v hvmem]
        simp only [hget, ih u p' hr hcong', Option.map_some']
        exact h

theorem isPath_snoc_inv {g : Graph V} {s u : V} {l : List V}
    (h : IsPath g s u l) :
    (l = [s] ∧ u = s) ∨
    (∃ l' u' w, l = l' ++ [u] ∧ IsPath g s u' l' ∧ EdgeIn g u' u w) := by
  induction h with
  | single a => exact Or.inl ⟨rfl, rfl⟩
  | @cons a b c p w e hp ih =>
    rcases ih with ⟨hp1, hp2⟩ | ⟨l', u', w', hl, hpath, hedge⟩
    · right
      refine ⟨[a], a, w, ?_, IsPath.single a, ?_⟩
      · rw [hp1, hp2]
        rfl
      · rw [hp2]
        exact e
    · right
      refine ⟨a :: l', u', w', ?_, IsPath.cons e hpath, hedge⟩
      rw [hl]
      rfl

theorem bfs_crossing (g : Graph V) (s : V) (vis qv : List V) (lvl : V → ℕ)
    (hsv : s ∈ vis) (hs0 : lvl s = 0)
    (hclose : ∀ u ∈ vis, u ∉ qv → ∀ nb w, EdgeIn g u nb w →
      nb ∈ vis ∧ lvl nb ≤ lvl u + 1) :
    ∀ (n : ℕ) (u : V) (l : List V), l.length ≤ n → IsPath g s u l →
      (u ∈ vis ∧ lvl u + 1 ≤ l.length) ∨ (∃ x ∈ qv, lvl x + 1 ≤ l.length) := by
  intro n
  induction n with
  | zero =>
    intro u l hlen hp
    exact absurd (List.length_eq_zero.mp (by omega)) (isPath_ne_nil hp)
  | succ n ih =>
    intro u l hlen hp
    rcases isPath_snoc_inv hp with ⟨hl, hu⟩ | ⟨l', u', w, hl, hpath, hedge⟩
    · refine Or.inl ⟨?_, ?_⟩
      · rw [hu]
        exact hsv
      · rw [hu, hs0, hl]
        simp
    · have hlen' : l'.length ≤ n := by
        rw [hl] at hlen
        simp at hlen
        omega
      rcases ih u' l' hlen' hpath with ⟨hin, hbound⟩ | ⟨x, hx, hb⟩
      · by_cases hq : u' ∈ qv
        · refine Or.inr ⟨u', hq, ?_⟩
          rw [hl]
          simp
          omega
        · obtain ⟨hnb, hlb⟩ := hclose u' hin hq u w hedge
          refine Or.inl ⟨hnb, ?_⟩
          rw [hl]
          simp
          omega
      · refine Or.inr ⟨x, hx, ?_⟩
        rw [hl]
        simp
        omega
theorem bfsEnqNbrs_spec (g : Graph V) (s t v : V) (d : ℚ) (hwf : g.WF) :
    ∀ (nbrs : List (V × ℚ)) (st : BfsState V) (lvl : V → ℕ),
      v ∈ st.visited →
      st.visited ⊆ g.vertices → st.visited.Nodup →
      (st.queue.map Prod.fst) ⊆ st.visited →
      (st.queue.map Prod.fst).Nodup →
      alKeys st.cameFrom ⊆ st.visited →
      st.queue.Pairwise (fun x y => lvl x.1 ≤ lvl y.1) →
      (∀ y ∈ st.queue, lvl y.1 ≤ lvl v + 1) →
      (∀ y ∈ st.queue, lvl v ≤ lvl y.1) →
      (∀ u ∈ st.visited, lvl u ≤ lvl v + 1) →
      (∀ u ∈ st.visited, u ∉ st.queue.map Prod.fst → u ≠ v →
        ∀ nb w, EdgeIn g u nb w → nb ∈ st.visited ∧ lvl nb ≤ lvl u + 1) →
      (t ∈ st.visited → t ∈ st.queue.map Prod.fst) →
      (∀ u ∈ st.visited, ∃ p,
        reconstructPath st.cameFrom u (st.cameFrom.length + 1) = some p ∧
        IsPath g s u p ∧ p.length = lvl u + 1 ∧ ∀ x ∈ p, x ∈ st.visited) →
      (∀ e ∈ nbrs, EdgeIn g v e.1 e.2) →
      ∀ st2, bfsEnqNbrs v d nbrs st = st2 →
      ∃ lvl2 : V → ℕ,
        (∀ u ∈ st.visited, lvl2 u = lvl u) ∧
        st.visited ⊆ st2.visited ∧
        st2.queue.length + st.visited.length =
          st.queue.length + st2.visited.length ∧
        st2.visited ⊆ g.vertices ∧
        st2.visited.Nodup ∧
        (st2.queue.map Prod.fst) ⊆ st2.visited ∧
        (st2.queue.map Prod.fst).Nodup ∧
        alKeys st2.cameFrom ⊆ st2.visited ∧
        st2.queue.Pairwise (fun x y => lvl2 x.1 ≤ lvl2 y.1) ∧
        (∀ y ∈ st2.queue, lvl2 y.1 ≤ lvl v + 1) ∧
        (∀ y ∈ st2.queue, lvl v ≤ lvl2 y.1) ∧
        (∀ u ∈ st2.visited, lvl2 u ≤ lvl v + 1) ∧
        (∀ u ∈ st2.visited, u ∉ st2.queue.map Prod.fst → u ≠ v →
          ∀ nb w, EdgeIn g u nb w → nb ∈ st2.visited ∧ lvl2 nb ≤ lvl2 u + 1) ∧
        (t ∈ st2.visited → t ∈ st2.queue.map Prod.fst) ∧
        (∀ u ∈ st2.visited, ∃ p,
          reconstructPath st2.cameFrom u (st2.cameFrom.length + 1) = some p ∧
          IsPath g s u p ∧ p.length = lvl2 u + 1 ∧ ∀ x ∈ p, x ∈ st2.visited) ∧
        (∀ e ∈ nbrs, e.1 ∈ st2.visited ∧ lvl2 e.1 ≤ lvl v + 1) := by
  intro nbrs
  induction nbrs with
  | nil =>
    intro st lvl hv hvsub hvnd hqsub hqnd hkeys hpw hE8a hE8b hE9 hE10 hE11
      hE12 _ st2 heq
    simp only [bfsEnqNbrs] at heq
    subst heq
    exact ⟨lvl, fun u _ => rfl, fun a ha => ha, by omega, hvsub, hvnd, hqsub,
      hqnd, hkeys, hpw, hE8a, hE8b, hE9, hE10, hE11, hE12,
      fun e he => absurd he (List.not_mem_nil e)⟩
  | cons e0 rest ih =>
    obtain ⟨nb, w⟩ := e0
    intro st lvl hv hvsub hvnd hqsub hqnd hkeys hpw hE8a hE8b hE9 hE10 hE11
      hE12 hE13 st2 heq
    simp only [bfsEnqNbrs] at heq
    split_ifs at heq with hmem
    · obtain ⟨lvl2, hagree, hsub, hcount, c3, c4, c5, c6, c7, c8, c9a, c9b,
        c10, c11, c12, c13, c14⟩ := ih st lvl hv hvsub hvnd hqsub hqnd hkeys
          hpw hE8a hE8b hE9 hE10 hE11 hE12
          (fun e he => hE13 e (List.mem_cons_of_mem _ he)) st2 heq
      refine ⟨lvl2, hagree, hsub, hcount, c3, c4, c5, c6, c7, c8, c9a, c9b,
        c10, c11, c12, c13, ?_⟩
      intro e he
      rcases List.mem_cons.mp he with h1 | h1
      · rw [h1]
        refine ⟨hsub hmem, ?_⟩
        rw [hagree nb hmem]
        exact hE9 nb hmem
      · exact c14 e h1
    · -- `nb` is fresh: enqueue it at level `lvl v + 1`
      have hedge : EdgeIn g v nb w := hE13 (nb, w) (List.mem_cons_self _ _)
      have hnbV : nb ∈ g.vertices := edgeIn_target_mem hwf hedge
      have hvne : v ≠ nb := fun he => hmem (he ▸ hv)
      have hqne : ∀ x ∈ st.queue, x.1 ≠ nb := fun x hx he =>
        hmem (hqsub (he ▸ List.mem_map_of_mem Prod.fst hx))
      have hnbq : nb ∉ st.queue.map Prod.fst := fun hc => hmem (hqsub hc)
      have hnbk : nb ∉ alKeys st.cameFrom := fun hc => hmem (hkeys hc)
      have hvisne : ∀ x ∈ st.visited, x ≠ nb := fun x hx he => hmem (he ▸ hx)
      have hlvl1 : ∀ x, x ≠ nb →
          Function.update lvl nb (lvl v + 1) x = lvl x := fun x hx =>
        Function.update_noteq hx _ _
      have hlvl1nb : Function.update lvl nb (lvl v + 1) nb = lvl v + 1 :=
        Function.update_same nb _ lvl
      have hlvl1v : Function.update lvl nb (lvl v + 1) v = lvl v :=
        Function.update_noteq hvne _ _
      have hlencf : (alSet st.cameFrom nb v).length = st.cameFrom.length + 1 :=
        alSet_length_not_mem v hnbk
      obtain ⟨lvl2, hagree, hsub, hcount, c3, c4, c5, c6, c7, c8, c9a, c9b,
        c10, c11, c12, c13, c14⟩ :=
        ih ⟨st.queue ++ [(nb, d + w)], st.visited ++ [nb],
            alSet st.cameFrom nb v⟩
          (Function.update lvl nb (lvl v + 1))
          (List.mem_append.mpr (Or.inl hv))
          (by
            intro a ha
            rcases List.mem_append.mp ha with h | h
            · exact hvsub h
            · rw [List.mem_singleton.mp h]
              exact hnbV)
          (by simp [List.nodup_append, hvnd, hmem])
          (by
            intro a ha
            rw [List.map_append] at ha
            rcases List.mem_append.mp ha with h | h
            · exact List.mem_append.mpr (Or.inl (hqsub h))
            · simp at h
              rw [h]
              exact List.mem_append.mpr (Or.inr (List.mem_singleton.mpr rfl)))
          (by
            rw [List.map_append]
            simp only [List.map_cons, List.map_nil]
            rw [List.nodup_append]
            refine ⟨hqnd, List.nodup_singleton nb, ?_⟩
            intro a ha hb
            rw [List.mem_singleton.mp hb] at ha
            exact hnbq ha)
          (by
            rw [alKeys_alSet_not_mem v hnbk]
            intro a ha
            rcases List.mem_append.mp ha with h | h
            · exact List.mem_append.mpr (Or.inl (hkeys h))
            · exact List.mem_append.mpr (Or.inr h))
          (by
            rw [List.pairwise_append]
            refine ⟨hpw.imp_of_mem ?_, List.pairwise_singleton _ _, ?_⟩
            · intro x y hx hy hr
              rw [hlvl1 x.1 (hqne x hx), hlvl1 y.1 (hqne y hy)]
              exact hr
            · intro a ha b hb
              have hb1 : b.1 = nb := by rw [List.mem_singleton.mp hb]
              rw [hlvl1 a.1 (hqne a ha), hb1, hlvl1nb]
              exact hE8a a ha)
          (by
            intro y hy
            rw [hlvl1v]
            rcases List.mem_append.mp hy with h | h
            · rw [hlvl1 y.1 (hqne y h)]
              exact hE8a y h
            · rw [List.mem_singleton.mp h]
              simp only [hlvl1nb]
              omega)
          (by
            intro y hy
            simp only [hlvl1v]
            rcases List.mem_append.mp hy with h | h
            · simp only [hlvl1 y.1 (hqne y h)]
              exact hE8b y h
            · rw [List.mem_singleton.mp h]
              simp only [hlvl1nb]
              omega)
          (by
            intro u hu
            simp only [hlvl1v]
            rcases List.mem_append.mp hu with h | h
            · simp only [hlvl1 u (hvisne u h)]
              exact hE9 u h
            · rw [List.mem_singleton.mp h]
              simp only [hlvl1nb]
              omega)
          (by
            intro u hu hunq hunv nb' w' he'
            have hun : u ≠ nb := by
              intro heq2
              apply hunq
              rw [List.map_append, heq2]
              simp
            have hu' : u ∈ st.visited := by
              rcases List.mem_append.mp hu with h | h
              · exact h
              · exact absurd (List.mem_singleton.mp h) hun
            have hunq' : u ∉ st.queue.map Prod.fst := by
              intro hc
              apply hunq
              rw [List.map_append]
              exact List.mem_append.mpr (Or.inl hc)
            obtain ⟨hin, hb⟩ := hE10 u hu' hunq' hunv nb' w' he'
            refine ⟨List.mem_append.mpr (Or.inl hin), ?_⟩
            rw [hlvl1 nb' (hvisne nb' hin), hlvl1 u hun]
            exact hb)
          (by
            intro ht
            rw [List.map_append]
            rcases List.mem_append.mp ht with h | h
            · exact List.mem_append.mpr (Or.inl (hE11 h))
            · rw [List.mem_singleton.mp h]
              simp)
          (by
            intro u hu
            rcases List.mem_append.mp hu with h | h
            · obtain ⟨p, hrec, hpath, hlen, hmemp⟩ := hE12 u h
              have hcong : ∀ x ∈ p,
                  alGet (alSet st.cameFrom nb v) x = alGet st.cameFrom x :=
                fun x hx => alGet_alSet_ne st.cameFrom v (hvisne x (hmemp x hx))
              have hrec1 := reconstructPath_congr (st.cameFrom.length + 1) u p
                hrec hcong
              have hrec2 := reconstructPath_mono (st.cameFrom.length + 1)
                ((alSet st.cameFrom nb v).length + 1) (by omega) u p hrec1
              refine ⟨p, hrec2, hpath, ?_, ?_⟩
              · rw [hlvl1 u (hvisne u h)]
                exact hlen
              · exact fun x hx => List.mem_append.mpr (Or.inl (hmemp x hx))
            · rw [List.mem_singleton.mp h]
              obtain ⟨pv, hrecv, hpathv, hlenv, hmemv⟩ := hE12 v hv
              have hcong : ∀ x ∈ pv,
                  alGet (alSet st.cameFrom nb v) x = alGet st.cameFrom x :=
                fun x hx => alGet_alSet_ne st.cameFrom v (hvisne x (hmemv x hx))
              have hrecv1 := reconstructPath_congr (st.cameFrom.length + 1) v
                pv hrecv hcong
              refine ⟨pv ++ [nb], ?_, isPath_snoc hpathv hedge, ?_, ?_⟩
              · rw [hlencf, reconstructPath]
                simp only [alGet_alSet_self]
                rw [hrecv1]
                simp
              · rw [hlvl1nb]
                simp [hlenv]
              · intro x hx
                rcases List.mem_append.mp hx with h2 | h2
                · exact List.mem_append.mpr (Or.inl (hmemv x h2))
                · exact List.mem_append.mpr (Or.inr h2))
          (fun e he => hE13 e (List.mem_cons_of_mem _ he)) st2 heq
      have hagree' : ∀ u ∈ st.visited, lvl2 u = lvl u := by
        intro u hu
        rw [hagree u (List.mem_append.mpr (Or.inl hu))]
        exact hlvl1 u (hvisne u hu)
      have hl2v : lvl2 nb = lvl v + 1 := by
        rw [hagree nb (List.mem_append.mpr
          (Or.inr (List.mem_singleton.mpr rfl)))]
        exact hlvl1nb
      refine ⟨lvl2, hagree', ?_, ?_, c3, c4, c5, c6, c7, c8, ?_, ?_, ?_, c11,
        c12, c13, ?_⟩
      · exact fun a ha => hsub (List.mem_append.mpr (Or.inl ha))
      · dsimp only at hcount
        simp only [List.length_append, List.length_cons, List.length_nil]
          at hcount
        omega
      · intro y hy
        have h := c9a y hy
        rwa [hlvl1v] at h
      · intro y hy
        have h := c9b y hy
        rwa [hlvl1v] at h
      · intro u hu
        have h := c10 u hu
        rwa [hlvl1v] at h
      · intro e he
        rcases List.mem_cons.mp he with h1 | h1
        · rw [h1]
          refine ⟨hsub (List.mem_append.mpr
            (Or.inr (List.mem_singleton.mpr rfl))), ?_⟩
          rw [hl2v]
        · have h := c14 e h1
          rwa [hlvl1v] at h
theorem bfs_reach_visited (g : Graph V) (vis : List V)
    (hclose : ∀ u ∈ vis, ∀ nb w, EdgeIn g u nb w → nb ∈ vis) :
    ∀ (u z : V) (l : List V), IsPath g u z l → u ∈ vis → z ∈ vis := by
  intro u z l hl
  induction hl with
  | single a => exact fun hu => hu
  | @cons a b c p w e hp ih2 =>
    intro ha
    exact ih2 (hclose a ha b w e)

theorem bfsLoop_min (g : Graph V) (s t : V) (hwf : g.WF) :
    ∀ (fuel : ℕ) (st : BfsState V) (lvl : V → ℕ),
      s ∈ st.visited → lvl s = 0 →
      st.visited ⊆ g.vertices → st.visited.Nodup →
      (st.queue.map Prod.fst) ⊆ st.visited →
      (st.queue.map Prod.fst).Nodup →
      alKeys st.cameFrom ⊆ st.visited →
      st.queue.Pairwise (fun x y => lvl x.1 ≤ lvl y.1) →
      (∀ x ∈ st.queue, ∀ y ∈ st.queue, lvl x.1 ≤ lvl y.1 + 1) →
      (∀ u ∈ st.visited, ∀ x ∈ st.queue, lvl u ≤ lvl x.1 + 1) →
      (∀ u ∈ st.visited, u ∉ st.queue.map Prod.fst →
        ∀ nb w, EdgeIn g u nb w → nb ∈ st.visited ∧ lvl nb ≤ lvl u + 1) →
      (t ∈ st.visited → t ∈ st.queue.map Prod.fst) →
      (∀ u ∈ st.visited, ∃ p,
        reconstructPath st.cameFrom u (st.cameFrom.length + 1) = some p ∧
        IsPath g s u p ∧ p.length = lvl u + 1 ∧ ∀ x ∈ p, x ∈ st.visited) →
      st.queue.length + g.vertices.length ≤ fuel + st.visited.length →
      (∃ q, IsPath g s t q) →
      ∃ p, bfsLoop g t fuel st = some p ∧ IsPath g s t p ∧
        ∀ l, IsPath g s t l → p.length ≤ l.length := by
  intro fuel
  induction fuel with
  | zero =>
    intro st lvl hsv hs0 hvsub hvnd hqsub hqnd hkeys hpw hwin hB6 hB7 hB8
      hB1 hfl hex
    obtain ⟨qq, hqq⟩ := hex
    exfalso
    have hvl : st.visited.length ≤ g.vertices.length :=
      (hvnd.subperm hvsub).length_le
    have hq0 : st.queue.length = 0 := by omega
    have hqnil : st.queue = [] := List.length_eq_zero.mp hq0
    have hclose : ∀ u ∈ st.visited, ∀ nb w, EdgeIn g u nb w →
        nb ∈ st.visited := by
      intro u hu nb w he
      exact (hB7 u hu (by rw [hqnil]; simp) nb w he).1
    have ht := hB8 (bfs_reach_visited g st.visited hclose s t qq hqq hsv)
    rw [hqnil] at ht
    simp at ht
  | succ fuel ih =>
    intro st lvl hsv hs0 hvsub hvnd hqsub hqnd hkeys hpw hwin hB6 hB7 hB8
      hB1 hfl hex
    obtain ⟨qlist, vis, cf⟩ := st
    dsimp only at hsv hvsub hvnd hqsub hqnd hkeys hpw hwin hB6 hB7 hB8 hB1 hfl
    cases qlist with
    | nil =>
      exfalso
      obtain ⟨qq, hqq⟩ := hex
      have hclose : ∀ u ∈ vis, ∀ nb w, EdgeIn g u nb w → nb ∈ vis := by
        intro u hu nb w he
        exact (hB7 u hu (by simp) nb w he).1
      have ht := hB8 (bfs_reach_visited g vis hclose s t qq hqq hsv)
      simp at ht
    | cons front rest =>
      obtain ⟨v, dd⟩ := front
      have hvvis : v ∈ vis := hqsub (by simp)
      by_cases hvt : v = t
      · obtain ⟨p, hrec, hpath, hlen, _⟩ := hB1 v hvvis
        refine ⟨p, ?_, ?_, ?_⟩
        · simp only [bfsLoop]
          rw [if_pos hvt]
          exact hrec
        · rwa [hvt] at hpath
        · intro l hl
          have hcross := bfs_crossing g s vis (((v, dd) :: rest).map Prod.fst)
            lvl hsv hs0 hB7 l.length t l (le_refl _) hl
          rw [hvt] at hlen
          rcases hcross with ⟨_, hbound⟩ | ⟨x, hx, hb⟩
          · omega
          · have hvx : lvl v ≤ lvl x := by
              simp only [List.map_cons] at hx
              rcases List.mem_cons.mp hx with h1 | h1
              · rw [h1]
              · obtain ⟨y, hy, hyx⟩ := List.mem_map.mp h1
                have h2 := List.rel_of_pairwise_cons hpw hy
                rw [← hyx]
                exact h2
            rw [← hvt] at hlen
            omega
      · obtain ⟨lvl2, hagree, hsub, hcount, c3, c4, c5, c6, c7, c8, c9a, c9b,
          c10, c11, c12, c13, c14⟩ :=
          bfsEnqNbrs_spec g s t v dd hwf (g.get_neighbors v)
            ⟨rest, vis, cf⟩ lvl
            hvvis hvsub hvnd
            (by
              intro a ha
              apply hqsub
              simp only [List.map_cons]
              exact List.mem_cons_of_mem _ ha)
            (by
              simp only [List.map_cons] at hqnd
              exact hqnd.tail)
            hkeys
            ((List.pairwise_cons.mp hpw).2)
            (by
              intro y hy
              exact hwin y (List.mem_cons_of_mem _ hy) (v, dd)
                (List.mem_cons_self _ _))
            (fun y hy => List.rel_of_pairwise_cons hpw hy)
            (fun u hu => hB6 u hu (v, dd) (List.mem_cons_self _ _))
            (by
              intro u hu hunq hunv nb w he
              apply hB7 u hu ?_ nb w he
              simp only [List.map_cons, List.mem_cons]
              intro hor
              rcases hor with h1 | h1
              · exact hunv h1
              · exact hunq h1)
            (by
              intro ht2
              have h := hB8 ht2
              simp only [List.map_cons, List.mem_cons] at h
              rcases h with h1 | h1
              · exact absurd h1.symm hvt
              · exact h1)
            hB1
            (fun e he => get_neighbors_edgeIn e he)
            (bfsEnqNbrs v dd (g.get_neighbors v) ⟨rest, vis, cf⟩) rfl
        have hrec := ih
          (bfsEnqNbrs v dd (g.get_neighbors v) ⟨rest, vis, cf⟩) lvl2
          (hsub hsv)
          (by rw [hagree s hsv, hs0])
          c3 c4 c5 c6 c7 c8
          (fun x hx y hy => by
            have h1 := c9a x hx
            have h2 := c9b y hy
            omega)
          (fun u hu x hx => by
            have h1 := c10 u hu
            have h2 := c9b x hx
            omega)
          (by
            intro u hu hunq nb w he
            by_cases huv : u = v
            · rw [huv] at he
              obtain ⟨hm, hb⟩ := c14 (nb, w) he
              refine ⟨hm, ?_⟩
              rw [huv, hagree v hvvis]
              exact hb
            · exact c11 u hu hunq huv nb w he)
          c12 c13
          (by
            dsimp only at hcount
            simp only [List.length_cons] at hfl
            omega)
          hex
        obtain ⟨p, heqp, hpathp, hminp⟩ := hrec
        refine ⟨p, ?_, hpathp, hminp⟩
        simp only [bfsLoop]
        rw [if_neg hvt]
        exact heqp
theorem alSet_length_mem {K β : Type} [DecidableEq K] {l : List (K × β)}
    {k : K} (v : β) (h : k ∈ alKeys l) : (alSet l k v).length = l.length := by
  have h2 := congrArg List.length (alKeys_alSet_mem v h)
  simpa [alKeys] using h2

theorem mem_alKeys_alSet {K β : Type} [DecidableEq K] (l : List (K × β))
    (k : K) (v : β) : k ∈ alKeys (alSet l k v) :=
  mem_alKeys.mpr ⟨v, mem_alSet_self l k v⟩

theorem alKeys_alSet_subset {K β : Type} [DecidableEq K] (l : List (K × β))
    (k : K) (v : β) : alKeys l ⊆ alKeys (alSet l k v) := by
  by_cases h : k ∈ alKeys l
  · rw [alKeys_alSet_mem v h]
    exact fun a ha => ha
  · rw [alKeys_alSet_not_mem v h]
    exact fun a ha => List.mem_append.mpr (Or.inl ha)

theorem findMin_none : ∀ l : List (ℚ × V), findMin l = none → l = [] := by
  intro l h
  cases l with
  | nil => rfl
  | cons x rest =>
    rw [findMin] at h
    cases hr : findMin rest with
    | none =>
      rw [hr] at h
      simp at h
    | some m =>
      simp only [hr] at h
      split_ifs at h <;> simp at h

theorem findMin_spec : ∀ (l : List (ℚ × V)) (m : ℚ × V), findMin l = some m →
    m ∈ l ∧ ∀ x ∈ l, m.1 ≤ x.1 := by
  intro l
  induction l with
  | nil =>
    intro m h
    simp [findMin] at h
  | cons x rest ih =>
    intro m h
    rw [findMin] at h
    cases hr : findMin rest with
    | none =>
      rw [hr] at h
      have hm : x = m := Option.some.inj h
      have hrest := findMin_none rest hr
      subst hrest
      refine ⟨by rw [hm]; exact List.mem_cons_self _ _, ?_⟩
      intro y hy
      rcases List.mem_cons.mp hy with h1 | h1
      · rw [← hm, h1]
      · exact absurd h1 (List.not_mem_nil y)
    | some m' =>
      simp only [hr] at h
      obtain ⟨hm'mem, hm'min⟩ := ih m' hr
      split_ifs at h with hlt
      · have hm : m' = m := Option.some.inj h
        subst hm
        refine ⟨List.mem_cons_of_mem _ hm'mem, ?_⟩
        intro y hy
        rcases List.mem_cons.mp hy with h1 | h1
        · rw [h1]
          exact le_of_lt hlt
        · exact hm'min y h1
      · have hm : x = m := Option.some.inj h
        subst hm
        refine ⟨List.mem_cons_self _ _, ?_⟩
        intro y hy
        rcases List.mem_cons.mp hy with h1 | h1
        · rw [h1]
        · exact le_trans (le_of_not_lt hlt) (hm'min y h1)

theorem edge_w_nonneg {g : Graph V} (hnn : NonnegW g) {u v : V} {w : ℚ}
    (h : EdgeIn g u v w) : 0 ≤ w := by
  obtain ⟨hu, row, hrow, hm⟩ := edgeIn_elim h
  exact hnn (u, row) (mem_of_alGet hrow) (v, w) hm

theorem weightOf_getD_nonneg {g : Graph V} (hnn : NonnegW g) (u v : V) :
    0 ≤ (weightOf g u v).getD 0 := by
  unfold weightOf
  cases hq : alGet (g.get_neighbors u) v with
  | none => simp
  | some w =>
    simp only [Option.getD_some]
    exact edge_w_nonneg hnn (mem_of_alGet hq)

theorem costOf_nonneg {g : Graph V} (hnn : NonnegW g) :
    ∀ l, 0 ≤ costOf g l := by
  intro l
  induction l with
  | nil => simp [costOf]
  | cons a tail ih =>
    cases tail with
    | nil => simp [costOf]
    | cons b rest =>
      show 0 ≤ (weightOf g a b).getD 0 + costOf g (b :: rest)
      have h1 := weightOf_getD_nonneg hnn a b
      have h2 : 0 ≤ costOf g (b :: rest) := ih
      linarith

theorem costOf_cons {g : Graph V} (hwf : g.WF) {a b c : V} {w : ℚ}
    {p : List V} (he : EdgeIn g a b w) (hp : IsPath g b c p) :
    costOf g (a :: p) = w + costOf g p := by
  cases p with
  | nil => exact absurd rfl (isPath_ne_nil hp)
  | cons x rest =>
    have hx : x = b := Option.some.inj (isPath_head hp)
    subst hx
    show (weightOf g a x).getD 0 + costOf g (x :: rest) =
      w + costOf g (x :: rest)
    rw [edgeIn_weightOf hwf he]
    rfl

theorem costOf_snoc {g : Graph V} (hwf : g.WF) {a y z : V} {w : ℚ}
    {q : List V} (hq : IsPath g a y q) (he : EdgeIn g y z w) :
    costOf g (q ++ [z]) = costOf g q + w := by
  revert he
  induction hq with
  | single v =>
    intro he
    show costOf g [v, z] = costOf g [v] + w
    show (weightOf g v z).getD 0 + costOf g [z] = costOf g [v] + w
    rw [edgeIn_weightOf hwf he]
    show w + 0 = 0 + w
    ring
  | @cons a2 b2 c2 p2 w2 e hp ih =>
    intro he
    show costOf g (a2 :: (p2 ++ [z])) = costOf g (a2 :: p2) + w
    rw [costOf_cons hwf e (isPath_snoc hp he), costOf_cons hwf e hp, ih he]
    ring

theorem consistent_edge {g : Graph V} {heur : V → V → ℚ} {t : V}
    (hc : ConsistentH g heur t) {u v : V} {w : ℚ} (h : EdgeIn g u v w) :
    heur u t ≤ w + heur v t := by
  obtain ⟨hu, row, hrow, hm⟩ := edgeIn_elim h
  exact hc (u, row) (mem_of_alGet hrow) (v, w) hm

theorem chain_length {cf : List (V × V)} {p : List V} (hnd : p.Nodup)
    (hsub : ∀ x ∈ p.tail, x ∈ alKeys cf) : p.length ≤ cf.length + 1 := by
  cases p with
  | nil => simp
  | cons h tl =>
    have htl : tl.Nodup := hnd.of_cons
    have hle : tl.length ≤ (alKeys cf).length :=
      (htl.subperm (fun x hx => hsub x hx)).length_le
    have hkl : (alKeys cf).length = cf.length := by simp [alKeys]
    simp only [List.length_cons]
    omega
theorem astar_reach_bound (g : Graph V) (s t : V) (heur : V → V → ℚ)
    (hwf : g.WF) (hcons : ConsistentH g heur t)
    (openL : List (ℚ × V)) (closed : List V) (gs : List (V × ℚ))
    (hgstart : alGet gs s = some 0)
    (hdisc : ∀ v gv, alGet gs v = some gv → v ∉ closed →
      ∃ f, (f, v) ∈ openL ∧ f ≤ gv + heur v t)
    (hrelax : ∀ u ∈ closed, ∀ nb w, EdgeIn g u nb w →
      ∃ gu gn, alGet gs u = some gu ∧ alGet gs nb = some gn ∧ gn ≤ gu + w) :
    ∀ (n : ℕ) (z : V) (q : List V), q.length ≤ n → IsPath g s z q →
      (z ∈ closed ∧ ∃ gz, alGet gs z = some gz ∧ gz ≤ costOf g q) ∨
      (∃ f y, (f, y) ∈ openL ∧ f ≤ costOf g q + heur z t) := by
  intro n
  induction n with
  | zero =>
    intro z q hlen hp
    exact absurd (List.length_eq_zero.mp (by omega)) (isPath_ne_nil hp)
  | succ n ih =>
    intro z q hlen hp
    rcases isPath_snoc_inv hp with ⟨hl, hz⟩ | ⟨q', y', w, hl, hpath, hedge⟩
    · have hc0 : costOf g q = 0 := by
        rw [hl]
        rfl
      by_cases hs : s ∈ closed
      · left
        rw [hz]
        exact ⟨hs, 0, hgstart, by simp [hc0]⟩
      · obtain ⟨f, hf, hb⟩ := hdisc s 0 hgstart hs
        right
        refine ⟨f, s, hf, ?_⟩
        rw [hz, hc0]
        exact hb
    · have hlen' : q'.length ≤ n := by
        rw [hl] at hlen
        simp at hlen
        omega
      have hcost : costOf g q = costOf g q' + w := by
        rw [hl]
        exact costOf_snoc hwf hpath hedge
      rcases ih y' q' hlen' hpath with ⟨hyc, gy, hgy, hb⟩ | ⟨f, y, hm, hb⟩
      · obtain ⟨gu, gn, hgu, hgn, hrel⟩ := hrelax y' hyc z w hedge
        have hgueq : gu = gy := by
          rw [hgy] at hgu
          exact (Option.some.inj hgu).symm
        by_cases hzc : z ∈ closed
        · left
          refine ⟨hzc, gn, hgn, ?_⟩
          rw [hcost]
          linarith
        · obtain ⟨f, hf, hfb⟩ := hdisc z gn hgn hzc
          right
          refine ⟨f, z, hf, ?_⟩
          rw [hcost]
          linarith
      · right
        refine ⟨f, y, hm, ?_⟩
        have hce := consistent_edge hcons hedge
        rw [hcost]
        linarith

theorem astar_pop_bound (g : Graph V) (s t : V) (heur : V → V → ℚ)
    (hwf : g.WF) (hcons : ConsistentH g heur t)
    (openL : List (ℚ × V)) (closed : List V) (gs : List (V × ℚ))
    (hgstart : alGet gs s = some 0)
    (hdisc : ∀ v gv, alGet gs v = some gv → v ∉ closed →
      ∃ f, (f, v) ∈ openL ∧ f ≤ gv + heur v t)
    (hrelax : ∀ u ∈ closed, ∀ nb w, EdgeIn g u nb w →
      ∃ gu gn, alGet gs u = some gu ∧ alGet gs nb = some gn ∧ gn ≤ gu + w)
    (hopenDom : ∀ e ∈ openL, ∃ ge, alGet gs e.2 = some ge ∧
      ge + heur e.2 t ≤ e.1)
    (fc : ℚ × V) (hfm : findMin openL = some fc)
    (gc : ℚ) (hgc : alGet gs fc.2 = some gc) :
    ∀ q, IsPath g s fc.2 q → gc ≤ costOf g q := by
  intro q hq
  rcases astar_reach_bound g s t heur hwf hcons openL closed gs hgstart hdisc
    hrelax q.length fc.2 q (le_refl _) hq with
    ⟨_, gz, hgz, hb⟩ | ⟨f, y, hm, hb⟩
  · have he : gz = gc := by
      rw [hgc] at hgz
      exact (Option.some.inj hgz).symm
    rw [he] at hb
    exact hb
  · obtain ⟨hmem, hmin⟩ := findMin_spec openL fc hfm
    have h1 := hmin (f, y) hm
    obtain ⟨ge, hge, hgeb⟩ := hopenDom fc hmem
    have he : ge = gc := by
      rw [hgc] at hge
      exact (Option.some.inj hge).symm
    rw [he] at hgeb
    linarith
theorem gScore_keys_of_ne {K β : Type} [DecidableEq K] {l : List (K × β)}
    {k v' : K} {x : β} (h : v' ∈ alKeys (alSet l k x)) (hne : v' ≠ k) :
    v' ∈ alKeys l := by
  by_cases hk : k ∈ alKeys l
  · rw [alKeys_alSet_mem x hk] at h
    exact h
  · rw [alKeys_alSet_not_mem x hk] at h
    rcases List.mem_append.mp h with h1 | h1
    · exact h1
    · exact absurd (List.mem_singleton.mp h1) hne

theorem relax_update_step (g : Graph V) (s t : V) (heur : V → V → ℚ)
    (cur : V) (hwf : g.WF) (hnn : NonnegW g)
    (rest : List (V × ℚ)) (st : AStarState V) (nb : V) (w : ℚ) (gcur : ℚ)
    (hc : cur ∈ st.closed)
    (hrest : ∀ e ∈ rest, EdgeIn g cur e.1 e.2)
    (hedge : EdgeIn g cur nb w)
    (hgcur : alGet st.gScore cur = some gcur)
    (hnbold : ∀ gn, alGet st.gScore nb = some gn → gcur + w < gn)
    (hcl : nb ∉ st.closed)
    (hchains : ∀ v gv, alGet st.gScore v = some gv → ∃ p,
      reconstructPath st.cameFrom v p.length = some p ∧ IsPath g s v p ∧
      costOf g p ≤ gv ∧ p.Nodup ∧ (∀ x ∈ p, x = v ∨ x ∈ st.closed) ∧
      (∀ x ∈ p.tail, x ∈ alKeys st.cameFrom))
    (hgnn : ∀ v gv, alGet st.gScore v = some gv → 0 ≤ gv)
    (hgs : alGet st.gScore s = some 0)
    (ht : t ∉ st.closed)
    (hod : ∀ e ∈ st.openL, ∃ ge, alGet st.gScore e.2 = some ge ∧
      ge + heur e.2 t ≤ e.1)
    (hdo : ∀ v gv, alGet st.gScore v = some gv → v ∉ st.closed →
      ∃ f, (f, v) ∈ st.openL ∧ f ≤ gv + heur v t)
    (hpend : ∀ u ∈ st.closed, ∀ nb' w', EdgeIn g u nb' w' →
      (u = cur ∧ (nb', w') ∈ (nb, w) :: rest) ∨
      ∃ gu gn, alGet st.gScore u = some gu ∧ alGet st.gScore nb' = some gn ∧
        gn ≤ gu + w')
    (hkg : ∀ v ∈ alKeys st.gScore, v = s ∨ v ∈ alKeys st.cameFrom)
    (hcf : ∀ y u, alGet st.cameFrom y = some u → u ∈ st.closed)
    (hcg : ∀ u ∈ st.closed, ∃ gu, alGet st.gScore u = some gu)
    (hco : ∀ u ∈ st.closed, ∀ q, IsPath g s u q →
      ∃ gu, alGet st.gScore u = some gu ∧ gu ≤ costOf g q)
    (ih : ∀ st2 : AStarState V, cur ∈ st2.closed →
      (∀ e ∈ rest, EdgeIn g cur e.1 e.2) →
      (∀ v gv, alGet st2.gScore v = some gv → ∃ p,
        reconstructPath st2.cameFrom v p.length = some p ∧ IsPath g s v p ∧
        costOf g p ≤ gv ∧ p.Nodup ∧ (∀ x ∈ p, x = v ∨ x ∈ st2.closed) ∧
        (∀ x ∈ p.tail, x ∈ alKeys st2.cameFrom)) →
      (∀ v gv, alGet st2.gScore v = some gv → 0 ≤ gv) →
      alGet st2.gScore s = some 0 →
      t ∉ st2.closed →
      (∀ e ∈ st2.openL, ∃ ge, alGet st2.gScore e.2 = some ge ∧
        ge + heur e.2 t ≤ e.1) →
      (∀ v gv, alGet st2.gScore v = some gv → v ∉ st2.closed →
        ∃ f, (f, v) ∈ st2.openL ∧ f ≤ gv + heur v t) →
      (∀ u ∈ st2.closed, ∀ nb' w', EdgeIn g u nb' w' →
        (u = cur ∧ (nb', w') ∈ rest) ∨
        ∃ gu gn, alGet st2.gScore u = some gu ∧
          alGet st2.gScore nb' = some gn ∧ gn ≤ gu + w') →
      (∀ v ∈ alKeys st2.gScore, v = s ∨ v ∈ alKeys st2.cameFrom) →
      (∀ y u, alGet st2.cameFrom y = some u → u ∈ st2.closed) →
      (∀ u ∈ st2.closed, ∃ gu, alGet st2.gScore u = some gu) →
      (∀ u ∈ st2.closed, ∀ q, IsPath g s u q →
        ∃ gu, alGet st2.gScore u = some gu ∧ gu ≤ costOf g q) →
      AInv g s t heur (relaxNbrs g t heur cur rest st2)) :
    AInv g s t heur (relaxNbrs g t heur cur rest
      { st with
        cameFrom := alSet st.cameFrom nb cur,
        gScore := alSet st.gScore nb ((alGet st.gScore cur).getD 0 + w),
        fScore := alSet st.fScore nb
          ((alGet st.gScore cur).getD 0 + w + heur nb t),
        openL := st.openL ++
          [((alGet st.gScore cur).getD 0 + w + heur nb t, nb)] }) := by
  simp only [hgcur, Option.getD_some]
  have hcurnb : cur ≠ nb := fun he2 => hcl (he2 ▸ hc)
  have hclnb : ∀ x, x ∈ st.closed → x ≠ nb := fun x hx he2 => hcl (he2 ▸ hx)
  have hwnn : 0 ≤ w := edge_w_nonneg hnn hedge
  have hgcnn : 0 ≤ gcur := hgnn cur gcur hgcur
  have hnbs : nb ≠ s := by
    intro he
    have := hnbold 0 (by rw [he]; exact hgs)
    linarith
  obtain ⟨pc, hrecc, hpathc, hcostc, hndc, hmemc, htailc⟩ :=
    hchains cur gcur hgcur
  have hpcnb : ∀ x ∈ pc, x ≠ nb := by
    intro x hx
    rcases hmemc x hx with h1 | h1
    · rw [h1]
      exact hcurnb
    · exact hclnb x h1
  have hcfcong : ∀ x, x ≠ nb →
      alGet (alSet st.cameFrom nb cur) x = alGet st.cameFrom x :=
    fun x hx => alGet_alSet_ne st.cameFrom cur hx
  have hgscong : ∀ x, x ≠ nb →
      alGet (alSet st.gScore nb (gcur + w)) x = alGet st.gScore x :=
    fun x hx => alGet_alSet_ne st.gScore (gcur + w) hx
  apply ih
  · exact hc
  · exact hrest
  · -- chains
    intro v gv hgv
    by_cases hvnb : v = nb
    · subst hvnb
      have hgveq : gv = gcur + w := by
        have h2 : alGet (alSet st.gScore v (gcur + w)) v = some (gcur + w) :=
          alGet_alSet_self st.gScore v (gcur + w)
        rw [h2] at hgv
        exact (Option.some.inj hgv).symm
      refine ⟨pc ++ [v], ?_, isPath_snoc hpathc hedge, ?_, ?_, ?_, ?_⟩
      · have hreccong : reconstructPath (alSet st.cameFrom v cur) cur
            pc.length = some pc :=
          reconstructPath_congr pc.length cur pc hrecc
            (fun x hx => hcfcong x (hpcnb x hx))
        have hlen2 : (pc ++ [v]).length = pc.length + 1 := by simp
        rw [hlen2, reconstructPath]
        simp only [alGet_alSet_self]
        rw [hreccong]
        simp
      · rw [hgveq, costOf_snoc hwf hpathc hedge]
        linarith
      · rw [List.nodup_append]
        refine ⟨hndc, List.nodup_singleton _, ?_⟩
        intro x hx hxv
        exact hpcnb x hx (List.mem_singleton.mp hxv)
      · intro x hx
        rcases List.mem_append.mp hx with h1 | h1
        · rcases hmemc x h1 with h2 | h2
          · right
            rw [h2]
            exact hc
          · right
            exact h2
        · left
          exact List.mem_singleton.mp h1
      · intro x hx
        cases pc with
        | nil => exact absurd rfl (isPath_ne_nil hpathc)
        | cons pch pct =>
          have hx2 : x ∈ pct ++ [v] := hx
          rcases List.mem_append.mp hx2 with h1 | h1
          · exact alKeys_alSet_subset st.cameFrom v cur
              (htailc x h1)
          · rw [List.mem_singleton.mp h1]
            exact mem_alKeys_alSet st.cameFrom v cur
    · rw [hgscong v hvnb] at hgv
      obtain ⟨p, hrec, hpath, hcost, hnd, hmem, htail⟩ := hchains v gv hgv
      have hpnb : ∀ x ∈ p, x ≠ nb := by
        intro x hx
        rcases hmem x hx with h1 | h1
        · rw [h1]
          exact hvnb
        · exact hclnb x h1
      refine ⟨p, reconstructPath_congr p.length v p hrec
        (fun x hx => hcfcong x (hpnb x hx)), hpath, hcost, hnd, ?_, ?_⟩
      · intro x hx
        rcases hmem x hx with h1 | h1
        · exact Or.inl h1
        · exact Or.inr h1
      · intro x hx
        exact alKeys_alSet_subset st.cameFrom nb cur (htail x hx)
  · -- g-scores stay non-negative
    intro v gv hgv
    by_cases hvnb : v = nb
    · subst hvnb
      have h2 : alGet (alSet st.gScore v (gcur + w)) v = some (gcur + w) :=
        alGet_alSet_self st.gScore v (gcur + w)
      rw [h2] at hgv
      have := (Option.some.inj hgv).symm
      rw [this]
      linarith
    · rw [hgscong v hvnb] at hgv
      exact hgnn v gv hgv
  · rw [hgscong s (fun he => hnbs he.symm)]
    exact hgs
  · exact ht
  · -- open entries dominate g + h
    intro e he
    rcases List.mem_append.mp he with h1 | h1
    · obtain ⟨ge, hge, hgeb⟩ := hod e h1
      by_cases henb : e.2 = nb
      · have hlt := hnbold ge (by rw [← henb]; exact hge)
        refine ⟨gcur + w, by rw [henb]; exact alGet_alSet_self _ _ _, ?_⟩
        rw [henb]
        have : heur e.2 t = heur nb t := by rw [henb]
        linarith [hgeb, hlt]
      · exact ⟨ge, by rw [hgscong e.2 henb]; exact hge, hgeb⟩
    · have he2 : e = (gcur + w + heur nb t, nb) := List.mem_singleton.mp h1
      rw [he2]
      exact ⟨gcur + w, alGet_alSet_self _ _ _, le_refl _⟩
  · -- every discovered unclosed vertex keeps an open entry
    intro v gv hgv hvcl
    by_cases hvnb : v = nb
    · subst hvnb
      refine ⟨gcur + w + heur v t, List.mem_append.mpr (Or.inr
        (List.mem_singleton.mpr rfl)), ?_⟩
      have h2 : alGet (alSet st.gScore v (gcur + w)) v = some (gcur + w) :=
        alGet_alSet_self st.gScore v (gcur + w)
      rw [h2] at hgv
      rw [(Option.some.inj hgv).symm]
    · rw [hgscong v hvnb] at hgv
      obtain ⟨f, hf, hfb⟩ := hdo v gv hgv hvcl
      exact ⟨f, List.mem_append.mpr (Or.inl hf), hfb⟩
  · -- pending relaxation obligations
    intro u hu nb' w' he'
    have hunb : u ≠ nb := hclnb u hu
    rcases hpend u hu nb' w' he' with ⟨hucur, hmem⟩ | ⟨gu, gn, hgu, hgn, hb⟩
    · rcases List.mem_cons.mp hmem with h1 | h1
      · right
        have hnb' : nb' = nb := congrArg Prod.fst h1
        have hw' : w' = w := congrArg Prod.snd h1
        refine ⟨gcur, gcur + w, ?_, ?_, ?_⟩
        · rw [hucur, hgscong cur hcurnb]
          exact hgcur
        · rw [hnb']
          exact alGet_alSet_self _ _ _
        · rw [hw']
      · exact Or.inl ⟨hucur, h1⟩
    · right
      by_cases hnb' : nb' = nb
      · have hlt := hnbold gn (by rw [← hnb']; exact hgn)
        refine ⟨gu, gcur + w, ?_, ?_, ?_⟩
        · rw [hgscong u hunb]
          exact hgu
        · rw [hnb']
          exact alGet_alSet_self _ _ _
        · linarith
      · exact ⟨gu, gn, by rw [hgscong u hunb]; exact hgu,
          by rw [hgscong nb' hnb']; exact hgn, hb⟩
  · -- every g-score key except the start has a parent pointer
    intro v hv
    by_cases hvnb : v = nb
    · right
      rw [hvnb]
      exact mem_alKeys_alSet st.cameFrom nb cur
    · have hv2 := gScore_keys_of_ne hv hvnb
      rcases hkg v hv2 with h1 | h1
      · exact Or.inl h1
      · exact Or.inr (alKeys_alSet_subset st.cameFrom nb cur h1)
  · -- parent pointers land in the closed set
    intro y u hy
    by_cases hynb : y = nb
    · rw [hynb, alGet_alSet_self] at hy
      rw [(Option.some.inj hy).symm]
      exact hc
    · rw [hcfcong y hynb] at hy
      exact hcf y u hy
  · -- closed vertices keep their g-scores
    intro u hu
    obtain ⟨gu, hgu⟩ := hcg u hu
    exact ⟨gu, by rw [hgscong u (hclnb u hu)]; exact hgu⟩
  · -- closed vertices keep their optimal lower bounds
    intro u hu q hq
    obtain ⟨gu, hgu, hb⟩ := hco u hu q hq
    exact ⟨gu, by rw [hgscong u (hclnb u hu)]; exact hgu, hb⟩
theorem relaxNbrs_spec (g : Graph V) (s t : V) (heur : V → V → ℚ) (cur : V)
    (hwf : g.WF) (hnn : NonnegW g) :
    ∀ (nbrs : List (V × ℚ)) (st : AStarState V),
      cur ∈ st.closed →
      (∀ e ∈ nbrs, EdgeIn g cur e.1 e.2) →
      (∀ v gv, alGet st.gScore v = some gv → ∃ p,
        reconstructPath st.cameFrom v p.length = some p ∧ IsPath g s v p ∧
        costOf g p ≤ gv ∧ p.Nodup ∧ (∀ x ∈ p, x = v ∨ x ∈ st.closed) ∧
        (∀ x ∈ p.tail, x ∈ alKeys st.cameFrom)) →
      (∀ v gv, alGet st.gScore v = some gv → 0 ≤ gv) →
      alGet st.gScore s = some 0 →
      t ∉ st.closed →
      (∀ e ∈ st.openL, ∃ ge, alGet st.gScore e.2 = some ge ∧
        ge + heur e.2 t ≤ e.1) →
      (∀ v gv, alGet st.gScore v = some gv → v ∉ st.closed →
        ∃ f, (f, v) ∈ st.openL ∧ f ≤ gv + heur v t) →
      (∀ u ∈ st.closed, ∀ nb w, EdgeIn g u nb w →
        (u = cur ∧ (nb, w) ∈ nbrs) ∨
        ∃ gu gn, alGet st.gScore u = some gu ∧ alGet st.gScore nb = some gn ∧
          gn ≤ gu + w) →
      (∀ v ∈ alKeys st.gScore, v = s ∨ v ∈ alKeys st.cameFrom) →
      (∀ y u, alGet st.cameFrom y = some u → u ∈ st.closed) →
      (∀ u ∈ st.closed, ∃ gu, alGet st.gScore u = some gu) →
      (∀ u ∈ st.closed, ∀ q, IsPath g s u q →
        ∃ gu, alGet st.gScore u = some gu ∧ gu ≤ costOf g q) →
      AInv g s t heur (relaxNbrs g t heur cur nbrs st) := by
  intro nbrs
  induction nbrs with
  | nil =>
    intro st hc _ hchains hgnn hgs ht hod hdo hpend hkg hcf hcg hco
    refine ⟨hchains, hgnn, hgs, ht, hod, hdo, ?_, hkg, hcf, hcg, hco⟩
    intro u hu nb w he
    rcases hpend u hu nb w he with ⟨_, hmem⟩ | hdone
    · exact absurd hmem (List.not_mem_nil _)
    · exact hdone
  | cons e0 rest ih =>
    obtain ⟨nb, w⟩ := e0
    intro st hc hnbrs hchains hgnn hgs ht hod hdo hpend hkg hcf hcg hco
    have hedge : EdgeIn g cur nb w := hnbrs (nb, w) (List.mem_cons_self _ _)
    obtain ⟨gcur, hgcur⟩ := hcg cur hc
    simp only [relaxNbrs]
    by_cases hcl : nb ∈ st.closed
    · rw [if_pos hcl]
      obtain ⟨pc, hrecc, hpathc, hcostc, hx1, hx2, hx3⟩ :=
        hchains cur gcur hgcur
      obtain ⟨gn, hgn, hgnb⟩ := hco nb hcl (pc ++ [nb])
        (isPath_snoc hpathc hedge)
      have hbw : gn ≤ gcur + w := by
        rw [costOf_snoc hwf hpathc hedge] at hgnb
        linarith
      apply ih st hc (fun e he => hnbrs e (List.mem_cons_of_mem _ he))
        hchains hgnn hgs ht hod hdo ?_ hkg hcf hcg hco
      intro u hu nb' w' he'
      rcases hpend u hu nb' w' he' with ⟨hucur, hmem⟩ | hdone
      · rcases List.mem_cons.mp hmem with h1 | h1
        · right
          have hnb' : nb' = nb := congrArg Prod.fst h1
          have hw' : w' = w := congrArg Prod.snd h1
          rw [hucur, hnb', hw']
          exact ⟨gcur, gn, hgcur, hgn, hbw⟩
        · exact Or.inl ⟨hucur, h1⟩
      · exact Or.inr hdone
    · rw [if_neg hcl]
      cases halget : alGet st.gScore nb with
      | some gn =>
        simp only [halget]
        by_cases hlt : (alGet st.gScore cur).getD 0 + w < gn
        · rw [if_pos (decide_eq_true hlt)]
          apply relax_update_step g s t heur cur hwf hnn rest st nb w gcur
            hc (fun e he => hnbrs e (List.mem_cons_of_mem _ he)) hedge hgcur
            ?_ hcl hchains hgnn hgs ht hod hdo hpend hkg hcf hcg hco ih
          intro gn2 hgn2
          rw [halget] at hgn2
          have he2 : gn = gn2 := Option.some.inj hgn2
          rw [hgcur] at hlt
          simp only [Option.getD_some] at hlt
          rw [← he2]
          exact hlt
        · rw [if_neg (by simp [hlt])]
          have hbw : gn ≤ gcur + w := by
            rw [hgcur] at hlt
            simp only [Option.getD_some] at hlt
            linarith [le_of_not_lt hlt]
          apply ih st hc (fun e he => hnbrs e (List.mem_cons_of_mem _ he))
            hchains hgnn hgs ht hod hdo ?_ hkg hcf hcg hco
          intro u hu nb' w' he'
          rcases hpend u hu nb' w' he' with ⟨hucur, hmem⟩ | hdone
          · rcases List.mem_cons.mp hmem with h1 | h1
            · right
              have hnb' : nb' = nb := congrArg Prod.fst h1
              have hw' : w' = w := congrArg Prod.snd h1
              rw [hucur, hnb', hw']
              exact ⟨gcur, gn, hgcur, halget, hbw⟩
            · exact Or.inl ⟨hucur, h1⟩
          · exact Or.inr hdone
      | none =>
        simp only [halget]
        apply relax_update_step g s t heur cur hwf hnn rest st nb w gcur
          hc (fun e he => hnbrs e (List.mem_cons_of_mem _ he)) hedge hgcur
          ?_ hcl hchains hgnn hgs ht hod hdo hpend hkg hcf hcg hco ih
        intro gn2 hgn2
        rw [halget] at hgn2
        exact absurd hgn2 (by simp)

theorem astarLoop_opt (g : Graph V) (s t : V) (heur : V → V → ℚ)
    (hwf : g.WF) (hnn : NonnegW g) (hcons : ConsistentH g heur t) :
    ∀ (fuel : ℕ) (st : AStarState V), AInv g s t heur st →
      ∀ p, astarLoop g t heur fuel st = some p →
        IsPath g s t p ∧ ∀ q, IsPath g s t q → costOf g p ≤ costOf g q := by
  intro fuel
  induction fuel with
  | zero =>
    intro st _ p hp
    simp [astarLoop] at hp
  | succ fuel ih =>
    intro st hinv p hp
    obtain ⟨hchains, hgnn, hgs, ht, hod, hdo, hrelax, hkg, hcf, hcg, hco⟩ :=
      hinv
    simp only [astarLoop] at hp
    cases hfm : findMin st.openL with
    | none =>
      rw [hfm] at hp
      exact Option.noConfusion hp
    | some fc =>
      simp only [hfm] at hp
      obtain ⟨hfcmem, hfcmin⟩ := findMin_spec st.openL fc hfm
      obtain ⟨gc, hgc, hgcb⟩ := hod fc hfcmem
      have hpop := astar_pop_bound g s t heur hwf hcons st.openL st.closed
        st.gScore hgs hdo hrelax hod fc hfm gc hgc
      by_cases hft : fc.2 = t
      · rw [if_pos hft] at hp
        obtain ⟨pt, hrect, hpatht, hcostt, hndt, _, htailt⟩ :=
          hchains fc.2 gc hgc
        have hlen := chain_length hndt htailt
        have hrect2 := reconstructPath_mono pt.length
          (st.cameFrom.length + 1) hlen fc.2 pt hrect
        rw [hrect2] at hp
        have hpe : pt = p := Option.some.inj hp
        subst hpe
        constructor
        · rw [← hft]
          exact hpatht
        · intro q hq
          have hq2 : IsPath g s fc.2 q := by
            rw [hft]
            exact hq
          have hb := hpop q hq2
          linarith
      · rw [if_neg hft] at hp
        have hsubc : st.closed ⊆
            (if fc.2 ∈ st.closed then st.closed else st.closed ++ [fc.2]) := by
          split_ifs with h2
          · exact fun a ha => ha
          · exact fun a ha => List.mem_append.mpr (Or.inl ha)
        have hcurin : fc.2 ∈
            (if fc.2 ∈ st.closed then st.closed else st.closed ++ [fc.2]) := by
          split_ifs with h2
          · exact h2
          · exact List.mem_append.mpr (Or.inr (List.mem_singleton.mpr rfl))
        have hnotc : ∀ v, v ∉
            (if fc.2 ∈ st.closed then st.closed else st.closed ++ [fc.2]) →
            v ∉ st.closed ∧ v ≠ fc.2 := by
          intro v hv
          split_ifs at hv with h2
          · exact ⟨hv, fun he => hv (he ▸ h2)⟩
          · constructor
            · exact fun hc2 => hv (List.mem_append.mpr (Or.inl hc2))
            · exact fun he => hv (List.mem_append.mpr
                (Or.inr (List.mem_singleton.mpr he)))
        have hmemc : ∀ u, u ∈
            (if fc.2 ∈ st.closed then st.closed else st.closed ++ [fc.2]) →
            u ∈ st.closed ∨ u = fc.2 := by
          intro u hu
          split_ifs at hu with h2
          · exact Or.inl hu
          · rcases List.mem_append.mp hu with h3 | h3
            · exact Or.inl h3
            · exact Or.inr (List.mem_singleton.mp h3)
        apply ih _ ?_ p hp
        apply relaxNbrs_spec g s t heur fc.2 hwf hnn (g.get_neighbors fc.2) _
          hcurin (fun e he => get_neighbors_edgeIn e he)
        · -- chains survive: the closed set only grows
          intro v gv hgv
          obtain ⟨p2, hrec2, hpath2, hcost2, hnd2, hmem2, htail2⟩ :=
            hchains v gv hgv
          refine ⟨p2, hrec2, hpath2, hcost2, hnd2, ?_, htail2⟩
          intro x hx
          rcases hmem2 x hx with h1 | h1
          · exact Or.inl h1
          · exact Or.inr (hsubc h1)
        · exact hgnn
        · exact hgs
        · intro hc2
          rcases hmemc t hc2 with h1 | h1
          · exact ht h1
          · exact hft h1.symm
        · intro e he
          exact hod e (List.erase_subset _ _ he)
        · intro v gv hgv hvcl
          obtain ⟨hv1, hv2⟩ := hnotc v hvcl
          obtain ⟨f, hfmem, hfb⟩ := hdo v gv hgv hv1
          refine ⟨f, ?_, hfb⟩
          refine (List.mem_erase_of_ne ?_).mpr hfmem
          intro he
          exact hv2 (congrArg Prod.snd he)
        · intro u hu nb w he
          rcases hmemc u hu with h1 | h1
          · exact Or.inr (hrelax u h1 nb w he)
          · left
            refine ⟨h1, ?_⟩
            rw [h1] at he
            exact he
        · exact hkg
        · intro y u hy
          exact hsubc (hcf y u hy)
        · intro u hu
          rcases hmemc u hu with h1 | h1
          · exact hcg u h1
          · rw [h1]
            exact ⟨gc, hgc⟩
        · intro u hu q hq
          rcases hmemc u hu with h1 | h1
          · exact hco u h1 q hq
          · rw [h1] at hq ⊢
            exact ⟨gc, hgc, hpop q hq⟩
theorem no_edge_of_nil {g : Graph V} {u : V}
    (hn : g.get_neighbors u = []) : ∀ v w, ¬ EdgeIn g u v w := by
  intro v w he
  unfold EdgeIn at he
  rw [hn] at he
  exact List.not_mem_nil _ he

theorem isPath_cons_inv {g : Graph V} {a c : V} {p : List V}
    (h : IsPath g a c p) :
    (a = c ∧ p = [a]) ∨
    ∃ b w p2, p = a :: p2 ∧ EdgeIn g a b w ∧ IsPath g b c p2 := by
  cases h with
  | single => exact Or.inl ⟨rfl, rfl⟩
  | cons e h2 => exact Or.inr ⟨_, _, _, rfl, e, h2⟩

theorem gCex_G_cost : ∀ p, IsPath gCex "G" "G" p → costOf gCex p = 0 := by
  intro p hp
  rcases isPath_cons_inv hp with ⟨_, hpe⟩ | ⟨b, w, p2, hpe, e, hp2⟩
  · rw [hpe]
    rfl
  · exact absurd e (no_edge_of_nil (by decide) _ _)

theorem gCex_A_cost : ∀ p, IsPath gCex "A" "G" p → costOf gCex p = 2 := by
  intro p hp
  rcases isPath_cons_inv hp with ⟨hac, _⟩ | ⟨b, w, p2, hpe, e, hp2⟩
  · exact absurd hac (by decide)
  · subst hpe
    have e2 := e
    unfold EdgeIn at e2
    rw [(by decide : gCex.get_neighbors "A" = [("G", 2)])] at e2
    have e3 := List.mem_singleton.mp e2
    have hb : b = "G" := congrArg Prod.fst e3
    have hw : w = 2 := congrArg Prod.snd e3
    subst hb
    subst hw
    rw [costOf_cons (by decide) e hp2, gCex_G_cost p2 hp2]
    norm_num

theorem gCex_X_cost : ∀ p, IsPath gCex "X" "G" p → costOf gCex p = 3 := by
  intro p hp
  rcases isPath_cons_inv hp with ⟨hac, _⟩ | ⟨b, w, p2, hpe, e, hp2⟩
  · exact absurd hac (by decide)
  · subst hpe
    have e2 := e
    unfold EdgeIn at e2
    rw [(by decide : gCex.get_neighbors "X" = [("A", 1)])] at e2
    have e3 := List.mem_singleton.mp e2
    have hb : b = "A" := congrArg Prod.fst e3
    have hw : w = 1 := congrArg Prod.snd e3
    subst hb
    subst hw
    rw [costOf_cons (by decide) e hp2, gCex_A_cost p2 hp2]
    norm_num

theorem gCex_admissible : Admissible gCex hCex "G" := by
  intro v p hp
  by_cases hv : v = "X"
  · subst hv
    rw [gCex_X_cost p hp]
    rw [(by decide : hCex "X" "G" = 3)]
  · have h0 : hCex v "G" = 0 := by
      unfold hCex
      rw [if_neg hv]
    rw [h0]
    exact costOf_nonneg (by decide) p
end SearchLemmas

/-- C5, the constructor defect and the scenario values: every scenario of
the claim begins with `MinHeap()`, which raises `TypeError` before any
method can run — the abstract `__contains__` of `DataStructureBase` is
never implemented, and even past that the base `__init__`'s
`self.is_empty = True` would fault on the getter-only `is_empty` property
— so `extract_min` returning the `None` sentinel "without raising" is
unreachable in the program.  On the modelled post-`__init__` state the
claimed values do hold: `extract_min` and `peek_min` return the `None`
sentinel on the empty heap; after `insert(5); insert(3); insert(8)` the
heap yields `3, 5, 8` in order; `build_heap([5,3,8,1,9,2])` followed by
six `extract_min()` calls yields `1, 2, 3, 5, 8, 9`. -/
theorem C5_minheap_scenarios :
    MinHeap.instantiate = Except.error PyInitError.typeError ∧
    MinHeap.unimplementedAbstract = ["__contains__"] ∧
    (MinHeap.empty.extract_min).1 = none ∧
    MinHeap.empty.peek_min = none ∧
    (let h1 := ((MinHeap.empty.insert 5).insert 3).insert 8
     let e1 := h1.extract_min
     let e2 := e1.2.extract_min
     let e3 := e2.2.extract_min
     e1.1 = some 3 ∧ e2.1 = some 5 ∧ e3.1 = some 8) ∧
    (let hb := MinHeap.empty.build_heap [5, 3, 8, 1, 9, 2]
     let e1 := hb.extract_min
     let e2 := e1.2.extract_min
     let e3 := e2.2.extract_min
     let e4 := e3.2.extract_min
     let e5 := e4.2.extract_min
     let e6 := e5.2.extract_min
     e1.1 = some 1 ∧ e2.1 = some 2 ∧ e3.1 = some 3 ∧
     e4.1 = some 5 ∧ e5.1 = some 8 ∧ e6.1 = some 9) :=
  ⟨rfl, rfl, by decide⟩

/-- C4, evaluation at the failing input: on the undirected graph with
vertices `1, 2` and the single edge `(1, 2, 1.0)` (two stored directions,
`edge_count = 2`), `remove_vertex(1)` succeeds and removes both stored
directions but decrements `edge_count` only once, leaving `edge_count = 1`
with zero stored edges; `remove_vertex` on an absent vertex correctly
fails. -/
theorem C4_remove_vertex_miscount :
    gC4.edge_count = 2 ∧
    gC4.get_edges.length = 2 ∧
    (gC4.remove_vertex 1).1 = true ∧
    ((gC4.remove_vertex 1).2).get_edges = [] ∧
    ((gC4.remove_vertex 1).2).edge_count = 1 ∧
    (gC4.remove_vertex 7).1 = false ∧
    (gC4.remove_vertex 7).2 = gC4 := by
  decide

/-- C6: `add_edge` fails without auto-creating vertices when an endpoint is
missing, fails when the edge already exists (leaving the graph unchanged in
both cases), establishes both directions with the given weight atomically
for an undirected graph with distinct endpoints (incrementing `edge_count`
by the two stored directions), and stores a self-loop exactly once
(one stored entry, `edge_count` incremented once). -/
theorem C6_add_edge {V : Type} [DecidableEq V] (g : Graph V) (hwf : g.WF)
    (u v : V) (w : ℚ) :
    ((u ∉ g.vertices ∨ v ∉ g.vertices) → g.add_edge u v w = (false, g)) ∧
    (g.has_edge u v = true → g.add_edge u v w = (false, g)) ∧
    ((g.add_edge u v w).1 = true → g.directed = false → u ≠ v →
      ((g.add_edge u v w).2.has_edge u v = true ∧
       (g.add_edge u v w).2.get_edge_weight u v = some w ∧
       (g.add_edge u v w).2.has_edge v u = true ∧
       (g.add_edge u v w).2.get_edge_weight v u = some w ∧
       (g.add_edge u v w).2.edge_count = g.edge_count + 2)) ∧
    ((g.add_edge u u w).1 = true →
      ((g.add_edge u u w).2.get_edge_weight u u = some w ∧
       (g.add_edge u u w).2.edge_count = g.edge_count + 1)) := by
  obtain ⟨hndv, hkeys, hrows⟩ := hwf
  refine ⟨?_, ?_, ?_, ?_⟩
  · intro h
    simp [Graph.add_edge, h]
  · intro hedge
    simp only [Graph.has_edge] at hedge
    by_cases hu : u ∈ g.vertices
    · by_cases hv : v ∈ g.vertices
      · obtain ⟨row, hrow, hmemrow⟩ := Graph.row_of_wf ⟨hndv, hkeys, hrows⟩ hu
        rw [if_neg (by simp [hu, hv])] at hedge
        rw [hrow] at hedge
        simp only [Option.getD_some, decide_eq_true_eq] at hedge
        simp [Graph.add_edge, hu, hv, hrow, hedge]
      · simp [hv] at hedge
    · simp [hu] at hedge
  · intro hsucc hdir hne
    by_cases hu : u ∈ g.vertices
    · by_cases hv : v ∈ g.vertices
      · obtain ⟨row, hrow, hmemrow⟩ := Graph.row_of_wf ⟨hndv, hkeys, hrows⟩ hu
        obtain ⟨row2, hrow2, hmemrow2⟩ := Graph.row_of_wf ⟨hndv, hkeys, hrows⟩ hv
        by_cases hvk : v ∈ alKeys row
        · simp [Graph.add_edge, hu, hv, hrow, hvk] at hsucc
        · have hvu : v ≠ u := fun he => hne he.symm
          have hget1 : alGet (alSet g.edges u (alSet row v w)) v = some row2 := by
            rw [alGet_alSet_ne _ _ hvu, hrow2]
          have hred : g.add_edge u v w =
              (true, { g with
                edges := alSet (alSet g.edges u (alSet row v w)) v (alSet row2 u w),
                edge_count := g.edge_count + 1 + 1 }) := by
            simp [Graph.add_edge, hu, hv, hrow, hvk, hdir, hne, hget1]
          rw [hred]
          have hgu : alGet (alSet (alSet g.edges u (alSet row v w)) v (alSet row2 u w)) u
              = some (alSet row v w) := by
            rw [alGet_alSet_ne _ _ hne, alGet_alSet_self]
          have hgv : alGet (alSet (alSet g.edges u (alSet row v w)) v (alSet row2 u w)) v
              = some (alSet row2 u w) := alGet_alSet_self _ _ _
          refine ⟨?_, ?_, ?_, ?_, by ring⟩
          · simp [Graph.has_edge, hu, hv, hgu,
              mem_keys_of_alGet (alGet_alSet_self row v w)]
          · simp [Graph.get_edge_weight, Graph.has_edge, hu, hv, hgu,
              mem_keys_of_alGet (alGet_alSet_self row v w), alGet_alSet_self]
          · simp [Graph.has_edge, hu, hv, hgv,
              mem_keys_of_alGet (alGet_alSet_self row2 u w)]
          · simp [Graph.get_edge_weight, Graph.has_edge, hu, hv, hgv,
              mem_keys_of_alGet (alGet_alSet_self row2 u w), alGet_alSet_self]
      · simp [Graph.add_edge, hv] at hsucc
    · simp [Graph.add_edge, hu] at hsucc
  · intro hsucc
    by_cases hu : u ∈ g.vertices
    · obtain ⟨row, hrow, hmemrow⟩ := Graph.row_of_wf ⟨hndv, hkeys, hrows⟩ hu
      by_cases huk : u ∈ alKeys row
      · simp [Graph.add_edge, hu, hrow, huk] at hsucc
      · have hred : g.add_edge u u w =
            (true, { g with
              edges := alSet g.edges u (alSet row u w),
              edge_count := g.edge_count + 1 }) := by
          simp [Graph.add_edge, hu, hrow, huk]
        rw [hred]
        have hgu : alGet (alSet g.edges u (alSet row u w)) u = some (alSet row u w) :=
          alGet_alSet_self _ _ _
        exact ⟨by simp [Graph.get_edge_weight, Graph.has_edge, hu, hgu,
            mem_keys_of_alGet (alGet_alSet_self row u w), alGet_alSet_self], rfl⟩
    · simp [Graph.add_edge, hu] at hsucc

/-- Witness for C6 on a concrete well-formed graph. -/
theorem C6_add_edge_witness :
    gABCD.WF ∧
    (((("A" : String) ∉ gABCD.vertices ∨ ("E" : String) ∉ gABCD.vertices) →
        gABCD.add_edge "A" "E" 2 = (false, gABCD)) ∧
     (gABCD.has_edge "A" "E" = true → gABCD.add_edge "A" "E" 2 = (false, gABCD)) ∧
     ((gABCD.add_edge "A" "E" 2).1 = true → gABCD.directed = false → "A" ≠ "E" →
       ((gABCD.add_edge "A" "E" 2).2.has_edge "A" "E" = true ∧
        (gABCD.add_edge "A" "E" 2).2.get_edge_weight "A" "E" = some 2 ∧
        (gABCD.add_edge "A" "E" 2).2.has_edge "E" "A" = true ∧
        (gABCD.add_edge "A" "E" 2).2.get_edge_weight "E" "A" = some 2 ∧
        (gABCD.add_edge "A" "E" 2).2.edge_count = gABCD.edge_count + 2)) ∧
     ((gABCD.add_edge "A" "A" 2).1 = true →
       ((gABCD.add_edge "A" "A" 2).2.get_edge_weight "A" "A" = some 2 ∧
        (gABCD.add_edge "A" "A" 2).2.edge_count = gABCD.edge_count + 1))) :=
  ⟨by decide, C6_add_edge gABCD (by decide) "A" "E" 2⟩

/-- C3: for every graph reachable from the empty undirected graph by
`add_vertex` / `add_edge` / `remove_edge` calls, the adjacency store is
symmetric: whenever `(u, v, w)` is stored, `has_edge v u` holds with
`get_edge_weight v u = w`; after a successful `add_edge u v w` the reverse
direction is present with the same weight; and a successful
`remove_edge u v` removes both directions. -/
theorem C3_undirected_symmetry {V : Type} [DecidableEq V] (g : Graph V)
    (hr : Reach g) :
    (∀ u v w, EdgeIn g u v w →
      g.has_edge v u = true ∧ g.get_edge_weight v u = some w) ∧
    (∀ u v w, (g.add_edge u v w).1 = true →
      (g.add_edge u v w).2.has_edge v u = true ∧
      (g.add_edge u v w).2.get_edge_weight v u = some w) ∧
    (∀ u v, (g.remove_edge u v).1 = true →
      (g.remove_edge u v).2.has_edge u v = false ∧
      (g.remove_edge u v).2.has_edge v u = false) := by
  have hg := reach_ginv hr
  refine ⟨?_, ?_, ?_⟩
  · intro u v w h
    exact edgeIn_has_edge hg.2.1 (ginv_sym hg h)
  · intro u v w hs
    have hgadd := ginv_add_edge hg u v w
    have hfwd := add_edge_success_edgeIn hg.2.1 hs
    exact edgeIn_has_edge hgadd.2.1 (ginv_sym hgadd hfwd)
  · intro u v hs
    obtain ⟨hdir, ⟨hnd, hkeys, hrows⟩, hsym⟩ := hg
    by_cases hu : u ∈ g.vertices
    case neg => simp [Graph.remove_edge, hu] at hs
    by_cases hv : v ∈ g.vertices
    case neg => simp [Graph.remove_edge, hv] at hs
    obtain ⟨row, hrow, hmemrow⟩ := Graph.row_of_wf ⟨hnd, hkeys, hrows⟩ hu
    have hndrow := (hrows _ hmemrow).1
    by_cases hvk : v ∈ alKeys row
    case neg => simp [Graph.remove_edge, hu, hv, hrow, hvk] at hs
    by_cases hne : u = v
    · subst hne
      have hred : (g.remove_edge u u).2 =
          { g with
            edges := alSet g.edges u (alErase row u),
            edge_count := g.edge_count - 1 } := by
        simp [Graph.remove_edge, hu, hrow, hvk]
      rw [hred]
      have lookup_u : alGet (alSet g.edges u (alErase row u)) u
          = some (alErase row u) := alGet_alSet_self _ _ _
      constructor <;>
        simp [Graph.has_edge, hu, lookup_u, not_mem_keys_alErase_self u hndrow]
    · obtain ⟨row2, hrow2, hmemrow2⟩ := Graph.row_of_wf ⟨hnd, hkeys, hrows⟩ hv
      have hndrow2 := (hrows _ hmemrow2).1
      have hvu : v ≠ u := fun hc => hne hc.symm
      have hget1 : alGet (alSet g.edges u (alErase row v)) v = some row2 := by
        rw [alGet_alSet_ne _ _ hvu, hrow2]
      by_cases hu2k : u ∈ alKeys row2
      case neg =>
        simp [Graph.remove_edge, hu, hv, hrow, hvk, hdir, hne, hget1, hu2k] at hs
      have hred : (g.remove_edge u v).2 =
          { g with
            edges := alSet (alSet g.edges u (alErase row v)) v (alErase row2 u),
            edge_count := g.edge_count - 1 - 1 } := by
        simp [Graph.remove_edge, hu, hv, hrow, hvk, hdir, hne, hget1, hu2k]
      rw [hred]
      have lookup_u :
          alGet (alSet (alSet g.edges u (alErase row v)) v (alErase row2 u)) u
            = some (alErase row v) := by
        rw [alGet_alSet_ne _ _ hne, alGet_alSet_self]
      have lookup_v :
          alGet (alSet (alSet g.edges u (alErase row v)) v (alErase row2 u)) v
            = some (alErase row2 u) := alGet_alSet_self _ _ _
      constructor
      · simp [Graph.has_edge, hu, hv, lookup_u, not_mem_keys_alErase_self v hndrow]
      · simp [Graph.has_edge, hu, hv, lookup_v, not_mem_keys_alErase_self u hndrow2]

/-- Witness for C3 at the concrete scenario graph, which is reachable
through the API. -/
theorem C3_undirected_symmetry_witness :
    Reach gABCD ∧
    ((∀ u v w, EdgeIn gABCD u v w →
       gABCD.has_edge v u = true ∧ gABCD.get_edge_weight v u = some w) ∧
     (∀ u v w, (gABCD.add_edge u v w).1 = true →
       (gABCD.add_edge u v w).2.has_edge v u = true ∧
       (gABCD.add_edge u v w).2.get_edge_weight v u = some w) ∧
     (∀ u v, (gABCD.remove_edge u v).1 = true →
       (gABCD.remove_edge u v).2.has_edge u v = false ∧
       (gABCD.remove_edge u v).2.has_edge v u = false)) :=
  ⟨reach_gABCD, C3_undirected_symmetry gABCD reach_gABCD⟩

/-- C7: for an unknown start vertex, `DepthFirstSearch.search` and
`BreadthFirstSearch.search` return the empty visitation list and
`DepthFirstSearch.find_path` and `BreadthFirstSearch.find_shortest_path`
return `None`; all four are total functions, so a missing or unreachable
target is a normal `[]`/`None` outcome, never an exception. -/
theorem C7_unknown_start {V : Type} [DecidableEq V] (g : Graph V)
    (s t : V) (t? : Option V) (hs : s ∉ g.vertices) :
    DepthFirstSearch.search g s t? = [] ∧
    BreadthFirstSearch.search g s t? = [] ∧
    DepthFirstSearch.find_path g s t = none ∧
    BreadthFirstSearch.find_shortest_path g s t = none := by
  refine ⟨?_, ?_, ?_, ?_⟩ <;>
    simp [DepthFirstSearch.search, BreadthFirstSearch.search,
      DepthFirstSearch.find_path, BreadthFirstSearch.find_shortest_path, hs]

/-- Witness for C7 at a concrete unknown start vertex. -/
theorem C7_unknown_start_witness :
    ("Z" ∉ gABCD.vertices) ∧
    (DepthFirstSearch.search gABCD "Z" (some "A") = [] ∧
     BreadthFirstSearch.search gABCD "Z" (some "A") = [] ∧
     DepthFirstSearch.find_path gABCD "Z" "A" = none ∧
     BreadthFirstSearch.find_shortest_path gABCD "Z" "A" = none) :=
  ⟨by decide, C7_unknown_start gABCD "Z" "A" (some "A") (by decide)⟩

/-- C10: the `execute` guards test truthiness of the keyword arguments, so
a falsy start key (such as the integer `0`) raises `ValueError` for all
three algorithms even when that key is a vertex of the graph; for
`AStarSearch.execute` a falsy target key raises likewise, and so does an
absent heuristic. -/
theorem C10_execute_falsy_guard (g : Graph PyKey) (s : PyKey)
    (hs : s ∈ g.vertices) (hf : pyTruthy s = false) :
    (∀ t? st, DepthFirstSearch.execute g (some s) t? st = .error .valueError) ∧
    (∀ t? st, BreadthFirstSearch.execute g (some s) t? st = .error .valueError) ∧
    (∀ t? h?, AStarSearch.execute g (some s) t? h? = .error .valueError) ∧
    (∀ (s' t : PyKey) h?, t ∈ g.vertices → pyTruthy t = false →
      AStarSearch.execute g (some s') (some t) h? = .error .valueError) ∧
    (∀ (s' t' : PyKey),
      AStarSearch.execute g (some s') (some t') none = .error .valueError) := by
  refine ⟨?_, ?_, ?_, ?_, ?_⟩
  · intro t? st
    simp [DepthFirstSearch.execute, pyTruthyOpt, hf]
  · intro t? st
    simp [BreadthFirstSearch.execute, pyTruthyOpt, hf]
  · intro t? h?
    simp [AStarSearch.execute, pyTruthyOpt, hf]
  · intro s' t h? _ hft
    simp [AStarSearch.execute, pyTruthyOpt, hft]
  · intro s' t'
    by_cases hs' : pyTruthy s' = true <;> by_cases ht' : pyTruthy t' = true <;>
      simp [AStarSearch.execute, pyTruthyOpt, hs', ht']

/-- Witness for C10: the key `0` is a vertex of `gPy` and is falsy, and
the guards reject it. -/
theorem C10_execute_falsy_guard_witness :
    ((PyKey.int 0 ∈ gPy.vertices) ∧ pyTruthy (PyKey.int 0) = false) ∧
    ((∀ t? st, DepthFirstSearch.execute gPy (some (PyKey.int 0)) t? st = .error .valueError) ∧
     (∀ t? st, BreadthFirstSearch.execute gPy (some (PyKey.int 0)) t? st = .error .valueError) ∧
     (∀ t? h?, AStarSearch.execute gPy (some (PyKey.int 0)) t? h? = .error .valueError) ∧
     (∀ (s' t : PyKey) h?, t ∈ gPy.vertices → pyTruthy t = false →
       AStarSearch.execute gPy (some s') (some t) h? = .error .valueError) ∧
     (∀ (s' t' : PyKey),
       AStarSearch.execute gPy (some s') (some t') none = .error .valueError)) :=
  ⟨⟨by decide, by decide⟩,
    C10_execute_falsy_guard gPy (PyKey.int 0) (by decide) (by decide)⟩


/-- C2, the constructor defect and the invariant of the modelled
operations: `MinHeap()` itself raises `TypeError` — the abstract
`__contains__` of `DataStructureBase` is never implemented (and the base
`__init__`'s `self.is_empty = True` would fault on the getter-only
`is_empty` property even then) — so in the program no operation sequence
ever runs on a constructed `MinHeap`.  The modelled operations themselves
do maintain the claimed heap-order invariant: after every sequence of
`insert`, `extract_min`, `update`, `build_heap` applied to the
post-`__init__` state, every index `i` with a child at `2i+1` or `2i+2`
within the current size stores a value no larger than that child (the
final state of every prefix of a longer sequence being itself of this
form). -/
theorem C2_heap_invariant (ops : List HeapOp) :
    MinHeap.instantiate = Except.error PyInitError.typeError ∧
    MinHeap.unimplementedAbstract = ["__contains__"] ∧
    MinHeap.heapInv (applyOps ops).data (applyOps ops).size :=
  ⟨rfl, rfl, (heapWF_applyOps ops).2⟩


/-- C8: for every well-formed graph and known start vertex,
`DepthFirstSearch.find_path` (modelled from the spec; the source body is a
`pass` stub) returns a valid path beginning at `start` and ending at
`target` whenever some path exists, returns `None` (never an empty list)
when no path exists, and returns the singleton `[start]` when
`start = target`. -/
theorem C8_dfs_find_path {V : Type} [DecidableEq V] (g : Graph V) (s t : V)
    (hwf : g.WF) (hs : s ∈ g.vertices) :
    (∀ p, DepthFirstSearch.find_path g s t = some p →
      IsPath g s t p ∧ p ≠ [] ∧ p.head? = some s ∧ p.getLast? = some t) ∧
    ((∃ q, IsPath g s t q) →
      ∃ p, DepthFirstSearch.find_path g s t = some p) ∧
    ((¬∃ q, IsPath g s t q) → DepthFirstSearch.find_path g s t = none) ∧
    (s = t → DepthFirstSearch.find_path g s t = some [s]) := by
  have hsound : ∀ p, DepthFirstSearch.find_path g s t = some p →
      IsPath g s t p := by
    intro p hp
    unfold DepthFirstSearch.find_path at hp
    rw [if_pos hs] at hp
    exact dfsPathVisit_sound (g.vertices.length + 1) g s t s [] []
      (Or.inl ⟨rfl, rfl⟩) p hp
  have hcomp : (∃ q, IsPath g s t q) →
      ∃ p, DepthFirstSearch.find_path g s t = some p := by
    rintro ⟨q, hq⟩
    unfold DepthFirstSearch.find_path
    rw [if_pos hs]
    rcases hV : dfsPathVisit g t (g.vertices.length + 1) s [] [] with ⟨res, visF⟩
    cases res with
    | some p => exact ⟨p, rfl⟩
    | none =>
      exfalso
      have hspec := dfsPathVisit_spec (g.vertices.length + 1) g t s [] [] none
        visF hwf hs (fun a ha => absurd ha (List.not_mem_nil a))
        List.nodup_nil (by simp) hV
      obtain ⟨_, _, _, _, hn⟩ := hspec
      obtain ⟨hsin, htpre, hclose⟩ := hn rfl
      have hwalk : ∀ (u z : V) (l : List V), IsPath g u z l →
          u ∈ visF → z ∈ visF := by
        intro u z l hl
        induction hl with
        | single a => exact fun hu => hu
        | @cons a b c p w e hp ih2 =>
          intro ha
          exact ih2 (hclose a ha (List.not_mem_nil a) b w e)
      exact absurd (htpre (hwalk s t q hq hsin)) (List.not_mem_nil t)
  have hnone : (¬∃ q, IsPath g s t q) →
      DepthFirstSearch.find_path g s t = none := by
    intro hno
    cases hres : DepthFirstSearch.find_path g s t with
    | none => rfl
    | some p => exact absurd ⟨p, hsound p hres⟩ hno
  have hst : s = t → DepthFirstSearch.find_path g s t = some [s] := by
    intro he
    unfold DepthFirstSearch.find_path
    rw [if_pos hs, ← he]
    simp [dfsPathVisit]
  exact ⟨fun p hp => ⟨hsound p hp, isPath_ne_nil (hsound p hp),
    isPath_head (hsound p hp), isPath_getLast (hsound p hp)⟩, hcomp, hnone, hst⟩

theorem C8_dfs_find_path_witness :
    Graph.WF gABCD ∧ "A" ∈ gABCD.vertices ∧
    ((∃ q, IsPath gABCD "A" "D" q) →
      ∃ p, DepthFirstSearch.find_path gABCD "A" "D" = some p) :=
  ⟨by decide, by decide,
    (C8_dfs_find_path gABCD "A" "D" (by decide) (by decide)).2.1⟩


/-- C9: for every well-formed graph and connected pair `s`, `t` (with `s`
known), `BreadthFirstSearch.find_shortest_path` (modelled from the spec;
the source body is a `pass` stub) returns a valid path from `s` to `t` of
minimum length, so `len(path) - 1` equals the true minimum number of edges
between `s` and `t`.  The FIFO traversal never consults the weights, so
this holds for every weighting and in particular for unweighted and
uniformly-weighted graphs. -/
theorem C9_bfs_shortest_path {V : Type} [DecidableEq V] (g : Graph V)
    (s t : V) (hwf : g.WF) (hs : s ∈ g.vertices)
    (hconn : ∃ q, IsPath g s t q) :
    ∃ p, BreadthFirstSearch.find_shortest_path g s t = some p ∧
      IsPath g s t p ∧ p.head? = some s ∧ p.getLast? = some t ∧
      ∀ l, IsPath g s t l → p.length ≤ l.length := by
  unfold BreadthFirstSearch.find_shortest_path
  rw [if_pos hs]
  have h := bfsLoop_min g s t hwf (g.vertices.length + 1)
    ⟨[(s, 0)], [s], []⟩ (fun _ => 0)
    (by simp) rfl
    (by
      intro a ha
      rw [List.mem_singleton.mp ha]
      exact hs)
    (List.nodup_singleton s)
    (by
      intro a ha
      simp at ha
      simp [ha])
    (by simp)
    (by
      intro a ha
      simp [alKeys] at ha)
    (List.pairwise_singleton _ _)
    (by intro x hx y hy; simp)
    (by intro u hu x hx; simp)
    (by
      intro u hu hq nb w he
      exfalso
      apply hq
      simp at hu
      simp [hu])
    (by
      intro ht
      simp at ht
      simp [ht])
    (by
      intro u hu
      rw [List.mem_singleton.mp hu]
      exact ⟨[s], rfl, IsPath.single s, rfl, by
        intro x hx
        simpa using hx⟩)
    (by
      simp only [List.length_singleton]
      omega)
    hconn
  obtain ⟨p, heq, hpath, hmin⟩ := h
  exact ⟨p, heq, hpath, isPath_head hpath, isPath_getLast hpath, hmin⟩

theorem C9_bfs_shortest_path_witness :
    Graph.WF gABCD ∧ "A" ∈ gABCD.vertices ∧
    (∃ q, IsPath gABCD "A" "D" q) ∧
    ∃ p, BreadthFirstSearch.find_shortest_path gABCD "A" "D" = some p ∧
      IsPath gABCD "A" "D" p ∧ p.head? = some "A" ∧ p.getLast? = some "D" ∧
      ∀ l, IsPath gABCD "A" "D" l → p.length ≤ l.length := by
  have hconn : ∃ q, IsPath gABCD "A" "D" q :=
    ⟨["A", "B", "D"],
      IsPath.cons (by decide : EdgeIn gABCD "A" "B" 1)
        (IsPath.cons (by decide : EdgeIn gABCD "B" "D" 2)
          (IsPath.single "D"))⟩
  exact ⟨by decide, by decide, hconn,
    C9_bfs_shortest_path gABCD "A" "D" (by decide) (by decide) hconn⟩


/-- C1, counterexample to the general part of the claim: the directed graph
`gCex` has non-negative weights, and `hCex` is admissible toward `G` (it
never exceeds the true remaining cost), yet `AStarSearch.search` returns
the path `[S, A, G]` of cost `5` while `[S, X, A, G]` is a path from `S`
to `G` of cost `4`: with a merely admissible (not consistent) heuristic
the closed-set algorithm of the spec can return a suboptimal path. -/
theorem C1_astar_admissible_counterexample :
    NonnegW gCex ∧ Admissible gCex hCex "G" ∧
    AStarSearch.search gCex "S" "G" hCex = some ["S", "A", "G"] ∧
    costOf gCex ["S", "A", "G"] = 5 ∧
    IsPath gCex "S" "G" ["S", "X", "A", "G"] ∧
    costOf gCex ["S", "X", "A", "G"] = 4 :=
  ⟨by decide, gCex_admissible, by with_unfolding_all rfl,
    by with_unfolding_all rfl,
    IsPath.cons (by decide : EdgeIn gCex "S" "X" 1)
      (IsPath.cons (by decide : EdgeIn gCex "X" "A" 1)
        (IsPath.cons (by decide : EdgeIn gCex "A" "G" 2) (IsPath.single "G"))),
    by with_unfolding_all rfl⟩

/-- C1 (amended): on the concrete scenario graph, `AStarSearch.search`
with the zero heuristic returns `[A, B, D]` of cost `3`; and for every
graph with non-negative weights and a consistent heuristic, any path the
search returns is a path from `s` to `t` of minimum cost. -/
theorem C1_astar_optimal {V : Type} [DecidableEq V] (g : Graph V) (s t : V)
    (heur : V → V → ℚ) (hwf : g.WF) (hnn : NonnegW g)
    (hcons : ConsistentH g heur t) :
    (∀ p, AStarSearch.search g s t heur = some p →
        IsPath g s t p ∧ ∀ q, IsPath g s t q → costOf g p ≤ costOf g q) ∧
    AStarSearch.search gABCD "A" "D" zeroHeur = some ["A", "B", "D"] ∧
    costOf gABCD ["A", "B", "D"] = 3 := by
  refine ⟨?_, by with_unfolding_all rfl, by with_unfolding_all rfl⟩
  intro p hp
  unfold AStarSearch.search at hp
  refine astarLoop_opt g s t heur hwf hnn hcons _ _ ?_ p hp
  have hget : ∀ v gv, alGet [(s, (0 : ℚ))] v = some gv → s = v ∧ gv = 0 := by
    intro v gv h
    simp only [alGet] at h
    split_ifs at h with hsv
    exact ⟨hsv, (Option.some.inj h).symm⟩
  refine ⟨?_, ?_, ?_, ?_, ?_, ?_, ?_, ?_, ?_, ?_, ?_⟩
  · intro v gv hgv
    obtain ⟨hsv, hgv0⟩ := hget v gv hgv
    subst hsv
    refine ⟨[s], rfl, IsPath.single s, ?_, by simp, ?_, ?_⟩
    · rw [hgv0]
      exact le_of_eq rfl
    · intro x hx
      exact Or.inl (List.mem_singleton.mp hx)
    · intro x hx
      simp at hx
  · intro v gv hgv
    exact le_of_eq ((hget v gv hgv).2).symm
  · simp [alGet]
  · exact List.not_mem_nil t
  · intro e he
    rw [List.mem_singleton] at he
    subst he
    exact ⟨0, by simp [alGet], le_refl _⟩
  · intro v gv hgv hncl
    obtain ⟨hsv, hgv0⟩ := hget v gv hgv
    subst hsv
    refine ⟨0 + heur s t, List.mem_singleton.mpr rfl, ?_⟩
    rw [hgv0]
  · intro u hu
    exact absurd hu (List.not_mem_nil u)
  · intro v hv
    left
    have hk : alKeys [(s, (0 : ℚ))] = [s] := rfl
    rw [hk] at hv
    exact List.mem_singleton.mp hv
  · intro y u hy
    exact absurd hy (by simp [alGet])
  · intro u hu
    exact absurd hu (List.not_mem_nil u)
  · intro u hu
    exact absurd hu (List.not_mem_nil u)

theorem C1_astar_optimal_witness :
    Graph.WF gABCD ∧ NonnegW gABCD ∧ ConsistentH gABCD zeroHeur "D" ∧
    ((∀ p, AStarSearch.search gABCD "A" "D" zeroHeur = some p →
        IsPath gABCD "A" "D" p ∧
          ∀ q, IsPath gABCD "A" "D" q → costOf gABCD p ≤ costOf gABCD q) ∧
      AStarSearch.search gABCD "A" "D" zeroHeur = some ["A", "B", "D"] ∧
      costOf gABCD ["A", "B", "D"] = 3) :=
  ⟨by decide, by decide, by with_unfolding_all decide,
    C1_astar_optimal gABCD "A" "D" zeroHeur (by decide) (by decide)
      (by with_unfolding_all decide)⟩

end AlgTut
